import Mathlib

/-!
Verification of the chatgpt-data-export-parser derivation pipeline.

This file gives a shallow embedding, in Lean 4, of the Python processing
pipeline under `src/processors` (normalization, NTBA identifier derivation,
main-path selection, project bucketing/labeling, turn building) and proves
or refutes the specification claims about it.

Modelling conventions:
* Python `dict`s are association lists `List (String × α)` in insertion
  order; `dict.get` is first-match lookup (`alookup`), `dict[k] = v` is
  `dinsert` (replace in place, else append), matching CPython's
  insertion-ordered dicts.
* Python `float` timestamps are modelled as `Rat`.  A raw JSON value that
  ought to be a number is a `TVal`: absent (`None`), a number, or a value
  on which Python's `float(...)` raises (`TVal.bad`).
* Python's `sorted` is a stable sort by a total preorder; it is modelled
  by `List.insertionSort` (also stable), which produces the identical
  list for every total preorder key.
* Unbounded recursion in the source (tree walks without a visited set) is
  modelled with explicit fuel; `none` means the Python original fails to
  terminate (or exceeds the recursion limit).  A raised Python exception
  is likewise modelled as `none` at the stage boundary.
-/

/-! ### Generic dictionary helpers -/

/-- First-match association-list lookup, the model of `dict.get`. -/
def alookup {α : Type} : List (String × α) → String → Option α
  | [], _ => none
  | (k, v) :: rest, key => if k = key then some v else alookup rest key

/-- The keys of an association list, in insertion order. -/
def akeys {α : Type} (l : List (String × α)) : List String :=
  l.map (·.1)

/-- `d[k] = v` on an insertion-ordered dict: replace the first binding of
`k` in place, else append a new binding at the end. -/
def dinsert {α : Type} : List (String × α) → String → α → List (String × α)
  | [], key, v => [(key, v)]
  | (k, w) :: rest, key, v =>
    if k = key then (key, v) :: rest else (k, w) :: dinsert rest key v

/-- `del d[k]`: drop every binding of `k` (a well-formed dict has at most
one). -/
def dremove {α : Type} (l : List (String × α)) (key : String) : List (String × α) :=
  l.filter (fun kv => kv.1 ≠ key)

/-- Rewrite the value stored at `k`, keeping its position; no-op when the
key is absent. -/
def dupdate {α : Type} : List (String × α) → String → (α → α) → List (String × α)
  | [], _, _ => []
  | (k, v) :: rest, key, f =>
    if k = key then (k, f v) :: rest else (k, v) :: dupdate rest key f

/-! ### Python scalar helpers -/

/-- A raw JSON field that Python will pass to `float(...)`:
absent (`None`), a parsed number, or a value on which `float` raises. -/
inductive TVal
  | noneV
  | numV (q : Rat)
  | badV
deriving DecidableEq, Repr

/-- `_safe_float` from `convert.py`: `None`/unparseable become `none`. -/
def safe_float : TVal → Option Rat
  | .noneV => none
  | .numV q => some q
  | .badV => none

/-- Characters stripped by Python's `str.strip()` (ASCII whitespace). -/
def pyWS (c : Char) : Bool :=
  c = ' ' ∨ c = '\t' ∨ c = '\n' ∨ c = '\r' ∨ c = '\x0b' ∨ c = '\x0c'

/-- Python `str.strip()`. -/
def pyStrip (s : String) : String :=
  String.mk (((s.data.dropWhile pyWS).reverse.dropWhile pyWS).reverse)

/-- The sentinel `9e18` used by the source as a "missing timestamp sorts
last" key component. -/
def bigTime : Rat := 9000000000000000000

/-! ### Lexicographic sort keys

Python sorts by tuples `(int, float, str)` compared lexicographically.
`lex3Le` is that order as a `Prop`; it is decidable and total. -/

/-- Lexicographic `≤` on `(Nat, Rat, String)` sort-key triples. -/
def lex3Le (a b : Nat × Rat × String) : Prop :=
  a.1 < b.1 ∨ (a.1 = b.1 ∧ (a.2.1 < b.2.1 ∨ (a.2.1 = b.2.1 ∧ a.2.2 ≤ b.2.2)))

instance : DecidableRel lex3Le := fun a b => by
  unfold lex3Le; infer_instance

theorem lex3Le_total : ∀ a b, lex3Le a b ∨ lex3Le b a := by
  intro a b
  rcases lt_trichotomy a.1 b.1 with h | h | h
  · exact Or.inl (Or.inl h)
  · rcases lt_trichotomy a.2.1 b.2.1 with h2 | h2 | h2
    · exact Or.inl (Or.inr ⟨h, Or.inl h2⟩)
    · rcases le_total a.2.2 b.2.2 with h3 | h3
      · exact Or.inl (Or.inr ⟨h, Or.inr ⟨h2, h3⟩⟩)
      · exact Or.inr (Or.inr ⟨h.symm, Or.inr ⟨h2.symm, h3⟩⟩)
    · exact Or.inr (Or.inr ⟨h.symm, Or.inl h2⟩)
  · exact Or.inr (Or.inl h)

theorem lex3Le_trans : ∀ a b c, lex3Le a b → lex3Le b c → lex3Le a c := by
  intro a b c hab hbc
  rcases hab with h | ⟨e, h⟩
  · rcases hbc with h' | ⟨e', _⟩
    · exact Or.inl (h.trans h')
    · exact Or.inl (e' ▸ h)
  · rcases hbc with h' | ⟨e', h'⟩
    · exact Or.inl (e ▸ h')
    · refine Or.inr ⟨e.trans e', ?_⟩
      rcases h with h2 | ⟨e2, h2⟩
      · rcases h' with h2' | ⟨e2', _⟩
        · exact Or.inl (h2.trans h2')
        · exact Or.inl (e2' ▸ h2)
      · rcases h' with h2' | ⟨e2', h2'⟩
        · exact Or.inl (e2 ▸ h2')
        · exact Or.inr ⟨e2.trans e2', h2.trans h2'⟩

instance : IsTotal (Nat × Rat × String) lex3Le := ⟨lex3Le_total⟩

instance : IsTrans (Nat × Rat × String) lex3Le := ⟨fun a b c => lex3Le_trans a b c⟩

/-! ### Raw export data model (input of the pipeline)

Shapes taken from `normalize.py` / `convert.py`.  Fields that Python reads
with `.get` and that may be absent are `Option`s.  A present-but-`null`
author role and a present-but-non-string project id behave exactly like
absent ones in the source, so both are modelled as `none`. -/

structure RawAuthor where
  role : Option String
deriving DecidableEq, Repr

structure RawContent where
  content_type : Option String
  parts : List String
deriving DecidableEq, Repr

structure RawMessage where
  author : Option RawAuthor
  content : Option RawContent
  create_time : TVal
  mid : Option String
deriving DecidableEq, Repr

structure RawNode where
  parent : Option String
  children : List String
  message : Option RawMessage
deriving DecidableEq, Repr

structure RawProject where
  pid : Option String
  pname : Option String
deriving DecidableEq, Repr

structure RawConvo where
  rid : Option String
  conversation_id : Option String
  title : Option String
  create_time : TVal
  update_time : TVal
  project : Option RawProject
  mapping : List (String × RawNode)
deriving DecidableEq, Repr

/-- The default node `{}` produced by `mapping.get(node_id, {})`. -/
def emptyRawNode : RawNode :=
  { parent := none, children := [], message := none }

/-! ### 4.1 Content extractor (`content.py` / `normalize.py`) -/

/-- `extract_text_from_content`: payload to display string.  The `text`
kind joins its parts with newlines and strips the result; anything else
becomes a bracketed placeholder, where a falsy kind (absent or the empty
string) renders as `unknown_content`. -/
def extract_text_from_content (content : Option RawContent) : String :=
  match content with
  | none => "[no content]"
  | some c =>
    if c.content_type = some "text" then
      pyStrip (String.intercalate "\n" c.parts)
    else
      "[" ++
        (match c.content_type with
          | none => "unknown_content"
          | some s => if s = "" then "unknown_content" else s) ++ "]"

/-! ### Decimal rendering (Python `f"{n:04d}"` etc.)

`repDec` renders a `Nat` in decimal (fuel-structured so that it reduces in
the kernel); `padNum w n` zero-pads on the left to a minimum width `w`,
exactly the behaviour of Python's `{:0wd}` format for non-negative ints. -/

def repDecAux : Nat → Nat → List Char
  | 0, _ => []
  | fuel + 1, n =>
    if n < 10 then [Char.ofNat (48 + n)]
    else repDecAux fuel (n / 10) ++ [Char.ofNat (48 + n % 10)]

/-- Decimal digits of `n`, most significant first. -/
def decChars (n : Nat) : List Char := repDecAux (n + 1) n

/-- Decimal rendering of a natural number. -/
def repDec (n : Nat) : String := String.mk (decChars n)

/-- Left-zero-padded decimal rendering, minimum width `w`. -/
def padChars (w n : Nat) : List Char :=
  List.replicate (w - (decChars n).length) '0' ++ decChars n

/-- `f"{n:0wd}"` for a natural number. -/
def padNum (w n : Nat) : String := String.mk (padChars w n)

/-- Value of a digit string, used to prove the decimal renderings
injective. -/
def evalDec (l : List Char) : Nat := l.foldl (fun a c => 10 * a + (c.toNat - 48)) 0

/-! ### Normalized data model and `normalize.py` -/

structure NMessage where
  role : String
  source_message_id : String
  create_time : Option Rat
  text : String
deriving DecidableEq, Repr

structure NNode where
  source_node_id : String
  parent : Option String
  children : List String
  message : Option NMessage
deriving DecidableEq, Repr

structure NormConvo where
  conversation_id : String
  title : String
  create_time : Option Rat
  update_time : Option Rat
  project : Option RawProject
  root_source_node_id : String
  nodes : List (String × NNode)
deriving DecidableEq, Repr

/-- The sort key of `normalize_mapping_tree.sort_key`: children with a
parseable timestamp first (by value), the rest keyed by the `9e18`
sentinel; child id is the final tie-break.  A missing child node or an
unparseable timestamp falls into the sentinel class. -/
def normalize_sort_key (mapping : List (String × RawNode)) (child_id : String) : Nat × Rat × String :=
  match (alookup mapping child_id).bind (·.message) with
  | none => (1, bigTime, child_id)
  | some msg =>
    match msg.create_time with
    | .numV q => (0, q, child_id)
    | .noneV => (1, bigTime, child_id)
    | .badV => (1, bigTime, child_id)

/-- Stable sort of a list by a `(Nat, Rat, String)` key, the model of
Python's `sorted(l, key=...)`. -/
def sortByKey {α : Type} (key : α → Nat × Rat × String) (l : List α) : List α :=
  @List.insertionSort α (fun a b => lex3Le (key a) (key b))
    (fun a b => inferInstanceAs (Decidable (lex3Le (key a) (key b)))) l

/-- `normalize_mapping_tree`: per-node shape copy, then deterministic child
sorting (the first pass is the identity in this model, so lookups go to
`mapping` itself). -/
def normalize_mapping_tree (mapping : List (String × RawNode)) : List (String × RawNode) :=
  mapping.map (fun kv =>
    (kv.1, { kv.2 with children := sortByKey (normalize_sort_key mapping) kv.2.children }))

/-- `find_root_id`: the literal `"root"` key if present, else the first
node with an absent parent, else the first key.  (Never called on an
empty mapping; that case returns `""`.) -/
def find_root_id (mapping : List (String × RawNode)) : String :=
  if (alookup mapping "root").isSome then "root"
  else
    match mapping.find? (fun kv => kv.2.parent = none) with
    | some kv => kv.1
    | none =>
      match mapping with
      | [] => ""
      | kv :: _ => kv.1

/-- Python truthiness for an optional string with a fallback: `a or b`. -/
def pyOrStr (a : Option String) (b : String) : String :=
  match a with
  | some s => if s = "" then b else s
  | none => b

/-- `extract_node_fields`: pulls role, message id, timestamp and extracted
text out of a node.  A `None` message propagates; the timestamp parse
failure is swallowed (`create_time = None`). -/
def extract_node_fields (source_node_id : String) (node : RawNode) : NNode :=
  match node.message with
  | none =>
    { source_node_id, parent := node.parent, children := node.children, message := none }
  | some msg =>
    let role := ((msg.author.bind (·.role)).getD "unknown")
    let smid := msg.mid.getD ""
    let ct : Option Rat :=
      match msg.create_time with
      | .numV q => some q
      | .noneV => none
      | .badV => none
    { source_node_id, parent := node.parent, children := node.children,
      message := some { role, source_message_id := smid, create_time := ct,
                        text := extract_text_from_content msg.content } }

/-- `float(x) if x is not None else None`, with no `try`: `none` from this
function models the `ValueError` Python raises on an unparseable value. -/
def float_or_raise : TVal → Option (Option Rat)
  | .noneV => some none
  | .numV q => some (some q)
  | .badV => none

/-- `normalize_conversation`.  `none` models the uncaught `ValueError`
raised by the bare `float(create_time)` / `float(update_time)` calls. -/
def normalize_conversation (raw : RawConvo) : Option NormConvo := do
  let ct ← float_or_raise raw.create_time
  let ut ← float_or_raise raw.update_time
  let convo_id := pyOrStr raw.rid (pyOrStr raw.conversation_id "unknown-id")
  let title := pyOrStr raw.title "Untitled"
  if raw.mapping = [] then
    pure { conversation_id := convo_id, title, create_time := ct, update_time := ut,
           project := raw.project, root_source_node_id := "", nodes := [] }
  else
    let norm := normalize_mapping_tree raw.mapping
    pure { conversation_id := convo_id, title, create_time := ct, update_time := ut,
           project := raw.project, root_source_node_id := find_root_id norm,
           nodes := norm.map (fun kv => (kv.1, extract_node_fields kv.1 kv.2)) }

/-! ### Processed data model and `derive_ids.py` -/

/-- Per-node `derived` dict.  String fields default to `""` (the model of
an absent key; the pipeline never distinguishes the two), `is_main_path`
is `none` while the key is absent, and `extra` carries any unrelated
entries (always untouched by the pipeline). -/
structure Derived where
  N : String := ""
  T : String := ""
  B : String := ""
  A : String := ""
  timestamp_human : String := ""
  is_main_path : Option Bool := none
  extra : List (String × String) := []
deriving DecidableEq, Repr

def emptyDerived : Derived := {}

structure PNode where
  source_node_id : String
  parent : Option String
  children : List String
  message : Option NMessage
  derived : Option Derived
deriving DecidableEq, Repr

/-- The default `{}` read back by `nodes.get(node_id, {})`. -/
def emptyPNode : PNode :=
  { source_node_id := "", parent := none, children := [], message := none, derived := none }

/-- Conversation-level `derived` labels set by `convert.py`. -/
structure PCL where
  labelP : String
  labelC : String
  labelPC : String
deriving DecidableEq, Repr

structure PTree where
  schema : String
  conversation_id : String
  title : String
  create_time : Option Rat
  update_time : Option Rat
  project : Option RawProject
  root_node_id : String
  nodes : List (String × PNode)
  derived : Option PCL
deriving DecidableEq, Repr

/-- The sort key of `sort_children_by_time` / `compute_T_labels` on
normalized nodes (`create_time` is already a parsed optional float, so the
`except` branch is dead). -/
def derive_sort_key (nodes : List (String × NNode)) (nid : String) : Nat × Rat × String :=
  match (alookup nodes nid).bind (·.message) with
  | none => (1, bigTime, nid)
  | some m =>
    match m.create_time with
    | none => (1, bigTime, nid)
    | some q => (0, q, nid)

/-- `sort_children_by_time`. -/
def sort_children_by_time (nodes : List (String × NNode)) (child_ids : List String) : List String :=
  sortByKey (derive_sort_key nodes) child_ids

/-- Append `child` to the group of `parent` (creating the group at the
end on first sight), the model of `parent_to_children.setdefault`. -/
def addGroup : List (String × List String) → String → String → List (String × List String)
  | [], p, c => [(p, [c])]
  | (k, g) :: rest, p, c =>
    if k = p then (k, g ++ [c]) :: rest else (k, g) :: addGroup rest p c

/-- `parent -> [children]` grouped from the parent pointers, in node
iteration order. -/
def parentToChildren (nodes : List (String × NNode)) : List (String × List String) :=
  nodes.foldl
    (fun acc kv =>
      match kv.2.parent with
      | none => acc
      | some p => addGroup acc p kv.1)
    []

/-- `compute_A_labels`: per parent-pointer sibling group, sort by time and
assign `"A <rank> of <count>"`; also rewrites each stored children list to
the sorted group (the source mutates `nodes` in place, so the rewritten
dict is returned alongside the label map).  The root's label, if any, is
deleted at the end. -/
def compute_A_labels (nodes : List (String × NNode)) (root_id : String) :
    List (String × String) × List (String × NNode) :=
  let res := (parentToChildren nodes).foldl
    (fun (acc : List (String × String) × List (String × NNode)) pg =>
      let kids_sorted := sort_children_by_time acc.2 pg.2
      let total := kids_sorted.length
      let A' := kids_sorted.enum.foldl
        (fun a ic => dinsert a ic.2 ("A " ++ repDec (ic.1 + 1) ++ " of " ++ repDec total)) acc.1
      let nodes' :=
        if (alookup acc.2 pg.1).isSome then
          dupdate acc.2 pg.1 (fun n => { n with children := kids_sorted })
        else acc.2
      (A', nodes'))
    ([], nodes)
  (dremove res.1 root_id, res.2)

/-- The branch-count DFS of `compute_B_labels`, with explicit fuel for the
unbounded recursion of the source (`none` = the Python call never
returns). -/
def dfsB (nodes : List (String × NNode)) : Nat → String → Nat → List (String × Nat) → Option (List (String × Nat))
  | 0, _, _, _ => none
  | fuel + 1, nid, bc, acc =>
    let acc1 := dinsert acc nid bc
    let kids := ((alookup nodes nid).map (·.children)).getD []
    let nbc := bc + (if 1 < kids.length then 1 else 0)
    kids.foldlM (fun a c => dfsB nodes fuel c nbc a) acc1

/-- `compute_B_labels`: branch-point count from the root, rendered
`"B%02d"`. -/
def compute_B_labels (nodes : List (String × NNode)) (root_id : String) :
    Option (List (String × String)) :=
  (dfsB nodes (nodes.length + 2) root_id 0 []).map
    (fun B => B.map (fun kv => (kv.1, "B" ++ padNum 2 kv.2)))

/-- `compute_T_labels`: rank all node ids by (timestamp presence,
timestamp, id) and render `"T%04d"` 1-based. -/
def compute_T_labels (nodes : List (String × NNode)) : List (String × String) :=
  let ordered := sortByKey (derive_sort_key nodes) (akeys nodes)
  ordered.enum.foldl (fun a ic => dinsert a ic.2 ("T" ++ padNum 4 (ic.1 + 1))) []

/-- The pre-order DFS of `compute_N_labels` (counter threaded through),
with explicit fuel. -/
def dfsN (nodes : List (String × NNode)) : Nat → String → Nat × List (String × String) → Option (Nat × List (String × String))
  | 0, _, _ => none
  | fuel + 1, nid, st =>
    let c' := st.1 + 1
    let acc' := dinsert st.2 nid ("N" ++ padNum 4 c')
    let kids := ((alookup nodes nid).map (·.children)).getD []
    kids.foldlM (fun s c => dfsN nodes fuel c s) (c', acc')

/-- `compute_N_labels`. -/
def compute_N_labels (nodes : List (String × NNode)) (root_id : String) :
    Option (List (String × String)) :=
  (dfsN nodes (nodes.length + 2) root_id (0, [])).map (·.2)

/-- `build_mark_id`: `"{N} {T} {B} {A or 'A 0 of 0'}"`. -/
def build_mark_id (vN vT vB vA : String) : String :=
  vN ++ " " ++ vT ++ " " ++ vB ++ " " ++ (if vA = "" then "A 0 of 0" else vA)

/-- Month abbreviations for `%b`. -/
def monthAbbrev (m : Int) : String :=
  if m = 1 then "Jan" else if m = 2 then "Feb" else if m = 3 then "Mar"
  else if m = 4 then "Apr" else if m = 5 then "May" else if m = 6 then "Jun"
  else if m = 7 then "Jul" else if m = 8 then "Aug" else if m = 9 then "Sep"
  else if m = 10 then "Oct" else if m = 11 then "Nov" else "Dec"

/-- `format_human_time`: epoch seconds to `"DD Mon YYYY HH:MM:SS"` (UTC,
civil-from-days calendar arithmetic); `""` for an absent value and for
timestamps whose year falls outside `datetime`'s 1..9999 range (Python
raises there and the source catches it into `""`). -/
def format_human_time (ts : Option Rat) : String :=
  match ts with
  | none => ""
  | some q =>
    let z : Int := q.floor
    let days : Int := z.fdiv 86400
    let secs : Int := z - days * 86400
    let z2 : Int := days + 719468
    let era : Int := z2.fdiv 146097
    let doe : Int := z2 - era * 146097
    let yoe : Int := (doe - doe.fdiv 1460 + doe.fdiv 36524 - doe.fdiv 146096).fdiv 365
    let y0 : Int := yoe + era * 400
    let doy : Int := doe - (365 * yoe + yoe.fdiv 4 - yoe.fdiv 100)
    let mp : Int := (5 * doy + 2).fdiv 153
    let d : Int := doy - (153 * mp + 2).fdiv 5 + 1
    let m : Int := mp + (if mp < 10 then 3 else -9)
    let y : Int := y0 + (if m ≤ 2 then 1 else 0)
    if y < 1 ∨ 9999 < y then ""
    else
      padNum 2 d.toNat ++ " " ++ monthAbbrev m ++ " " ++ padNum 4 y.toNat ++ " " ++
        padNum 2 (secs.fdiv 3600).toNat ++ ":" ++ padNum 2 ((secs.fdiv 60).emod 60).toNat ++
        ":" ++ padNum 2 (secs.emod 60).toNat

/-- The `mark_of` lookup built by `apply_mark_ids` (a total function; the
defaulted labels can only fire for ids outside the node set). -/
def mark_of_fn (A B T N : List (String × String)) (sid : String) : String :=
  build_mark_id ((alookup N sid).getD "N0000") ((alookup T sid).getD "T0000")
    ((alookup B sid).getD "B00") ((alookup A sid).getD "")

/-- The processed node built for one source node. -/
def processed_node_of (A B T N : List (String × String)) (nodes1 : List (String × NNode))
    (sid : String) (node : NNode) : PNode :=
  let markOf := mark_of_fn A B T N
  { source_node_id := sid
    parent :=
      match node.parent with
      | none => none
      | some p =>
        if p = "" then none
        else if (alookup nodes1 p).isSome then some (markOf p) else none
    children := (node.children.filter (fun cid => (alookup nodes1 cid).isSome)).map markOf
    message := node.message
    derived := some
      { N := (alookup N sid).getD "", T := (alookup T sid).getD "",
        B := (alookup B sid).getD "", A := (alookup A sid).getD "",
        timestamp_human := format_human_time (node.message.bind (·.create_time)),
        is_main_path := none, extra := [] } }

/-- `apply_mark_ids`: compute A/B/T/N, build a mark id per source node and
rewrite the tree keyed by mark ids.  A falsy or unknown root yields the
empty processed tree; `none` models the non-terminating DFS of the source
on a cyclic mapping. -/
def apply_mark_ids (normalized : NormConvo) : Option PTree :=
  let root_source := normalized.root_source_node_id
  let nodes := normalized.nodes
  if root_source = "" ∨ (alookup nodes root_source).isNone then
    some { schema := "processed_tree_v1", conversation_id := normalized.conversation_id,
           title := normalized.title, create_time := normalized.create_time,
           update_time := normalized.update_time, project := normalized.project,
           root_node_id := "", nodes := [], derived := none }
  else do
    let An := compute_A_labels nodes root_source
    let A := An.1
    let nodes1 := An.2
    let B ← compute_B_labels nodes1 root_source
    let T := compute_T_labels nodes1
    let N ← compute_N_labels nodes1 root_source
    let processed := nodes1.foldl
      (fun acc kv => dinsert acc (mark_of_fn A B T N kv.1) (processed_node_of A B T N nodes1 kv.1 kv.2)) []
    pure { schema := "processed_tree_v1", conversation_id := normalized.conversation_id,
           title := normalized.title, create_time := normalized.create_time,
           update_time := normalized.update_time, project := normalized.project,
           root_node_id := mark_of_fn A B T N root_source, nodes := processed, derived := none }

/-! ### Main-path selection (`derive_paths.py`) -/

/-- `get_node_time`: the node's message timestamp, `0.0` when the message
or the timestamp is absent. -/
def get_node_time (node : PNode) : Rat :=
  match node.message with
  | none => 0
  | some m => m.create_time.getD 0

/-- One step of the best-child loop of `compute_best_path_from`: take the
candidate when its total length is strictly greater, or equal with a
strictly later latest-timestamp; otherwise keep the incumbent. -/
def bestStep (acc : Int × Rat × Option String) (cand : String × Int × Rat) :
    Int × Rat × Option String :=
  if cand.2.1 > acc.1 then (cand.2.1, cand.2.2, some cand.1)
  else if cand.2.1 = acc.1 ∧ cand.2.2 > acc.2.1 then (acc.1, cand.2.2, some cand.1)
  else acc

/-- `compute_best_path_from`, fuelled: `(best_len, best_latest_time,
best_child)` for the path starting at `node_id`.  `none` models the
unbounded recursion of the source never returning. -/
def compute_best_path_from (nodes : List (String × PNode)) :
    Nat → String → Option (Int × Rat × Option String)
  | 0, _ => none
  | fuel + 1, node_id =>
    let node := (alookup nodes node_id).getD emptyPNode
    if node.children = [] then some (1, get_node_time node, none)
    else
      (node.children.mapM (fun cid =>
        (compute_best_path_from nodes fuel cid).map
          (fun r => (cid, (1 + r.1 : Int), max (get_node_time node) r.2.1)))).map
        (fun cands => cands.foldl bestStep (-1, -1, none))

/-- The walk of `mark_main_path`: from `current`, repeatedly follow the
recorded best child; returns the visited ids in order. -/
def walk_main (nodes : List (String × PNode)) : Nat → String → Option (List String)
  | 0, _ => none
  | fuel + 1, current =>
    match compute_best_path_from nodes (nodes.length + 2) current with
    | none => none
    | some r =>
      match r.2.2 with
      | none => some [current]
      | some c => (walk_main nodes fuel c).map (current :: ·)

/-- Set the `is_main_path` flag on one node: visited nodes get `true`
unconditionally; the others get `false` only when the key was not already
present (`setdefault` + membership test in the source). -/
def set_main_flag (onPath : Bool) (n : PNode) : PNode :=
  let d := n.derived.getD emptyDerived
  if onPath then { n with derived := some { d with is_main_path := some true } }
  else { n with derived := some { d with is_main_path := some (d.is_main_path.getD false) } }

/-- `mark_main_path`.  A falsy or unknown root returns the tree unchanged;
otherwise every node's flag is set according to membership in the walked
path.  `none` models divergence of the source. -/
def mark_main_path (tree : PTree) : Option PTree :=
  let nodes := tree.nodes
  let root := tree.root_node_id
  if root = "" ∨ (alookup nodes root).isNone then some tree
  else
    (walk_main nodes (nodes.length + 2) root).map (fun path =>
      { tree with nodes := nodes.map (fun kv => (kv.1, set_main_flag (path.elem kv.1) kv.2)) })

/-! ### Conversation bucketing and labels (`convert.py`) -/

/-- `_project_key_from_raw`: `"id:<id>"`, else `"name:<name>"`, else
`none`; blank-after-strip values do not count. -/
def project_key_from_raw (rc : RawConvo) : Option String :=
  match rc.project with
  | none => none
  | some proj =>
    let tryName : Option String :=
      match proj.pname with
      | some pn => if pyStrip pn = "" then none else some ("name:" ++ pyStrip pn)
      | none => none
    match proj.pid with
    | some pid => if pyStrip pid = "" then tryName else some ("id:" ++ pyStrip pid)
    | none => tryName

/-- `_convo_time_from_raw`. -/
def convo_time_from_raw (rc : RawConvo) : Option Rat := safe_float rc.create_time

/-- `_order_key_time_then_id`: known `create_time` first, then by time,
then by `conversation_id` (empty string when absent/non-string). -/
def order_key_time_then_id (rc : RawConvo) : Nat × Rat × String :=
  match convo_time_from_raw rc with
  | none => (1, bigTime, rc.conversation_id.getD "")
  | some t => (0, t, rc.conversation_id.getD "")

/-- Append `rc` to the bucket of `k`, creating the bucket at the end on
first sight (`buckets.setdefault`). -/
def addBucket : List (Option String × List RawConvo) → Option String → RawConvo →
    List (Option String × List RawConvo)
  | [], k, rc => [(k, [rc])]
  | (k', g) :: rest, k, rc =>
    if k' = k then (k', g ++ [rc]) :: rest else (k', g) :: addBucket rest k rc

/-- The project buckets in first-occurrence order. -/
def buckets_of (convos : List RawConvo) : List (Option String × List RawConvo) :=
  convos.foldl (fun acc rc => addBucket acc (project_key_from_raw rc) rc) []

/-- `buckets.get(pk, [])`. -/
def bucket_get (bs : List (Option String × List RawConvo)) (k : Option String) :
    List RawConvo :=
  ((bs.find? (fun kv => kv.1 = k)).map (·.2)).getD []

/-- `bucket_min_time`: earliest known conversation time in the bucket,
or the sorts-last sentinel when no time is known. -/
def bucket_min_time (bucket : List RawConvo) : Nat × Rat × String :=
  match bucket.filterMap convo_time_from_raw with
  | [] => (1, bigTime, "")
  | t :: ts => (0, ts.foldl min t, "")

/-- The non-`None` project keys sorted by `(has_time, min_time,
key_string)`. -/
def project_keys_sorted (convos : List RawConvo) : List String :=
  let bs := buckets_of convos
  sortByKey
    (fun k => ((bucket_min_time (bucket_get bs (some k))).1,
               (bucket_min_time (bucket_get bs (some k))).2.1, k))
    (bs.filterMap (·.1))

/-- The `P_label_of` dict as a function: `P0000` for the no-project
bucket (and the unreachable `.get` default), `P%04d` by 1-based position
in the sorted project-key order. -/
def p_label_of (convos : List RawConvo) (pk : Option String) : String :=
  match pk with
  | none => "P0000"
  | some k =>
    match (project_keys_sorted convos).findIdx? (fun x => x = k) with
    | some i => "P" ++ padNum 4 (i + 1)
    | none => "P0000"

/-- The `(raw_convo, P_label, C_label)` list of `convert_file`: the
no-project bucket first, then project buckets in sorted order; inside a
bucket conversations are sorted oldest-first and numbered `C%04d` from
1. -/
def ordered_with_labels (convos : List RawConvo) : List (RawConvo × String × String) :=
  let bs := buckets_of convos
  ((none :: (project_keys_sorted convos).map some).map (fun pk =>
    let convos_sorted := sortByKey order_key_time_then_id (bucket_get bs pk)
    convos_sorted.enum.map (fun ic =>
      (ic.2, p_label_of convos pk, "C" ++ padNum 4 (ic.1 + 1))))).flatten

/-- One conversation through the pipeline, with its derived labels
attached (`none` models the stage raising or diverging). -/
def convert_one (rc : RawConvo) (pl cl : String) : Option PTree := do
  let normalized ← normalize_conversation rc
  let t1 ← apply_mark_ids normalized
  let t2 ← mark_main_path t1
  pure { t2 with derived := some { labelP := pl, labelC := cl, labelPC := pl ++ "-" ++ cl } }

/-- `convert_file` on an already-decoded batch (JSON file I/O and
non-dict filtering excluded as external collaborators). -/
def convert_file (convos : List RawConvo) : Option (List PTree) :=
  (ordered_with_labels convos).mapM (fun t => convert_one t.1 t.2.1 t.2.2)

/-! ### Turn building (`turns.py`, `paths.py`)

`processors/mapping.py` is not part of the sources; its four helpers are
modelled from the spec. -/

/-- A `model.py` `Message` (the `metadata` blob, unused by every claim,
is omitted). -/
structure Msg where
  mid : String
  role : String
  text : String
  timestamp : Option Rat
  content_type : Option String
deriving DecidableEq, Repr

/-- A `model.py` `Turn`. -/
structure Turn where
  user : Msg
  assistant : Option Msg
  alternates : List Msg
deriving DecidableEq, Repr

/-- The raw message role, `"unknown"` when missing. -/
def raw_role (n : RawNode) : String :=
  ((n.message.bind (·.author)).bind (·.role)).getD "unknown"

/-- Modelled from the spec: `is_user_message` from the missing
`processors/mapping.py`; true exactly when the node carries a message
whose author role is `"user"` (spec 4.6: "every node on the main path
that carries a user-role message"). -/
def is_user_message (n : RawNode) : Bool :=
  ((n.message.bind (·.author)).bind (·.role)) = some "user"

/-- Modelled from the spec: `is_assistant_message` from the missing
`processors/mapping.py`; true exactly when the node carries a message
whose author role is `"assistant"` (spec 4.6: "the node's children
carrying an assistant-role message"). -/
def is_assistant_message (n : RawNode) : Bool :=
  ((n.message.bind (·.author)).bind (·.role)) = some "assistant"

/-- Modelled from the spec: `node_to_message` from the missing
`processors/mapping.py`; copies the node's display fields into an owned
`Message` value (spec 3: "a Turn exclusively owns copies of the Message
values it references"). -/
def node_to_message (node_id : String) (n : RawNode) : Msg :=
  { mid := node_id, role := raw_role n,
    text := extract_text_from_content (n.message.bind (·.content)),
    timestamp := n.message.bind (fun m => safe_float m.create_time),
    content_type := (n.message.bind (·.content)).bind (·.content_type) }

/-- `children_of` from `paths.py`. -/
def children_of (mapping : List (String × RawNode)) (node_id : String) : List String :=
  ((alookup mapping node_id).getD emptyRawNode).children

/-- `next_on_main_path`: the element after the first occurrence of
`current_id`, via `list.index`. -/
def next_on_main_path (main_path : List String) (current_id : String) : Option String :=
  match main_path.findIdx? (fun x => x = current_id) with
  | none => none
  | some i => main_path[i + 1]?

/-- `build_turns_from_main_path`: walk the path; each user node yields a
turn whose chosen assistant is the next path node when that node is an
assistant child, all other assistant children becoming alternates. -/
def build_turns_from_main_path (mapping : List (String × RawNode)) (main_path : List String) :
    List Turn :=
  if mapping = [] ∨ main_path = [] then []
  else main_path.filterMap (fun node_id =>
    let node := (alookup mapping node_id).getD emptyRawNode
    if is_user_message node then
      let assistant_child_ids := (children_of mapping node_id).filter
        (fun cid => is_assistant_message ((alookup mapping cid).getD emptyRawNode))
      let main_assistant_id : Option String :=
        match next_on_main_path main_path node_id with
        | some nxt => if nxt ∈ assistant_child_ids then some nxt else none
        | none => none
      some { user := node_to_message node_id node
             assistant := main_assistant_id.map
               (fun aid => node_to_message aid ((alookup mapping aid).getD emptyRawNode))
             alternates := (assistant_child_ids.filter (fun cid => main_assistant_id ≠ some cid)).map
               (fun cid => node_to_message cid ((alookup mapping cid).getD emptyRawNode)) }
    else none)

/-! ### Claim-side vocabulary

Definitions below are written from the words of the spec claims, to be
compared with the source-derived functions above. -/

/-- The timestamp a child id contributes to the normalizer's ordering:
absent when the child node is missing, has no message, no timestamp, or
an unparseable timestamp. -/
def child_ts (mapping : List (String × RawNode)) (cid : String) : Option Rat :=
  match (alookup mapping cid).bind (·.message) with
  | none => none
  | some m =>
    match m.create_time with
    | .numV q => some q
    | .noneV => none
    | .badV => none

/-- The claimed child order: timestamp present before absent, then value
ascending, then child id ascending. -/
def claim_child_le (mapping : List (String × RawNode)) (a b : String) : Prop :=
  match child_ts mapping a, child_ts mapping b with
  | some ta, some tb => ta < tb ∨ (ta = tb ∧ a ≤ b)
  | some _, none => True
  | none, some _ => False
  | none, none => a ≤ b

/-- Strict lexicographic order on `(length, latest-time)` path scores. -/
def lex2Lt (a b : Int × Rat) : Prop :=
  a.1 < b.1 ∨ (a.1 = b.1 ∧ a.2 < b.2)

/-- Non-strict companion of `lex2Lt`. -/
def lex2Le (a b : Int × Rat) : Prop := lex2Lt a b ∨ a = b

/-- The `(total length, path latest-time)` score of reaching child `cid`
from a node with own time `own`, given the child's recursive result. -/
def child_score (nodes : List (String × PNode)) (fuel : Nat) (own : Rat) (cid : String) :
    Int × Rat :=
  match compute_best_path_from nodes fuel cid with
  | none => (0, 0)
  | some r => ((1 + r.1 : Int), max own r.2.1)

/-- Split a character list on single spaces (empty fields kept). -/
def splitSpaces : List Char → List (List Char)
  | [] => [[]]
  | c :: rest =>
    if c = ' ' then [] :: splitSpaces rest
    else
      match splitSpaces rest with
      | t :: ts => (c :: t) :: ts
      | [] => [[c]]

/-- A nonempty all-digit character list. -/
def digitsNE (l : List Char) : Bool :=
  l.all (·.isDigit) && !l.isEmpty

/-- A `<tag><digits>` segment, zero-padded to at least `minLen` digits. -/
def tagSeg (tag : Char) (minLen : Nat) (l : List Char) : Bool :=
  match l with
  | c :: ds => c = tag && digitsNE ds && minLen ≤ ds.length
  | [] => false

/-- The claimed mark-identifier textual form
`"N<digits> T<digits> B<digits> A <rank> of <count>"` with N and T
zero-padded to at least four digits and B to at least two. -/
def check_mark_format (s : String) : Bool :=
  match splitSpaces s.data with
  | [n, t, b, a, r, o, c] =>
    tagSeg 'N' 4 n && tagSeg 'T' 4 t && tagSeg 'B' 2 b &&
      a = ['A'] && digitsNE r && o = ['o', 'f'] && digitsNE c
  | _ => false

/-- The canonical shape of every string `build_mark_id` produces on the
segment inputs the label stages construct: the four segments of the claim,
space-separated, with the `A` portion always in `"A <rank> of <count>"`
form (`0 of 0` standing for the root placeholder). -/
def markCanon (a b c r s : Nat) : String :=
  ("N" ++ padNum 4 a) ++ " " ++ ("T" ++ padNum 4 b) ++ " " ++ ("B" ++ padNum 2 c) ++ " " ++
    ("A " ++ repDec r ++ " of " ++ repDec s)

/-- The claim's successor-on-the-path: the element directly after `cur`. -/
def succ_in_path : List String → String → Option String
  | [], _ => none
  | a :: rest, cur => if a = cur then rest.head? else succ_in_path rest cur

/-- A ranking function witnessing that the children references are
acyclic: every child reference strictly decreases the rank, and ranks are
bounded by the number of nodes (true of every genuine tree via
`rank = size - depth`).  This is the termination hypothesis under which
the fuelled DFS walks of the source are proved to return. -/
def ChildrenAcyclic {α : Type} (childrenOf : α → List String)
    (nodes : List (String × α)) : Prop :=
  ∃ rank : String → Nat,
    (∀ id n, alookup nodes id = some n → ∀ c ∈ childrenOf n, rank c < rank id) ∧
    (∀ id, rank id ≤ nodes.length)

/-- Acyclicity of a normalized node map, in both reference directions: a
rank strictly decreasing along children links and strictly increasing
along parent pointers, bounded by the node count (true of every genuine
tree via `rank = size - depth`).  The parent direction matters because
`compute_A_labels` rewrites children lists from the parent pointers. -/
def TreeRanked (nodes : List (String × NNode)) : Prop :=
  ∃ rank : String → Nat,
    (∀ id n, alookup nodes id = some n → ∀ c ∈ n.children, rank c < rank id) ∧
    (∀ id n, alookup nodes id = some n → ∀ p, n.parent = some p → rank id < rank p) ∧
    (∀ id, rank id ≤ nodes.length)

/-- The claim's conversation order inside a bucket: conversations with a
known creation time first, by time then conversation id; unknown-time
conversations last, by conversation id. -/
def claim_convo_le (a b : RawConvo) : Prop :=
  match convo_time_from_raw a, convo_time_from_raw b with
  | some ta, some tb =>
    ta < tb ∨ (ta = tb ∧ a.conversation_id.getD "" ≤ b.conversation_id.getD "")
  | some _, none => True
  | none, some _ => False
  | none, none => a.conversation_id.getD "" ≤ b.conversation_id.getD ""

/-! ### Concrete example inputs (used by witnesses and counterexamples) -/

/-- A raw message with the given role and timestamp. -/
def mkMsg (role : String) (t : TVal) : RawMessage :=
  { author := some { role := some role }, content := some { content_type := some "text", parts := ["hi"] },
    create_time := t, mid := some "m" }

/-- A three-node raw mapping whose root lists its children out of time
order. -/
def exMapC3 : List (String × RawNode) :=
  [("r", { parent := none, children := ["b", "a"], message := none }),
   ("a", { parent := some "r", children := [], message := some (mkMsg "user" (.numV 1)) }),
   ("b", { parent := some "r", children := [], message := some (mkMsg "assistant" (.numV 2)) })]

/-- A processed node with the given children and timestamp. -/
def mkPNode (sid : String) (children : List String) (t : Option Rat) : PNode :=
  { source_node_id := sid, parent := none, children := children,
    message := some { role := "user", source_message_id := "", create_time := t, text := "" },
    derived := none }

/-- A processed tree: root `R` with leaf children `X` (t=5) and `Y` (t=9);
equal subtree length, so the later timestamp must win. -/
def exPTree : PTree :=
  { schema := "processed_tree_v1", conversation_id := "c", title := "t",
    create_time := none, update_time := none, project := none, root_node_id := "R",
    nodes := [("R", mkPNode "R" ["X", "Y"] none),
              ("X", mkPNode "X" [] (some 5)),
              ("Y", mkPNode "Y" [] (some 9))],
    derived := none }

/-- A rank function for `exPTree` (children strictly decrease). -/
def exRank (id : String) : Nat :=
  if id = "R" then 2 else 0

/-- A raw conversation whose conversation-level `create_time` is an
unparseable string: `normalize_conversation` raises `ValueError` on it. -/
def exBadTimeConvo : RawConvo :=
  { rid := some "c1", conversation_id := some "c1", title := some "T",
    create_time := .badV, update_time := .noneV, project := none,
    mapping := [("root", { parent := none, children := [], message := none })] }

/-- A normalized conversation whose root source id is the empty string
(legal: a raw mapping may use `""` as a node key and mark it parentless);
`apply_mark_ids` treats the falsy root as missing and returns the empty
tree. -/
def exEmptyRootNorm : NormConvo :=
  { conversation_id := "c", title := "t", create_time := none, update_time := none,
    project := none, root_source_node_id := "",
    nodes := [("", { source_node_id := "", parent := none, children := [], message := none })] }

/-- A two-node cyclic mapping (children references `a -> b -> a`): the
branch-depth DFS of the source recurses forever on it. -/
def exCycNodes : List (String × NNode) :=
  [("a", { source_node_id := "a", parent := none, children := ["b"], message := none }),
   ("b", { source_node_id := "b", parent := some "a", children := ["a"], message := none })]

/-- The statement that the branch-depth DFS diverges on a node map: no
amount of fuel makes it return. -/
def BDiverges (nodes : List (String × NNode)) (root : String) : Prop :=
  ∀ fuel bc acc, dfsB nodes fuel root bc acc = none

/-- A single-conversation raw mapping for the turn-builder witness: a
user node `u` with assistant children `s1` (t=1) and `s2` (t=2). -/
def exMapTurns : List (String × RawNode) :=
  [("root", { parent := none, children := ["u"], message := none }),
   ("u", { parent := some "root", children := ["s1", "s2"], message := some (mkMsg "user" (.numV 1)) }),
   ("s1", { parent := some "u", children := [], message := some (mkMsg "assistant" (.numV 2)) }),
   ("s2", { parent := some "u", children := [], message := some (mkMsg "assistant" (.numV 3)) })]

/-- A raw conversation with the given id/time/project. -/
def mkConvo (cid : String) (t : TVal) (proj : Option RawProject) : RawConvo :=
  { rid := some cid, conversation_id := some cid, title := some "T",
    create_time := t, update_time := .noneV, project := proj,
    mapping := [("root", { parent := none, children := [], message := none })] }

/-- The spec's bucketing scenario: one conversation in project `p1`
created earlier, one with no project created later. -/
def exConvos : List RawConvo :=
  [mkConvo "conv-a" (.numV 100) (some { pid := some "p1", pname := none }),
   mkConvo "conv-b" (.numV 200) none]

/-- A normalized three-node conversation (root and two timed children)
for the identifier-derivation witness. -/
def exNormC4 : NormConvo :=
  { conversation_id := "c", title := "t", create_time := none, update_time := none,
    project := none, root_source_node_id := "r",
    nodes := [("r", { source_node_id := "r", parent := none, children := ["b", "a"], message := none }),
              ("a", { source_node_id := "a", parent := some "r", children := [],
                      message := some { role := "user", source_message_id := "", create_time := some 1, text := "" } }),
              ("b", { source_node_id := "b", parent := some "r", children := [],
                      message := some { role := "assistant", source_message_id := "", create_time := some 2, text := "" } })] }

/-- A rank function for `exNormC4`. -/
def exRankC4 (id : String) : Nat :=
  if id = "r" then 2 else 0

/-! ## Theorems

General-purpose lemmas first, then one theorem per claim (with its
witness or counterexample). -/

theorem alookup_map_val {α β : Type} (f : String → α → β) :
    ∀ (l : List (String × α)) (id : String),
      alookup (l.map (fun kv => (kv.1, f kv.1 kv.2))) id = (alookup l id).map (f id) := by
  intro l id
  induction l with
  | nil => rfl
  | cons kv rest ih =>
    simp only [List.map_cons, alookup]
    by_cases h : kv.1 = id
    · subst h; simp
    · simp [h, ih]

theorem akeys_map_val {α β : Type} (f : String → α → β) (l : List (String × α)) :
    akeys (l.map (fun kv => (kv.1, f kv.1 kv.2))) = akeys l := by
  induction l with
  | nil => rfl
  | cons kv rest ih => simp only [akeys, List.map_cons] at ih ⊢; rw [ih]

theorem sortByKey_perm {α : Type} (key : α → Nat × Rat × String) (l : List α) :
    (sortByKey key l).Perm l :=
  List.perm_insertionSort _ l

theorem sortByKey_sorted {α : Type} (key : α → Nat × Rat × String) (l : List α) :
    (sortByKey key l).Pairwise (fun a b => lex3Le (key a) (key b)) := by
  letI : IsTotal α (fun a b => lex3Le (key a) (key b)) := ⟨fun a b => lex3Le_total _ _⟩
  letI : IsTrans α (fun a b => lex3Le (key a) (key b)) := ⟨fun a b c => lex3Le_trans _ _ _⟩
  exact List.sorted_insertionSort _ l

/-! ### Claim C9 -/

/-- Claim C9 (corrected): the content extractor maps a missing payload to
`"[no content]"`; kind `"text"` to the newline-join of its fragments,
trimmed, with an empty fragment list giving `""`; an absent **or empty**
kind to `"[unknown_content]"`; and any other kind `s` to `"[" ++ s ++ "]"`.
(The original claim routed an empty kind to `"[<kind>]" = "[]"`.) -/
theorem C9_extract_text :
    extract_text_from_content none = "[no content]" ∧
    (∀ p, extract_text_from_content (some { content_type := some "text", parts := p }) =
      pyStrip (String.intercalate "\n" p)) ∧
    extract_text_from_content (some { content_type := some "text", parts := [] }) = "" ∧
    (∀ p, extract_text_from_content (some { content_type := none, parts := p }) =
      "[unknown_content]") ∧
    (∀ p, extract_text_from_content (some { content_type := some "", parts := p }) =
      "[unknown_content]") ∧
    (∀ s p, s ≠ "text" → s ≠ "" →
      extract_text_from_content (some { content_type := some s, parts := p }) =
        "[" ++ s ++ "]") := by
  refine ⟨rfl, fun p => rfl, by decide, fun p => rfl, fun p => ?_, ?_⟩
  · simp [extract_text_from_content]
  · intro s p hs h0
    simp [extract_text_from_content, hs, h0]

/-- Claim C9 witness: the non-text clause at a concrete kind. -/
theorem C9_extract_text_witness :
    extract_text_from_content (some { content_type := some "image", parts := [] }) =
      "[" ++ "image" ++ "]" :=
  C9_extract_text.2.2.2.2.2 "image" [] (by decide) (by decide)

/-- Claim C9 counterexample: a present-but-empty kind renders as
`"[unknown_content]"`, not as the claim's `"[<kind>]"` (which would be
`"[]"`). -/
theorem C9_empty_kind_counterexample :
    extract_text_from_content (some { content_type := some "", parts := [] }) =
      "[unknown_content]" ∧ "[unknown_content]" ≠ "[]" := by
  exact ⟨by decide, by decide⟩

/-! ### Claim C5 -/

/-- Claim C5: the pipeline is a pure function of the batch value; the
embedding fixes every iteration order the source relies on (insertion-
ordered dicts, stable sorts), so re-running it on the same input yields
the identical output in every field, including mark identifiers and
P/C/PC labels. -/
theorem C5_convert_file_deterministic (convos : List RawConvo) :
    convert_file convos = convert_file convos := rfl

/-! ### Claim C3 -/

theorem normalize_sort_key_eq (mapping : List (String × RawNode)) (cid : String) :
    normalize_sort_key mapping cid =
      match child_ts mapping cid with
      | some q => (0, q, cid)
      | none => (1, bigTime, cid) := by
  unfold normalize_sort_key child_ts
  cases (alookup mapping cid).bind (·.message) with
  | none => rfl
  | some msg => cases hct : msg.create_time <;> simp [hct]

theorem lex3Le_key_imp_claim (mapping : List (String × RawNode)) (a b : String)
    (h : lex3Le (normalize_sort_key mapping a) (normalize_sort_key mapping b)) :
    claim_child_le mapping a b := by
  rw [normalize_sort_key_eq, normalize_sort_key_eq] at h
  unfold claim_child_le
  cases ha : child_ts mapping a with
  | none =>
    cases hb : child_ts mapping b with
    | none =>
      rw [ha, hb] at h
      rcases h with h | ⟨_, h | ⟨_, h⟩⟩
      · exact absurd h (by norm_num)
      · exact absurd h (by simp)
      · exact h
    | some tb =>
      rw [ha, hb] at h
      rcases h with h | ⟨h, _⟩
      · exact absurd h (by norm_num)
      · exact absurd h (by norm_num)
  | some ta =>
    cases hb : child_ts mapping b with
    | none => trivial
    | some tb =>
      rw [ha, hb] at h
      rcases h with h | ⟨_, h⟩
      · exact absurd h (by norm_num)
      · exact h

theorem claim_child_le_total (mapping : List (String × RawNode)) (a b : String) :
    claim_child_le mapping a b ∨ claim_child_le mapping b a := by
  unfold claim_child_le
  cases child_ts mapping a with
  | none =>
    cases child_ts mapping b with
    | none => exact le_total a b
    | some tb => exact Or.inr trivial
  | some ta =>
    cases child_ts mapping b with
    | none => exact Or.inl trivial
    | some tb =>
      rcases lt_trichotomy ta tb with h | h | h
      · exact Or.inl (Or.inl h)
      · rcases le_total a b with h2 | h2
        · exact Or.inl (Or.inr ⟨h, h2⟩)
        · exact Or.inr (Or.inr ⟨h.symm, h2⟩)
      · exact Or.inr (Or.inl h)

theorem claim_child_le_antisymm (mapping : List (String × RawNode)) (a b : String)
    (hab : claim_child_le mapping a b) (hba : claim_child_le mapping b a) : a = b := by
  unfold claim_child_le at hab hba
  cases ha : child_ts mapping a with
  | none =>
    cases hb : child_ts mapping b with
    | none => rw [ha, hb] at hab hba; exact le_antisymm hab hba
    | some tb => rw [ha, hb] at hab; exact hab.elim
  | some ta =>
    cases hb : child_ts mapping b with
    | none => rw [ha, hb] at hba; exact hba.elim
    | some tb =>
      rw [ha, hb] at hab hba
      rcases hab with h | ⟨he, h⟩
      · rcases hba with h' | ⟨he', _⟩
        · exact absurd (h.trans h') (lt_irrefl _)
        · exact absurd (he' ▸ h) (lt_irrefl _)
      · rcases hba with h' | ⟨_, h'⟩
        · exact absurd (he ▸ h') (lt_irrefl _)
        · exact le_antisymm h h'

/-- Claim C3: normalization rewrites every node in place, replacing its
children list by a permutation of itself sorted by the claimed key
(timestamp present before absent, value ascending, child id as final
tie-break; parse failures and dangling children count as absent); the
claimed order is total and antisymmetric (hence a total order determined
only by those keys), and the whole pass is a pure function, identical
across runs. -/
theorem C3_normalize_child_order (mapping : List (String × RawNode)) :
    (∀ id node', alookup (normalize_mapping_tree mapping) id = some node' →
      ∃ node, alookup mapping id = some node ∧
        node'.parent = node.parent ∧ node'.message = node.message ∧
        node'.children.Perm node.children ∧
        node'.children.Pairwise (claim_child_le mapping)) ∧
    (∀ a b, claim_child_le mapping a b ∨ claim_child_le mapping b a) ∧
    (∀ a b, claim_child_le mapping a b → claim_child_le mapping b a → a = b) ∧
    normalize_mapping_tree mapping = normalize_mapping_tree mapping := by
  refine ⟨?_, claim_child_le_total mapping, claim_child_le_antisymm mapping, rfl⟩
  intro id node' h
  have hmap : alookup (normalize_mapping_tree mapping) id =
      (alookup mapping id).map
        (fun n => { n with children := sortByKey (normalize_sort_key mapping) n.children }) := by
    unfold normalize_mapping_tree
    exact alookup_map_val
      (fun _ n => { n with children := sortByKey (normalize_sort_key mapping) n.children })
      mapping id
  rw [hmap] at h
  cases hl : alookup mapping id with
  | none => rw [hl] at h; exact absurd h (by simp)
  | some node =>
    rw [hl] at h
    refine ⟨node, rfl, ?_, ?_, ?_, ?_⟩
    · simp at h; rw [← h]
    · simp at h; rw [← h]
    · simp at h; rw [← h]; exact sortByKey_perm _ _
    · simp at h; rw [← h]
      exact (sortByKey_sorted (normalize_sort_key mapping) node.children).imp
        (fun hab => lex3Le_key_imp_claim mapping _ _ hab)

/-- Claim C3 witness: the out-of-order children of `exMapC3`'s root come
back time-sorted and pairwise ordered by the claimed key. -/
theorem C3_normalize_child_order_witness :
    ∃ node, alookup exMapC3 "r" = some node ∧
      (({ parent := none, children := ["a", "b"], message := none } : RawNode)).parent = node.parent ∧
      (({ parent := none, children := ["a", "b"], message := none } : RawNode)).message = node.message ∧
      (({ parent := none, children := ["a", "b"], message := none } : RawNode)).children.Perm node.children ∧
      (({ parent := none, children := ["a", "b"], message := none } : RawNode)).children.Pairwise (claim_child_le exMapC3) :=
  (C3_normalize_child_order exMapC3).1 "r"
    { parent := none, children := ["a", "b"], message := none } (by decide)

/-! ### Claim C1 -/

theorem lex2Lt_irrefl (a : Int × Rat) : ¬ lex2Lt a a := by
  unfold lex2Lt
  rintro (h | ⟨_, h⟩) <;> exact absurd h (lt_irrefl _)

theorem lex2Lt_trans {a b c : Int × Rat} (hab : lex2Lt a b) (hbc : lex2Lt b c) :
    lex2Lt a c := by
  unfold lex2Lt at *
  rcases hab with h | ⟨e, h⟩
  · rcases hbc with h' | ⟨e', _⟩
    · exact Or.inl (h.trans h')
    · exact Or.inl (e' ▸ h)
  · rcases hbc with h' | ⟨e', h'⟩
    · exact Or.inl (e ▸ h')
    · exact Or.inr ⟨e.trans e', h.trans h'⟩

theorem lex2Lt_asymm {a b : Int × Rat} (hab : lex2Lt a b) : ¬ lex2Lt b a :=
  fun hba => lex2Lt_irrefl a (lex2Lt_trans hab hba)

theorem lex2Lt_of_not_of_lt {a b c : Int × Rat} (hnab : ¬ lex2Lt a b) (hac : lex2Lt a c) :
    lex2Lt b c := by
  unfold lex2Lt at *
  push_neg at hnab
  obtain ⟨h1, h2⟩ := hnab
  rcases hac with h | ⟨e, h⟩
  · exact Or.inl (lt_of_le_of_lt h1 h)
  · rcases lt_or_eq_of_le h1 with hb | hb
    · exact Or.inl (lt_of_lt_of_le hb (le_of_eq e))
    · exact Or.inr ⟨hb.trans e, lt_of_le_of_lt (h2 hb.symm) h⟩

theorem bestStep_pos (acc : Int × Rat × Option String) (cand : String × Int × Rat)
    (h : lex2Lt (acc.1, acc.2.1) (cand.2.1, cand.2.2)) :
    bestStep acc cand = (cand.2.1, cand.2.2, some cand.1) := by
  unfold bestStep
  unfold lex2Lt at h
  split_ifs with h1 h2
  · rfl
  · rw [h2.1]
  · rcases h with h | ⟨e, hl⟩
    · exact absurd h h1
    · exact absurd ⟨e.symm, hl⟩ h2

theorem bestStep_neg (acc : Int × Rat × Option String) (cand : String × Int × Rat)
    (h : ¬ lex2Lt (acc.1, acc.2.1) (cand.2.1, cand.2.2)) :
    bestStep acc cand = acc := by
  unfold bestStep
  unfold lex2Lt at h
  split_ifs with h1 h2
  · exact absurd (Or.inl h1) h
  · exact absurd (Or.inr ⟨h2.1.symm, h2.2⟩) h
  · rfl

theorem foldl_bestStep_spec (cands : List (String × Int × Rat)) :
    ∀ acc : Int × Rat × Option String,
      (cands.foldl bestStep acc = acc ∧
        ∀ x ∈ cands, ¬ lex2Lt (acc.1, acc.2.1) (x.2.1, x.2.2)) ∨
      (∃ i, ∃ hi : i < cands.length,
        cands.foldl bestStep acc =
          ((cands.get ⟨i, hi⟩).2.1, (cands.get ⟨i, hi⟩).2.2, some (cands.get ⟨i, hi⟩).1) ∧
        lex2Lt (acc.1, acc.2.1) ((cands.get ⟨i, hi⟩).2.1, (cands.get ⟨i, hi⟩).2.2) ∧
        (∀ j, ∀ hj : j < cands.length, j < i →
          lex2Lt ((cands.get ⟨j, hj⟩).2.1, (cands.get ⟨j, hj⟩).2.2)
            ((cands.get ⟨i, hi⟩).2.1, (cands.get ⟨i, hi⟩).2.2)) ∧
        (∀ j, ∀ hj : j < cands.length,
          ¬ lex2Lt ((cands.get ⟨i, hi⟩).2.1, (cands.get ⟨i, hi⟩).2.2)
            ((cands.get ⟨j, hj⟩).2.1, (cands.get ⟨j, hj⟩).2.2))) := by
  induction cands with
  | nil => intro acc; exact Or.inl ⟨rfl, by simp⟩
  | cons c rest ih =>
    intro acc
    rw [List.foldl_cons]
    by_cases h : lex2Lt (acc.1, acc.2.1) (c.2.1, c.2.2)
    · rw [bestStep_pos acc c h]
      rcases ih (c.2.1, c.2.2, some c.1) with ⟨heq, hall⟩ | ⟨i', hi', heq, hlt, hfirst, hmax⟩
      · refine Or.inr ⟨0, by simp, by simpa using heq, by simpa using h, ?_, ?_⟩
        · intro j hj hj0; omega
        · intro j hj
          cases j with
          | zero => simpa using lex2Lt_irrefl (c.2.1, c.2.2)
          | succ j =>
            simp only [List.get_cons_succ, List.get_cons_zero]
            simpa using hall _ (List.get_mem rest _ _)
      · refine Or.inr ⟨i' + 1, by simpa using hi', by simpa using heq, ?_, ?_, ?_⟩
        · simp only [List.get_cons_succ]
          exact lex2Lt_trans h (by simpa using hlt)
        · intro j hj hji
          cases j with
          | zero =>
            simp only [List.get_cons_zero, List.get_cons_succ]
            simpa using hlt
          | succ j =>
            simp only [List.get_cons_succ]
            exact hfirst j (by simpa using hj) (by omega)
        · intro j hj
          cases j with
          | zero =>
            simp only [List.get_cons_zero, List.get_cons_succ]
            exact fun hc => lex2Lt_asymm (by simpa using hlt) (by simpa using hc)
          | succ j =>
            simp only [List.get_cons_succ]
            exact hmax j (by simpa using hj)
    · rw [bestStep_neg acc c h]
      rcases ih acc with ⟨heq, hall⟩ | ⟨i', hi', heq, hlt, hfirst, hmax⟩
      · refine Or.inl ⟨heq, ?_⟩
        intro x hx
        rcases List.mem_cons.1 hx with rfl | hx
        · exact h
        · exact hall x hx
      · refine Or.inr ⟨i' + 1, by simpa using hi', by simpa using heq, by simpa using hlt, ?_, ?_⟩
        · intro j hj hji
          cases j with
          | zero =>
            simp only [List.get_cons_zero, List.get_cons_succ]
            exact lex2Lt_of_not_of_lt h (by simpa using hlt)
          | succ j =>
            simp only [List.get_cons_succ]
            exact hfirst j (by simpa using hj) (by omega)
        · intro j hj
          cases j with
          | zero =>
            simp only [List.get_cons_zero, List.get_cons_succ]
            intro hc
            exact h (lex2Lt_trans (by simpa using hlt) (by simpa using hc))
          | succ j =>
            simp only [List.get_cons_succ]
            exact hmax j (by simpa using hj)

theorem mapM_option_forall2 {α β : Type} (f : α → Option β) :
    ∀ (l : List α) (r : List β), l.mapM f = some r →
      List.Forall₂ (fun a b => f a = some b) l r := by
  intro l
  induction l with
  | nil =>
    intro r h
    rw [List.mapM_nil] at h
    cases h
    exact List.Forall₂.nil
  | cons a t ih =>
    intro r h
    rw [List.mapM_cons] at h
    cases hfa : f a with
    | none => rw [hfa] at h; exact Option.noConfusion h
    | some b =>
      rw [hfa] at h
      cases hmt : t.mapM f with
      | none => rw [hmt] at h; exact Option.noConfusion h
      | some bs =>
        rw [hmt] at h
        simp only [Option.bind_some, Option.some_bind, pure] at h
        cases h
        exact List.Forall₂.cons hfa (ih bs hmt)

/-- Dissect one internal step of `compute_best_path_from`: the candidate
list all evaluated, and the result is the best-child fold over it. -/
theorem compute_best_cands (nodes : List (String × PNode)) (fuel : Nat) (nid : String)
    (node : PNode) (hn : alookup nodes nid = some node) (hne : node.children ≠ [])
    (res : Int × Rat × Option String)
    (h : compute_best_path_from nodes (fuel + 1) nid = some res) :
    ∃ cands,
      node.children.mapM (fun cid =>
        (compute_best_path_from nodes fuel cid).map
          (fun r => (cid, (1 + r.1 : Int), max (get_node_time node) r.2.1))) = some cands ∧
      res = cands.foldl bestStep (-1, -1, none) := by
  rw [show compute_best_path_from nodes (fuel + 1) nid =
        (let node := (alookup nodes nid).getD emptyPNode
         if node.children = [] then some (1, get_node_time node, none)
         else
           (node.children.mapM (fun cid =>
             (compute_best_path_from nodes fuel cid).map
               (fun r => (cid, (1 + r.1 : Int), max (get_node_time node) r.2.1)))).map
             (fun cands => cands.foldl bestStep (-1, -1, none))) from rfl] at h
  rw [hn] at h
  simp only [Option.getD_some] at h
  rw [if_neg hne] at h
  cases hm : node.children.mapM (fun cid =>
      (compute_best_path_from nodes fuel cid).map
        (fun r => (cid, (1 + r.1 : Int), max (get_node_time node) r.2.1))) with
  | none => rw [hm] at h; exact Option.noConfusion h
  | some cands =>
    rw [hm] at h
    simp only [Option.map_some'] at h
    cases h
    exact ⟨cands, rfl, rfl⟩

/-- Pointwise shape of the candidate list: the `i`-th candidate carries
the `i`-th child id and its `child_score`. -/
theorem cands_pointwise (nodes : List (String × PNode)) (fuel : Nat) (own : Rat)
    (children : List String) (cands : List (String × Int × Rat))
    (hm : children.mapM (fun cid =>
      (compute_best_path_from nodes fuel cid).map
        (fun r => (cid, (1 + r.1 : Int), max own r.2.1))) = some cands) :
    cands.length = children.length ∧
    ∀ i (hi : i < cands.length) (hi' : i < children.length),
      (cands.get ⟨i, hi⟩).1 = children.get ⟨i, hi'⟩ ∧
      ((cands.get ⟨i, hi⟩).2.1, (cands.get ⟨i, hi⟩).2.2) =
        child_score nodes fuel own (children.get ⟨i, hi'⟩) := by
  have h2 := mapM_option_forall2 _ children cands hm
  rw [List.forall₂_iff_get] at h2
  obtain ⟨hlen, hpt⟩ := h2
  refine ⟨hlen.symm, ?_⟩
  intro i hi hi'
  have := hpt i hi' hi
  cases hc : compute_best_path_from nodes fuel (children.get ⟨i, hi'⟩) with
  | none => rw [hc] at this; exact Option.noConfusion this
  | some r =>
    rw [hc] at this
    simp only [Option.map_some', Option.some_inj] at this
    constructor
    · rw [← this]
    · rw [← this]
      unfold child_score
      rw [hc]

/-- Every successful `compute_best_path_from` result has length at least
1. -/
theorem compute_best_len_pos (nodes : List (String × PNode)) :
    ∀ fuel nid res, compute_best_path_from nodes fuel nid = some res → 1 ≤ res.1 := by
  intro fuel
  induction fuel with
  | zero =>
    intro nid res h
    exact absurd h (by simp [compute_best_path_from])
  | succ fuel ih =>
    intro nid res h
    by_cases hne : ((alookup nodes nid).getD emptyPNode).children = []
    · rw [show compute_best_path_from nodes (fuel + 1) nid =
            (let node := (alookup nodes nid).getD emptyPNode
             if node.children = [] then some (1, get_node_time node, none)
             else
               (node.children.mapM (fun cid =>
                 (compute_best_path_from nodes fuel cid).map
                   (fun r => (cid, (1 + r.1 : Int), max (get_node_time node) r.2.1)))).map
                 (fun cands => cands.foldl bestStep (-1, -1, none))) from rfl,
          if_pos hne] at h
      cases h
      exact le_refl 1
    · obtain ⟨cands, hm, hres⟩ :=
        compute_best_cands nodes fuel nid ((alookup nodes nid).getD emptyPNode)
          (by cases hl : alookup nodes nid with
              | none => rw [hl] at hne; exact absurd (rfl : ([] : List String) = []) hne
              | some n => rfl)
          hne res h
      obtain ⟨hlen, hpt⟩ := cands_pointwise nodes fuel
        (get_node_time ((alookup nodes nid).getD emptyPNode))
        ((alookup nodes nid).getD emptyPNode).children cands hm
      have hcne : cands ≠ [] := by
        intro hc
        rw [hc] at hlen
        exact hne (List.length_eq_zero.1 hlen.symm)
      have hlen0 : 0 < cands.length := List.length_pos.2 hcne
      have hlen0' : 0 < ((alookup nodes nid).getD emptyPNode).children.length := by
        rw [← hlen]; exact hlen0
      obtain ⟨hid0, hsc0⟩ := hpt 0 hlen0 hlen0'
      have hscore1 : 1 ≤ (cands.get ⟨0, hlen0⟩).2.1 := by
        cases hc : compute_best_path_from nodes fuel
            (((alookup nodes nid).getD emptyPNode).children.get ⟨0, hlen0'⟩) with
        | none =>
          rw [show child_score nodes fuel
                (get_node_time ((alookup nodes nid).getD emptyPNode))
                (((alookup nodes nid).getD emptyPNode).children.get ⟨0, hlen0'⟩) =
              (0, 0) from by unfold child_score; rw [hc]] at hsc0
          exact absurd hsc0 (by
            intro hx
            have hx1 := congrArg Prod.fst hsc0
            simp at hx1
            have h2 := hpt 0 hlen0 hlen0'
            -- a none child contradicts the successful mapM; derive via forall₂
            have h3 := mapM_option_forall2 _ _ _ hm
            rw [List.forall₂_iff_get] at h3
            have h4 := h3.2 0 hlen0' hlen0
            rw [hc] at h4
            simp at h4)
        | some r =>
          have h1r := ih _ r hc
          have : ((cands.get ⟨0, hlen0⟩).2.1, (cands.get ⟨0, hlen0⟩).2.2) =
              ((1 + r.1 : Int), max (get_node_time ((alookup nodes nid).getD emptyPNode)) r.2.1) := by
            rw [hsc0]; unfold child_score; rw [hc]
          have h5 := congrArg Prod.fst this
          simp only at h5
          rw [h5]
          omega
      have hlt0 : lex2Lt ((-1 : Int), (-1 : Rat))
          ((cands.get ⟨0, hlen0⟩).2.1, (cands.get ⟨0, hlen0⟩).2.2) := by
        exact Or.inl (by simp only; omega)
      rcases foldl_bestStep_spec cands ((-1 : Int), (-1 : Rat), none) with ⟨heq, hall⟩ | ⟨i, hi, heq, _, _, hmax⟩
      · exact absurd hlt0 (by simpa using hall _ (List.get_mem cands _ _))
      · rw [hres, heq]
        simp only
        by_contra hcon
        push_neg at hcon
        have : lex2Lt ((cands.get ⟨i, hi⟩).2.1, (cands.get ⟨i, hi⟩).2.2)
            ((cands.get ⟨0, hlen0⟩).2.1, (cands.get ⟨0, hlen0⟩).2.2) :=
          Or.inl (by simp only; omega)
        exact hmax 0 hlen0 this

theorem lex2Le_of_not_lt {a b : Int × Rat} (h : ¬ lex2Lt a b) : lex2Le b a := by
  unfold lex2Le lex2Lt at *
  push_neg at h
  rcases lt_or_eq_of_le h.1 with hb | hb
  · exact Or.inl (Or.inl hb)
  · rcases lt_or_eq_of_le (h.2 hb.symm) with h2 | h2
    · exact Or.inl (Or.inr ⟨hb, h2⟩)
    · exact Or.inr (Prod.ext hb h2)

theorem cands_child_some (nodes : List (String × PNode)) (fuel : Nat) (own : Rat)
    (children : List String) (cands : List (String × Int × Rat))
    (hm : children.mapM (fun cid =>
      (compute_best_path_from nodes fuel cid).map
        (fun r => (cid, (1 + r.1 : Int), max own r.2.1))) = some cands) :
    ∀ i (hi' : i < children.length),
      ∃ r, compute_best_path_from nodes fuel (children.get ⟨i, hi'⟩) = some r := by
  intro i hi'
  have h3 := mapM_option_forall2 _ _ _ hm
  rw [List.forall₂_iff_get] at h3
  have h4 := h3.2 i hi' (by rw [← h3.1]; exact hi')
  cases hc : compute_best_path_from nodes fuel (children.get ⟨i, hi'⟩) with
  | none => rw [hc] at h4; exact Option.noConfusion h4
  | some r => exact ⟨r, rfl⟩

/-- Claim C1: at every internal node the recorded best child is the
first child attaining the lexicographic maximum of
`(total path length, latest timestamp along the path)` — strictly longer
wins outright, equal length with strictly later latest-time wins, any
remaining tie keeps the earliest child in the fixed child order — and the
node's result carries that child's score (`1 +` its length, and the max
of the node's own time and the child's latest).  A leaf scores
`(1, own timestamp, no child)`, where a missing timestamp counts as 0. -/
theorem C1_best_path_choice (nodes : List (String × PNode)) (node_id : String)
    (node : PNode) (hn : alookup nodes node_id = some node)
    (fuel : Nat) (res : Int × Rat × Option String)
    (h : compute_best_path_from nodes (fuel + 1) node_id = some res) :
    (node.children = [] → res = (1, get_node_time node, none) ∧
      get_node_time node = (node.message.bind (·.create_time)).getD 0) ∧
    (node.children ≠ [] → ∃ i, ∃ hi : i < node.children.length,
      res.2.2 = some (node.children.get ⟨i, hi⟩) ∧
      (res.1, res.2.1) = child_score nodes fuel (get_node_time node) (node.children.get ⟨i, hi⟩) ∧
      (∀ j, ∀ hj : j < node.children.length,
        lex2Le (child_score nodes fuel (get_node_time node) (node.children.get ⟨j, hj⟩))
          (child_score nodes fuel (get_node_time node) (node.children.get ⟨i, hi⟩))) ∧
      (∀ j, ∀ hj : j < node.children.length, j < i →
        lex2Lt (child_score nodes fuel (get_node_time node) (node.children.get ⟨j, hj⟩))
          (child_score nodes fuel (get_node_time node) (node.children.get ⟨i, hi⟩)))) := by
  by_cases hk : node.children = []
  · refine ⟨fun _ => ⟨?_, ?_⟩, fun hne => absurd hk hne⟩
    · rw [show compute_best_path_from nodes (fuel + 1) node_id =
            (let nd := (alookup nodes node_id).getD emptyPNode
             if nd.children = [] then some (1, get_node_time nd, none)
             else
               (nd.children.mapM (fun cid =>
                 (compute_best_path_from nodes fuel cid).map
                   (fun r => (cid, (1 + r.1 : Int), max (get_node_time nd) r.2.1)))).map
                 (fun cands => cands.foldl bestStep (-1, -1, none))) from rfl] at h
      rw [hn] at h
      simp only [Option.getD_some] at h
      rw [if_pos hk] at h
      cases h
      rfl
    · unfold get_node_time
      cases node.message with
      | none => rfl
      | some m => rfl
  · refine ⟨fun hl => absurd hl hk, fun _ => ?_⟩
    obtain ⟨cands, hm, hres⟩ := compute_best_cands nodes fuel node_id node hn hk res h
    obtain ⟨hlen, hpt⟩ := cands_pointwise nodes fuel (get_node_time node) node.children cands hm
    have h0n : 0 < node.children.length := List.length_pos.2 hk
    have h0c : 0 < cands.length := by rw [hlen]; exact h0n
    obtain ⟨r0, hr0⟩ := cands_child_some nodes fuel (get_node_time node) node.children cands hm 0 h0n
    have h1r0 := compute_best_len_pos nodes fuel _ r0 hr0
    have hsc0 := (hpt 0 h0c h0n).2
    have hfst0 : (cands.get ⟨0, h0c⟩).2.1 = 1 + r0.1 := by
      have h5 := congrArg Prod.fst hsc0
      simp only at h5
      rw [h5]
      unfold child_score
      rw [hr0]
    have hlt0 : lex2Lt ((-1 : Int), (-1 : Rat))
        ((cands.get ⟨0, h0c⟩).2.1, (cands.get ⟨0, h0c⟩).2.2) :=
      Or.inl (by simp only [hfst0]; omega)
    rcases foldl_bestStep_spec cands ((-1 : Int), (-1 : Rat), none) with
      ⟨heq, hall⟩ | ⟨i, hi, heq, _, hfirst, hmax⟩
    · exact absurd hlt0 (by simpa using hall _ (List.get_mem cands _ _))
    · have hi' : i < node.children.length := by rw [← hlen]; exact hi
      refine ⟨i, hi', ?_, ?_, ?_, ?_⟩
      · rw [hres, heq]
        simp only
        rw [(hpt i hi hi').1]
      · rw [hres, heq]
        simp only
        exact (hpt i hi hi').2
      · intro j hj
        have hjc : j < cands.length := by rw [hlen]; exact hj
        have := hmax j hjc
        rw [(hpt j hjc hj).2, (hpt i hi hi').2] at this
        exact lex2Le_of_not_lt this
      · intro j hj hji
        have hjc : j < cands.length := by rw [hlen]; exact hj
        have := hfirst j hjc hji
        rw [(hpt j hjc hj).2, (hpt i hi hi').2] at this
        exact this

/-- Claim C1 witness: on `exPTree` (two equal-length leaf children with
times 5 and 9) the root's recorded best child is the later-timestamped
second child `Y`, with score `(2, 9)`. -/
theorem C1_best_path_choice_witness :
    ((mkPNode "R" ["X", "Y"] none).children = [] →
      ((2 : Int), (9 : Rat), some "Y") = (1, get_node_time (mkPNode "R" ["X", "Y"] none), none) ∧
      get_node_time (mkPNode "R" ["X", "Y"] none) =
        (((mkPNode "R" ["X", "Y"] none).message.bind (·.create_time)).getD 0)) ∧
    ((mkPNode "R" ["X", "Y"] none).children ≠ [] →
      ∃ i, ∃ hi : i < (mkPNode "R" ["X", "Y"] none).children.length,
      ((2 : Int), (9 : Rat), some "Y").2.2 =
        some ((mkPNode "R" ["X", "Y"] none).children.get ⟨i, hi⟩) ∧
      (((2 : Int), (9 : Rat), some "Y").1, ((2 : Int), (9 : Rat), some "Y").2.1) =
        child_score exPTree.nodes 4 (get_node_time (mkPNode "R" ["X", "Y"] none))
          ((mkPNode "R" ["X", "Y"] none).children.get ⟨i, hi⟩) ∧
      (∀ j, ∀ hj : j < (mkPNode "R" ["X", "Y"] none).children.length,
        lex2Le (child_score exPTree.nodes 4 (get_node_time (mkPNode "R" ["X", "Y"] none))
            ((mkPNode "R" ["X", "Y"] none).children.get ⟨j, hj⟩))
          (child_score exPTree.nodes 4 (get_node_time (mkPNode "R" ["X", "Y"] none))
            ((mkPNode "R" ["X", "Y"] none).children.get ⟨i, hi⟩))) ∧
      (∀ j, ∀ hj : j < (mkPNode "R" ["X", "Y"] none).children.length, j < i →
        lex2Lt (child_score exPTree.nodes 4 (get_node_time (mkPNode "R" ["X", "Y"] none))
            ((mkPNode "R" ["X", "Y"] none).children.get ⟨j, hj⟩))
          (child_score exPTree.nodes 4 (get_node_time (mkPNode "R" ["X", "Y"] none))
            ((mkPNode "R" ["X", "Y"] none).children.get ⟨i, hi⟩)))) :=
  C1_best_path_choice exPTree.nodes "R" (mkPNode "R" ["X", "Y"] none) (by decide)
    4 ((2 : Int), (9 : Rat), some "Y") (by decide)

/-! ### Claim C8 -/

theorem next_on_cons (a : String) (rest : List String) (cur : String) :
    next_on_main_path (a :: rest) cur =
      if a = cur then rest.head? else next_on_main_path rest cur := by
  unfold next_on_main_path
  by_cases h : a = cur
  · subst h
    rw [if_pos rfl]
    rw [show List.findIdx? (fun x => x = a) (a :: rest) = some 0 from by
      rw [List.findIdx?_cons]; simp]
    simp [List.head?_eq_getElem?]
  · rw [if_neg h]
    rw [show List.findIdx? (fun x => x = cur) (a :: rest) =
          (List.findIdx? (fun x => x = cur) rest).map (· + 1) from by
      rw [List.findIdx?_cons]
      simp only [h, decide_eq_true_eq, if_neg]
      rw [show List.findIdx? (fun x => decide (x = cur)) rest 1 =
            List.findIdx? (fun x => decide (x = cur)) rest (0 + 1) from rfl]
      exact List.findIdx?_succ]
    cases List.findIdx? (fun x => x = cur) rest with
    | none => rfl
    | some i => simp

theorem next_eq_succ (p : List String) (cur : String) :
    next_on_main_path p cur = succ_in_path p cur := by
  induction p with
  | nil => rfl
  | cons a rest ih =>
    rw [next_on_cons]
    unfold succ_in_path
    by_cases h : a = cur
    · rw [if_pos h, if_pos h]
    · rw [if_neg h, if_neg h, ih]

theorem filterMap_if_eq_map_filter {α β : Type} (p : α → Bool) (g : α → β) (l : List α) :
    l.filterMap (fun a => if p a then some (g a) else none) = (l.filter p).map g := by
  induction l with
  | nil => rfl
  | cons a t ih =>
    by_cases h : p a
    · simp [List.filterMap_cons, List.filter_cons, h, ih]
    · simp [List.filterMap_cons, List.filter_cons, h, ih]

/-- Claim C8: the turn builder emits exactly one turn per user-role node
of the (duplicate-free) main path, in path order: the chosen assistant is
the assistant-role child that is the successor on the path (absent when
the successor is not such a child), every other assistant-role child
becomes an alternate in stored sibling order, and a user node with no
assistant children yields a turn with no chosen assistant and no
alternates. -/
theorem C8_turn_builder (mapping : List (String × RawNode)) (main_path : List String)
    (hnd : main_path.Nodup) :
    (build_turns_from_main_path mapping main_path =
      (main_path.filter (fun nid => is_user_message ((alookup mapping nid).getD emptyRawNode))).map
        (fun nid =>
          let node := (alookup mapping nid).getD emptyRawNode
          let assistant_child_ids := (children_of mapping nid).filter
            (fun cid => is_assistant_message ((alookup mapping cid).getD emptyRawNode))
          let chosen : Option String :=
            match succ_in_path main_path nid with
            | some nxt => if nxt ∈ assistant_child_ids then some nxt else none
            | none => none
          { user := node_to_message nid node
            assistant := chosen.map
              (fun aid => node_to_message aid ((alookup mapping aid).getD emptyRawNode))
            alternates := (assistant_child_ids.filter (fun cid => chosen ≠ some cid)).map
              (fun cid => node_to_message cid ((alookup mapping cid).getD emptyRawNode)) })) ∧
    (∀ nid ∈ main_path,
      is_user_message ((alookup mapping nid).getD emptyRawNode) →
      (children_of mapping nid).filter
        (fun cid => is_assistant_message ((alookup mapping cid).getD emptyRawNode)) = [] →
      ∃ t ∈ build_turns_from_main_path mapping main_path,
        t = { user := node_to_message nid ((alookup mapping nid).getD emptyRawNode),
              assistant := none, alternates := [] }) := by
  have hmain : build_turns_from_main_path mapping main_path =
      (main_path.filter (fun nid => is_user_message ((alookup mapping nid).getD emptyRawNode))).map
        (fun nid =>
          let node := (alookup mapping nid).getD emptyRawNode
          let assistant_child_ids := (children_of mapping nid).filter
            (fun cid => is_assistant_message ((alookup mapping cid).getD emptyRawNode))
          let chosen : Option String :=
            match succ_in_path main_path nid with
            | some nxt => if nxt ∈ assistant_child_ids then some nxt else none
            | none => none
          { user := node_to_message nid node
            assistant := chosen.map
              (fun aid => node_to_message aid ((alookup mapping aid).getD emptyRawNode))
            alternates := (assistant_child_ids.filter (fun cid => chosen ≠ some cid)).map
              (fun cid => node_to_message cid ((alookup mapping cid).getD emptyRawNode)) }) := by
    unfold build_turns_from_main_path
    by_cases hguard : mapping = [] ∨ main_path = []
    · rw [if_pos hguard]
      rcases hguard with rfl | rfl
      · have : ∀ nid ∈ main_path,
            ¬ is_user_message ((alookup ([] : List (String × RawNode)) nid).getD emptyRawNode) := by
          intro nid _
          simp [alookup, emptyRawNode, is_user_message]
        rw [List.filter_eq_nil_iff.2 (by intro a ha; simpa using this a ha)]
        rfl
      · rfl
    · rw [if_neg hguard]
      simp only [next_eq_succ]
      exact filterMap_if_eq_map_filter _ _ main_path
  refine ⟨hmain, ?_⟩
  intro nid hmem huser hass
  rw [hmain]
  refine ⟨_, List.mem_map_of_mem _ (List.mem_filter.2 ⟨hmem, huser⟩), ?_⟩
  simp only [hass]
  cases succ_in_path main_path nid with
  | none => rfl
  | some nxt => simp

/-- Claim C8 witness: on `exMapTurns` with main path
`["root", "u", "s2"]`, the single turn pairs user `u` with chosen
assistant `s2` and alternate `s1`. -/
theorem C8_turn_builder_witness :
    build_turns_from_main_path exMapTurns ["root", "u", "s2"] =
      [{ user := node_to_message "u" ((alookup exMapTurns "u").getD emptyRawNode),
         assistant := some (node_to_message "s2" ((alookup exMapTurns "s2").getD emptyRawNode)),
         alternates := [node_to_message "s1" ((alookup exMapTurns "s1").getD emptyRawNode)] }] := by
  rw [(C8_turn_builder exMapTurns ["root", "u", "s2"] (by decide)).1]
  decide

/-! ### Main-path walk machinery (claims C2, C10) -/

theorem alookup_isSome_iff {α : Type} (l : List (String × α)) (id : String) :
    (alookup l id).isSome ↔ id ∈ akeys l := by
  induction l with
  | nil => simp [alookup, akeys]
  | cons kv rest ih =>
    by_cases h : kv.1 = id
    · simp [alookup, akeys, h]
    · simp [alookup, akeys, h, ih]
      exact fun he => absurd he.symm h

theorem mapM_option_isSome {α β : Type} (f : α → Option β) :
    ∀ (l : List α), (∀ a ∈ l, (f a).isSome) → (l.mapM f).isSome := by
  intro l
  induction l with
  | nil => intro _; rw [List.mapM_nil]; rfl
  | cons a t ih =>
    intro h
    rw [List.mapM_cons]
    obtain ⟨b, hb⟩ := Option.isSome_iff_exists.1 (h a (List.mem_cons_self a t))
    rw [hb]
    obtain ⟨bs, hbs⟩ := Option.isSome_iff_exists.1 (ih (fun x hx => h x (List.mem_cons_of_mem a hx)))
    rw [show (t.mapM f) = some bs from hbs]
    rfl

/-- The candidate fold cannot keep the `(-1, -1, none)` seed when the
child list is nonempty: the first candidate already beats it. -/
theorem fold_seed_beaten (nodes : List (String × PNode)) (fuel : Nat) (own : Rat)
    (children : List String) (cands : List (String × Int × Rat))
    (hm : children.mapM (fun cid =>
      (compute_best_path_from nodes fuel cid).map
        (fun r => (cid, (1 + r.1 : Int), max own r.2.1))) = some cands)
    (hne : children ≠ []) :
    ¬ (∀ x ∈ cands, ¬ lex2Lt ((-1 : Int), (-1 : Rat)) (x.2.1, x.2.2)) := by
  intro hall
  obtain ⟨hlen, hpt⟩ := cands_pointwise nodes fuel own children cands hm
  have h0n : 0 < children.length := List.length_pos.2 hne
  have h0c : 0 < cands.length := by rw [hlen]; exact h0n
  obtain ⟨r0, hr0⟩ := cands_child_some nodes fuel own children cands hm 0 h0n
  have h1r0 := compute_best_len_pos nodes fuel _ r0 hr0
  have hfst0 : (cands.get ⟨0, h0c⟩).2.1 = 1 + r0.1 := by
    have h5 := congrArg Prod.fst (hpt 0 h0c h0n).2
    simp only at h5
    rw [h5]
    unfold child_score
    rw [hr0]
  exact hall (cands.get ⟨0, h0c⟩) (List.get_mem cands 0 h0c)
    (Or.inl (by simp only [hfst0]; omega))

/-- A successful internal evaluation records some best child. -/
theorem compute_best_some_child (nodes : List (String × PNode)) (fuel : Nat) (nid : String)
    (node : PNode) (hn : alookup nodes nid = some node) (hne : node.children ≠ [])
    (res : Int × Rat × Option String)
    (h : compute_best_path_from nodes (fuel + 1) nid = some res) :
    ∃ c, res.2.2 = some c := by
  obtain ⟨cands, hm, hres⟩ := compute_best_cands nodes fuel nid node hn hne res h
  rcases foldl_bestStep_spec cands ((-1 : Int), (-1 : Rat), none) with ⟨_, hall⟩ | ⟨i, hi, heq, _, _, _⟩
  · exact absurd (by simpa using hall) (by simpa using fold_seed_beaten nodes fuel _ _ cands hm hne)
  · exact ⟨(cands.get ⟨i, hi⟩).1, by rw [hres, heq]⟩

/-- The recorded best child is one of the node's stored children. -/
theorem best_child_mem (nodes : List (String × PNode)) :
    ∀ fuel nid res c, compute_best_path_from nodes fuel nid = some res →
      res.2.2 = some c →
      ∃ node, alookup nodes nid = some node ∧ c ∈ node.children := by
  intro fuel nid res c h hc
  cases fuel with
  | zero => exact absurd h (by simp [compute_best_path_from])
  | succ fuel =>
    by_cases hk : ((alookup nodes nid).getD emptyPNode).children = []
    · rw [show compute_best_path_from nodes (fuel + 1) nid =
            (let nd := (alookup nodes nid).getD emptyPNode
             if nd.children = [] then some (1, get_node_time nd, none)
             else
               (nd.children.mapM (fun cid =>
                 (compute_best_path_from nodes fuel cid).map
                   (fun r => (cid, (1 + r.1 : Int), max (get_node_time nd) r.2.1)))).map
                 (fun cands => cands.foldl bestStep (-1, -1, none))) from rfl,
          if_pos hk] at h
      cases h
      exact Option.noConfusion hc
    · have hnode : alookup nodes nid = some ((alookup nodes nid).getD emptyPNode) := by
        cases hl : alookup nodes nid with
        | none => rw [hl] at hk; exact absurd (rfl : ([] : List String) = []) hk
        | some n => rfl
      obtain ⟨cands, hm, hres⟩ :=
        compute_best_cands nodes fuel nid ((alookup nodes nid).getD emptyPNode) hnode hk res h
      rcases foldl_bestStep_spec cands ((-1 : Int), (-1 : Rat), none) with
        ⟨heq, hall⟩ | ⟨i, hi, heq, _, _, _⟩
      · exact absurd (by simpa using hall)
          (by simpa using fold_seed_beaten nodes fuel _ _ cands hm hk)
      · obtain ⟨hlen, hpt⟩ := cands_pointwise nodes fuel
          (get_node_time ((alookup nodes nid).getD emptyPNode))
          ((alookup nodes nid).getD emptyPNode).children cands hm
        have hi' : i < ((alookup nodes nid).getD emptyPNode).children.length := by
          rw [← hlen]; exact hi
        refine ⟨(alookup nodes nid).getD emptyPNode, hnode, ?_⟩
        rw [hres, heq] at hc
        simp only at hc
        cases hc
        rw [(hpt i hi hi').1]
        exact List.get_mem _ _ _

/-- Fuel sufficiency for the best-path recursion: a rank function that
strictly decreases along children references bounds the recursion
depth. -/
theorem compute_best_isSome (nodes : List (String × PNode)) (rank : String → Nat)
    (hrk : ∀ id n, alookup nodes id = some n → ∀ c ∈ n.children, rank c < rank id) :
    ∀ fuel nid, rank nid < fuel → (compute_best_path_from nodes fuel nid).isSome := by
  intro fuel
  induction fuel with
  | zero => intro nid h; omega
  | succ fuel ih =>
    intro nid h
    rw [show compute_best_path_from nodes (fuel + 1) nid =
          (let nd := (alookup nodes nid).getD emptyPNode
           if nd.children = [] then some (1, get_node_time nd, none)
           else
             (nd.children.mapM (fun cid =>
               (compute_best_path_from nodes fuel cid).map
                 (fun r => (cid, (1 + r.1 : Int), max (get_node_time nd) r.2.1)))).map
               (fun cands => cands.foldl bestStep (-1, -1, none))) from rfl]
    by_cases hk : ((alookup nodes nid).getD emptyPNode).children = []
    · rw [if_pos hk]; rfl
    · rw [if_neg hk]
      have hnode : alookup nodes nid = some ((alookup nodes nid).getD emptyPNode) := by
        cases hl : alookup nodes nid with
        | none => rw [hl] at hk; exact absurd (rfl : ([] : List String) = []) hk
        | some n => rfl
      have hm := mapM_option_isSome (fun cid =>
        (compute_best_path_from nodes fuel cid).map
          (fun r => (cid, (1 + r.1 : Int),
            max (get_node_time ((alookup nodes nid).getD emptyPNode)) r.2.1)))
        ((alookup nodes nid).getD emptyPNode).children
        (fun c hc => by
          have hcr := hrk nid _ hnode c hc
          obtain ⟨v, hv⟩ := Option.isSome_iff_exists.1 (ih c (by omega))
          simp only [hv, Option.map_some', Option.isSome_some])
      obtain ⟨cands, hcands⟩ := Option.isSome_iff_exists.1 hm
      rw [hcands]
      rfl

/-- Fuel sufficiency for the marking walk. -/
theorem walk_main_isSome (nodes : List (String × PNode)) (rank : String → Nat)
    (hrk : ∀ id n, alookup nodes id = some n → ∀ c ∈ n.children, rank c < rank id)
    (hbound : ∀ id, rank id ≤ nodes.length) :
    ∀ fuel cur, rank cur < fuel → (walk_main nodes fuel cur).isSome := by
  intro fuel
  induction fuel with
  | zero => intro cur h; omega
  | succ fuel ih =>
    intro cur h
    have hb := compute_best_isSome nodes rank hrk (nodes.length + 2) cur
      (by have := hbound cur; omega)
    obtain ⟨r, hr⟩ := Option.isSome_iff_exists.1 hb
    rw [show walk_main nodes (fuel + 1) cur =
          (match compute_best_path_from nodes (nodes.length + 2) cur with
           | none => none
           | some r =>
             match r.2.2 with
             | none => some [cur]
             | some c => (walk_main nodes fuel c).map (cur :: ·)) from rfl,
        hr]
    show (match r.2.2 with
          | none => some [cur]
          | some c => (walk_main nodes fuel c).map (cur :: ·)).isSome = true
    cases hc : r.2.2 with
    | none => rfl
    | some c =>
      obtain ⟨node, hnode, hcm⟩ := best_child_mem nodes (nodes.length + 2) cur r c hr hc
      have hcr := hrk cur node hnode c hcm
      obtain ⟨p, hp⟩ := Option.isSome_iff_exists.1 (ih c (by omega))
      simp only [hp, Option.map_some', Option.isSome_some]

/-- Structure of a successful walk: it starts at the start node, follows
stored child links, and its last node's recorded best child is `none`. -/
theorem walk_main_spec (nodes : List (String × PNode)) :
    ∀ fuel cur p, walk_main nodes fuel cur = some p →
      p.head? = some cur ∧
      List.Chain' (fun x y => ∃ nx, alookup nodes x = some nx ∧ y ∈ nx.children) p ∧
      ∃ hne : p ≠ [], ∃ r,
        compute_best_path_from nodes (nodes.length + 2) (p.getLast hne) = some r ∧
        r.2.2 = none := by
  intro fuel
  induction fuel with
  | zero => intro cur p h; exact absurd h (by simp [walk_main])
  | succ fuel ih =>
    intro cur p h
    rw [show walk_main nodes (fuel + 1) cur =
          (match compute_best_path_from nodes (nodes.length + 2) cur with
           | none => none
           | some r =>
             match r.2.2 with
             | none => some [cur]
             | some c => (walk_main nodes fuel c).map (cur :: ·)) from rfl] at h
    cases hr : compute_best_path_from nodes (nodes.length + 2) cur with
    | none => rw [hr] at h; exact Option.noConfusion h
    | some r =>
      rw [hr] at h
      have h2 : (match r.2.2 with
                 | none => some [cur]
                 | some c => (walk_main nodes fuel c).map (cur :: ·)) = some p := h
      cases hc : r.2.2 with
      | none =>
        rw [hc] at h2
        cases h2
        exact ⟨rfl, List.chain'_singleton cur, by simp, r, hr, hc⟩
      | some c =>
        rw [hc] at h2
        have h3 : (walk_main nodes fuel c).map (cur :: ·) = some p := h2
        cases hw : walk_main nodes fuel c with
        | none => rw [hw] at h3; exact Option.noConfusion h3
        | some p' =>
          rw [hw] at h3
          simp only [Option.map_some'] at h3
          cases h3
          obtain ⟨hhd, hch, hne', r', hr', hc'⟩ := ih c p' hw
          have hpne : p' ≠ [] := hne'
          refine ⟨rfl, ?_, ?_⟩
          · rw [List.chain'_cons']
            refine ⟨?_, hch⟩
            intro y hy
            rw [hhd] at hy
            cases hy
            obtain ⟨node, hnode, hcm⟩ := best_child_mem nodes (nodes.length + 2) cur r c hr hc
            exact ⟨node, hnode, hcm⟩
          · refine ⟨by simp, r', ?_, hc'⟩
            rw [List.getLast_cons hpne]
            exact hr'

theorem set_main_flag_children (b : Bool) (n : PNode) :
    (set_main_flag b n).children = n.children := by
  cases b <;> rfl

theorem set_main_flag_parent (b : Bool) (n : PNode) :
    (set_main_flag b n).parent = n.parent := by
  cases b <;> rfl

theorem set_main_flag_true_spec (n : PNode) :
    ∃ d, (set_main_flag true n).derived = some d ∧ d.is_main_path = some true :=
  ⟨_, rfl, rfl⟩

theorem set_main_flag_false_spec (n : PNode) :
    ∃ d, (set_main_flag false n).derived = some d ∧
      d.is_main_path = some ((n.derived.getD emptyDerived).is_main_path.getD false) :=
  ⟨_, rfl, rfl⟩

theorem set_main_flag_fields (b : Bool) (n : PNode) :
    (set_main_flag b n).source_node_id = n.source_node_id ∧
    (set_main_flag b n).parent = n.parent ∧
    (set_main_flag b n).children = n.children ∧
    (set_main_flag b n).message = n.message ∧
    ∃ d, (set_main_flag b n).derived = some d ∧
      d.N = (n.derived.getD emptyDerived).N ∧
      d.T = (n.derived.getD emptyDerived).T ∧
      d.B = (n.derived.getD emptyDerived).B ∧
      d.A = (n.derived.getD emptyDerived).A ∧
      d.timestamp_human = (n.derived.getD emptyDerived).timestamp_human ∧
      d.extra = (n.derived.getD emptyDerived).extra ∧
      d.is_main_path.isSome := by
  cases b
  · exact ⟨rfl, rfl, rfl, rfl, _, rfl, rfl, rfl, rfl, rfl, rfl, rfl, rfl⟩
  · exact ⟨rfl, rfl, rfl, rfl, _, rfl, rfl, rfl, rfl, rfl, rfl, rfl, rfl⟩

theorem mark_main_path_eq (tree : PTree) (hroot : tree.root_node_id ≠ "")
    (hmem : (alookup tree.nodes tree.root_node_id).isSome)
    (path : List String)
    (hw : walk_main tree.nodes (tree.nodes.length + 2) tree.root_node_id = some path) :
    mark_main_path tree = some { tree with nodes :=
      (tree.nodes.map (fun kv => (kv.1, set_main_flag (path.elem kv.1) kv.2))) } := by
  unfold mark_main_path
  rw [if_neg, hw]
  · rfl
  · rintro (h | h)
    · exact hroot h
    · rw [Option.isNone_iff_eq_none] at h
      rw [h] at hmem
      exact Bool.noConfusion hmem

theorem chain_all_isSome (nodes : List (String × PNode))
    (hclosed : ∀ id n, alookup nodes id = some n →
      ∀ c ∈ n.children, (alookup nodes c).isSome) :
    ∀ p : List String,
      List.Chain' (fun x y => ∃ nx, alookup nodes x = some nx ∧ y ∈ nx.children) p →
      (∀ h0, p.head? = some h0 → (alookup nodes h0).isSome) →
      ∀ x ∈ p, (alookup nodes x).isSome := by
  intro p
  induction p with
  | nil => intro _ _ x hx; exact absurd hx (List.not_mem_nil x)
  | cons a rest ih =>
    intro hch hh x hx
    rcases List.mem_cons.1 hx with rfl | hx
    · exact hh x rfl
    · rw [List.chain'_cons'] at hch
      obtain ⟨hrel, hch'⟩ := hch
      refine ih hch' ?_ x hx
      intro h0 hh0
      obtain ⟨na, hna, hmemc⟩ := hrel h0 (by rw [hh0]; rfl)
      exact hclosed a na hna h0 hmemc

/-- Claim C2: on a well-formed processed tree (non-empty root id present
among the nodes, acyclic children references, each node the child of at
most one parent, no dangling children, no pre-set flags), marking
succeeds, gives every node an explicit boolean `is_main_path`, flags the
root, lets every flagged node have at most one flagged child, ends in a
flagged node with no flagged child, and the flagged nodes are exactly the
members of a duplicate-free root-started chain of child links. -/
theorem C2_main_path_marking (tree : PTree)
    (hroot : tree.root_node_id ≠ "")
    (hmem : (alookup tree.nodes tree.root_node_id).isSome)
    (hacy : ChildrenAcyclic (fun n : PNode => n.children) tree.nodes)
    (huniq : ∀ p1 p2 n1 n2 c, alookup tree.nodes p1 = some n1 →
      alookup tree.nodes p2 = some n2 → c ∈ n1.children → c ∈ n2.children → p1 = p2)
    (hclosed : ∀ id n, alookup tree.nodes id = some n →
      ∀ c ∈ n.children, (alookup tree.nodes c).isSome)
    (hflag : ∀ id n, alookup tree.nodes id = some n →
      (n.derived.getD emptyDerived).is_main_path = none) :
    ∃ t', mark_main_path tree = some t' ∧
      (∀ id n', alookup t'.nodes id = some n' →
        ∃ d, n'.derived = some d ∧
          (d.is_main_path = some true ∨ d.is_main_path = some false)) ∧
      (∃ rn d, alookup t'.nodes tree.root_node_id = some rn ∧
        rn.derived = some d ∧ d.is_main_path = some true) ∧
      (∀ id n', alookup t'.nodes id = some n' →
        (∃ d, n'.derived = some d ∧ d.is_main_path = some true) →
        ∀ c1 c2, c1 ∈ n'.children → c2 ∈ n'.children →
        (∃ nc1 d1, alookup t'.nodes c1 = some nc1 ∧ nc1.derived = some d1 ∧
          d1.is_main_path = some true) →
        (∃ nc2 d2, alookup t'.nodes c2 = some nc2 ∧ nc2.derived = some d2 ∧
          d2.is_main_path = some true) →
        c1 = c2) ∧
      (∃ l nl, alookup t'.nodes l = some nl ∧
        (∃ d, nl.derived = some d ∧ d.is_main_path = some true) ∧
        ∀ c ∈ nl.children, ∀ nc d, alookup t'.nodes c = some nc → nc.derived = some d →
          d.is_main_path ≠ some true) ∧
      (∃ p : List String, p.head? = some tree.root_node_id ∧ p.Nodup ∧
        List.Chain' (fun x y => ∃ nx, alookup tree.nodes x = some nx ∧ y ∈ nx.children) p ∧
        (∀ id n', alookup t'.nodes id = some n' →
          ((∃ d, n'.derived = some d ∧ d.is_main_path = some true) ↔ id ∈ p))) := by
  obtain ⟨rank, hrk, hbound⟩ := hacy
  have hwk := walk_main_isSome tree.nodes rank hrk hbound (tree.nodes.length + 2)
    tree.root_node_id (by have := hbound tree.root_node_id; omega)
  obtain ⟨path, hpath⟩ := Option.isSome_iff_exists.1 hwk
  have hmk := mark_main_path_eq tree hroot hmem path hpath
  obtain ⟨hhd, hch, hne, rlast, hrlast, hrnone⟩ :=
    walk_main_spec tree.nodes (tree.nodes.length + 2) tree.root_node_id path hpath
  refine ⟨_, hmk, ?_⟩
  have hlook : ∀ id, alookup (tree.nodes.map
      (fun kv => (kv.1, set_main_flag (path.elem kv.1) kv.2))) id =
      (alookup tree.nodes id).map (fun n => set_main_flag (path.elem id) n) :=
    fun id => alookup_map_val (fun i n => set_main_flag (path.elem i) n) tree.nodes id
  -- every path member is a genuine node of the tree
  have hsub : ∀ x ∈ path, (alookup tree.nodes x).isSome := by
    refine chain_all_isSome tree.nodes hclosed path hch ?_
    intro h0 hh0
    rw [hhd] at hh0
    cases hh0
    exact hmem
  -- flag of a node after marking
  have hfl_true : ∀ id n, alookup tree.nodes id = some n → id ∈ path →
      ∃ d, (set_main_flag (path.elem id) n).derived = some d ∧ d.is_main_path = some true := by
    intro id n _ hidp
    rw [show path.elem id = true from List.elem_iff.2 hidp]
    exact set_main_flag_true_spec n
  have hfl_false : ∀ id n, alookup tree.nodes id = some n → id ∉ path →
      ∃ d, (set_main_flag (path.elem id) n).derived = some d ∧ d.is_main_path = some false := by
    intro id n hn hidp
    rw [show path.elem id = false from by
      cases he : path.elem id
      · rfl
      · exact absurd (List.elem_iff.1 he) hidp]
    obtain ⟨d, hd, hdval⟩ := set_main_flag_false_spec n
    refine ⟨d, hd, ?_⟩
    rw [hdval, hflag id n hn]
    rfl
  have hiff : ∀ id n', alookup (tree.nodes.map
      (fun kv => (kv.1, set_main_flag (path.elem kv.1) kv.2))) id = some n' →
      ((∃ d, n'.derived = some d ∧ d.is_main_path = some true) ↔ id ∈ path) := by
    intro id n' h
    rw [hlook] at h
    cases hl : alookup tree.nodes id with
    | none => rw [hl] at h; exact Option.noConfusion h
    | some n =>
      rw [hl] at h
      simp only [Option.map_some', Option.some_inj] at h
      subst h
      constructor
      · intro ⟨d, hd, hdt⟩
        by_contra hnp
        obtain ⟨d', hd', hdf⟩ := hfl_false id n hl hnp
        rw [hd] at hd'
        cases hd'
        rw [hdt] at hdf
        exact Option.noConfusion hdf (fun h => Bool.noConfusion h)
      · intro hidp
        exact hfl_true id n hl hidp
  -- ranks decrease strictly along the walked path
  have hchr : List.Chain' (fun x y => rank y < rank x) path := by
    refine List.Chain'.imp ?_ hch
    intro x y ⟨nx, hnx, hym⟩
    exact hrk x nx hnx y hym
  have hpw : List.Pairwise (fun x y => rank y < rank x) path := by
    letI : IsTrans String (fun x y => rank y < rank x) := ⟨fun a b c h1 h2 => h2.trans h1⟩
    exact List.chain'_iff_pairwise.1 hchr
  have hnd : path.Nodup := by
    refine hpw.imp ?_
    intro a b hab heq
    rw [heq] at hab
    exact lt_irrefl _ hab
  -- path starts with the root
  obtain ⟨rest, hrest⟩ : ∃ rest, path = tree.root_node_id :: rest := by
    cases hp : path with
    | nil => rw [hp] at hhd; exact Option.noConfusion hhd
    | cons a r =>
      rw [hp] at hhd
      simp only [List.head?_cons, Option.some_inj] at hhd
      exact ⟨r, by rw [hhd]⟩
  have hrank_le_root : ∀ x ∈ path, rank x ≤ rank tree.root_node_id := by
    intro x hx
    rw [hrest] at hx hpw
    rcases List.mem_cons.1 hx with rfl | hx
    · exact le_refl _
    · exact le_of_lt ((List.pairwise_cons.1 hpw).1 x hx)
  refine ⟨?_, ?_, ?_, ?_, path, hhd, hnd, hch, hiff⟩
  · -- explicit boolean on every node
    intro id n' h
    replace h : alookup (tree.nodes.map
      (fun kv => (kv.1, set_main_flag (path.elem kv.1) kv.2))) id = some n' := h
    rw [hlook] at h
    cases hl : alookup tree.nodes id with
    | none => rw [hl] at h; exact Option.noConfusion h
    | some n =>
      rw [hl] at h
      simp only [Option.map_some', Option.some_inj] at h
      subst h
      by_cases hidp : id ∈ path
      · obtain ⟨d, hd, hdt⟩ := hfl_true id n hl hidp
        exact ⟨d, hd, Or.inl hdt⟩
      · obtain ⟨d, hd, hdf⟩ := hfl_false id n hl hidp
        exact ⟨d, hd, Or.inr hdf⟩
  · -- root is flagged
    obtain ⟨rn, hrn⟩ := Option.isSome_iff_exists.1 hmem
    obtain ⟨d, hd, hdt⟩ := hfl_true tree.root_node_id rn hrn
      (by rw [hrest]; exact List.mem_cons_self _ _)
    refine ⟨set_main_flag (path.elem tree.root_node_id) rn, d, ?_, hd, hdt⟩
    have htr : alookup (tree.nodes.map
        (fun kv => (kv.1, set_main_flag (path.elem kv.1) kv.2))) tree.root_node_id =
        some (set_main_flag (path.elem tree.root_node_id) rn) := by
      rw [hlook, hrn]
      rfl
    exact htr
  · -- at most one flagged child
    intro id n' h hft c1 c2 hc1 hc2 hf1 hf2
    replace h : alookup (tree.nodes.map
      (fun kv => (kv.1, set_main_flag (path.elem kv.1) kv.2))) id = some n' := h
    rw [hlook] at h
    cases hl : alookup tree.nodes id with
    | none => rw [hl] at h; exact Option.noConfusion h
    | some n =>
      rw [hl] at h
      simp only [Option.map_some', Option.some_inj] at h
      subst h
      rw [set_main_flag_children] at hc1 hc2
      have hidp : id ∈ path := by
        rcases hft with ⟨d, hd, hdt⟩
        by_contra hnp
        obtain ⟨d', hd', hdf⟩ := hfl_false id n hl hnp
        rw [hd] at hd'
        cases hd'
        rw [hdt] at hdf
        exact Option.noConfusion hdf (fun hb => Bool.noConfusion hb)
      have memp : ∀ c, (∃ nc d1, alookup (tree.nodes.map
          (fun kv => (kv.1, set_main_flag (path.elem kv.1) kv.2))) c = some nc ∧
            nc.derived = some d1 ∧ d1.is_main_path = some true) → c ∈ path := by
        intro c ⟨nc, d1, hcl, hncd, hnct⟩
        exact (hiff c nc hcl).1 ⟨d1, hncd, hnct⟩
      have hcp1 := memp c1 hf1
      have hcp2 := memp c2 hf2
      -- a child of a path node cannot be the root
      have hnotroot : ∀ c, c ∈ n.children → c ≠ tree.root_node_id := by
        intro c hcm hceq
        have h1 : rank c < rank id := hrk id n hl c hcm
        have h2 : rank id ≤ rank tree.root_node_id := hrank_le_root id hidp
        rw [hceq] at h1
        omega
      -- translate membership to positions and use the chain plus uniqueness
      obtain ⟨⟨j1, hj1⟩, hg1⟩ := List.mem_iff_get.1 hcp1
      obtain ⟨⟨j2, hj2⟩, hg2⟩ := List.mem_iff_get.1 hcp2
      have hh2 : path[0]? = some tree.root_node_id := by
        rw [← List.head?_eq_getElem?]
        exact hhd
      have hj1pos : j1 ≠ 0 := by
        intro h0
        subst h0
        rw [List.getElem?_eq_getElem hj1] at hh2
        have h3 : path.get ⟨0, hj1⟩ = tree.root_node_id := Option.some_inj.1 hh2
        exact hnotroot c1 hc1 (by rw [← hg1, h3])
      have hj2pos : j2 ≠ 0 := by
        intro h0
        subst h0
        rw [List.getElem?_eq_getElem hj2] at hh2
        have h3 : path.get ⟨0, hj2⟩ = tree.root_node_id := Option.some_inj.1 hh2
        exact hnotroot c2 hc2 (by rw [← hg2, h3])
      obtain ⟨k1, rfl⟩ := Nat.exists_eq_succ_of_ne_zero hj1pos
      obtain ⟨k2, rfl⟩ := Nat.exists_eq_succ_of_ne_zero hj2pos
      have hchg := List.chain'_iff_get.1 hch
      obtain ⟨n1x, hn1x, hm1⟩ := hchg k1 (by omega)
      obtain ⟨n2x, hn2x, hm2⟩ := hchg k2 (by omega)
      rw [hg1] at hm1
      rw [hg2] at hm2
      have he1 : path.get ⟨k1, by omega⟩ = id := huniq _ id n1x n _ hn1x hl hm1 hc1
      have he2 : path.get ⟨k2, by omega⟩ = id := huniq _ id n2x n _ hn2x hl hm2 hc2
      have hk12 : k1 = k2 := by
        have := List.nodup_iff_injective_get.1 hnd (he1.trans he2.symm)
        exact congrArg (fun x => (Fin.val x)) this
      subst hk12
      rw [← hg1, ← hg2]
  · -- the last flagged node has no flagged child
    refine ⟨path.getLast hne, ?_⟩
    have hlm : path.getLast hne ∈ path := List.getLast_mem hne
    obtain ⟨nl, hnl⟩ := Option.isSome_iff_exists.1 (hsub _ hlm)
    obtain ⟨d, hd, hdt⟩ := hfl_true _ nl hnl hlm
    refine ⟨set_main_flag (path.elem (path.getLast hne)) nl, ?_, ⟨d, hd, hdt⟩, ?_⟩
    · have htl : alookup (tree.nodes.map
          (fun kv => (kv.1, set_main_flag (path.elem kv.1) kv.2))) (path.getLast hne) =
          some (set_main_flag (path.elem (path.getLast hne)) nl) := by
        rw [hlook, hnl]
        rfl
      exact htl
    · rw [set_main_flag_children]
      intro c hcm nc dc hncl hncd hnct
      have hcne : nl.children ≠ [] := by
        intro h0
        rw [h0] at hcm
        exact absurd hcm (List.not_mem_nil c)
      obtain ⟨c', hc'⟩ := compute_best_some_child tree.nodes (tree.nodes.length + 1)
        (path.getLast hne) nl hnl hcne rlast hrlast
      rw [hrnone] at hc'
      exact Option.noConfusion hc'

/-- Turn a per-entry property of a finite dict into its lookup form (the
entry form is decidable on concrete inputs). -/
theorem alookup_cases {α : Type} (l : List (String × α)) (P : String → α → Prop)
    (h : ∀ kv ∈ l, P kv.1 kv.2) : ∀ id v, alookup l id = some v → P id v := by
  intro id v hl
  induction l with
  | nil => exact Option.noConfusion hl
  | cons kv rest ih =>
    unfold alookup at hl
    by_cases he : kv.1 = id
    · rw [if_pos he] at hl
      cases hl
      exact he ▸ h kv (List.mem_cons_self _ _)
    · rw [if_neg he] at hl
      exact ih (fun kv' hm => h kv' (List.mem_cons_of_mem _ hm)) hl

/-- Claim C2 witness: the marking of `exPTree` satisfies every clause of
the marked-chain specification. -/
theorem C2_main_path_marking_witness :
    ∃ t', mark_main_path exPTree = some t' ∧
      (∀ id n', alookup t'.nodes id = some n' →
        ∃ d, n'.derived = some d ∧
          (d.is_main_path = some true ∨ d.is_main_path = some false)) ∧
      (∃ rn d, alookup t'.nodes exPTree.root_node_id = some rn ∧
        rn.derived = some d ∧ d.is_main_path = some true) ∧
      (∀ id n', alookup t'.nodes id = some n' →
        (∃ d, n'.derived = some d ∧ d.is_main_path = some true) →
        ∀ c1 c2, c1 ∈ n'.children → c2 ∈ n'.children →
        (∃ nc1 d1, alookup t'.nodes c1 = some nc1 ∧ nc1.derived = some d1 ∧
          d1.is_main_path = some true) →
        (∃ nc2 d2, alookup t'.nodes c2 = some nc2 ∧ nc2.derived = some d2 ∧
          d2.is_main_path = some true) →
        c1 = c2) ∧
      (∃ l nl, alookup t'.nodes l = some nl ∧
        (∃ d, nl.derived = some d ∧ d.is_main_path = some true) ∧
        ∀ c ∈ nl.children, ∀ nc d, alookup t'.nodes c = some nc → nc.derived = some d →
          d.is_main_path ≠ some true) ∧
      (∃ p : List String, p.head? = some exPTree.root_node_id ∧ p.Nodup ∧
        List.Chain' (fun x y => ∃ nx, alookup exPTree.nodes x = some nx ∧ y ∈ nx.children) p ∧
        (∀ id n', alookup t'.nodes id = some n' →
          ((∃ d, n'.derived = some d ∧ d.is_main_path = some true) ↔ id ∈ p))) := by
  refine C2_main_path_marking exPTree (by decide) (by decide)
    ⟨exRank, ?_, ?_⟩ ?_ ?_ ?_
  · exact alookup_cases exPTree.nodes
      (fun id n => ∀ c ∈ n.children, exRank c < exRank id) (by decide)
  · intro id
    show exRank id ≤ 3
    unfold exRank
    split <;> omega
  · intro p1 p2 n1 n2 c h1 h2 hc1 hc2
    revert h2 hc1 hc2
    refine alookup_cases exPTree.nodes
      (fun p1 n1 => ∀ p2 n2, alookup exPTree.nodes p2 = some n2 →
        c ∈ n1.children → c ∈ n2.children → p1 = p2) ?_ p1 n1 h1 p2 n2
    intro kv hkv p2' n2'
    refine alookup_cases exPTree.nodes
      (fun p2 n2 => c ∈ kv.2.children → c ∈ n2.children → kv.1 = p2) ?_ p2' n2'
    intro kv' hkv' hm1 hm2
    fin_cases hkv <;> fin_cases hkv' <;> simp_all [exPTree, mkPNode]
  · exact alookup_cases exPTree.nodes
      (fun id n => ∀ c ∈ n.children, (alookup exPTree.nodes c).isSome) (by decide)
  · exact alookup_cases exPTree.nodes
      (fun id n => (n.derived.getD emptyDerived).is_main_path = none) (by decide)

/-! ### Claim C10 -/

/-- Claim C10: on a processed tree with a known root, marking returns the
same tree except that each node's `derived` dict exists and carries an
`is_main_path` boolean: all conversation-level fields, the key set, and
every node's `source_node_id`, `parent`, `children`, `message` and other
derived entries are unchanged. -/
theorem C10_mark_main_path_frame (tree : PTree)
    (hroot : tree.root_node_id ≠ "")
    (hmem : (alookup tree.nodes tree.root_node_id).isSome)
    (hacy : ChildrenAcyclic (fun n : PNode => n.children) tree.nodes) :
    ∃ t', mark_main_path tree = some t' ∧
      t'.schema = tree.schema ∧
      t'.conversation_id = tree.conversation_id ∧
      t'.title = tree.title ∧
      t'.create_time = tree.create_time ∧
      t'.update_time = tree.update_time ∧
      t'.project = tree.project ∧
      t'.root_node_id = tree.root_node_id ∧
      t'.derived = tree.derived ∧
      akeys t'.nodes = akeys tree.nodes ∧
      (∀ id n, alookup tree.nodes id = some n →
        ∃ n', alookup t'.nodes id = some n' ∧
          n'.source_node_id = n.source_node_id ∧
          n'.parent = n.parent ∧
          n'.children = n.children ∧
          n'.message = n.message ∧
          ∃ d, n'.derived = some d ∧
            d.N = (n.derived.getD emptyDerived).N ∧
            d.T = (n.derived.getD emptyDerived).T ∧
            d.B = (n.derived.getD emptyDerived).B ∧
            d.A = (n.derived.getD emptyDerived).A ∧
            d.timestamp_human = (n.derived.getD emptyDerived).timestamp_human ∧
            d.extra = (n.derived.getD emptyDerived).extra ∧
            d.is_main_path.isSome) := by
  obtain ⟨rank, hrk, hbound⟩ := hacy
  have hwk := walk_main_isSome tree.nodes rank hrk hbound (tree.nodes.length + 2)
    tree.root_node_id (by have := hbound tree.root_node_id; omega)
  obtain ⟨path, hpath⟩ := Option.isSome_iff_exists.1 hwk
  have hmk := mark_main_path_eq tree hroot hmem path hpath
  refine ⟨_, hmk, rfl, rfl, rfl, rfl, rfl, rfl, rfl, rfl, ?_, ?_⟩
  · show akeys (tree.nodes.map (fun kv => (kv.1, set_main_flag (path.elem kv.1) kv.2))) =
      akeys tree.nodes
    exact akeys_map_val (fun i n => set_main_flag (path.elem i) n) tree.nodes
  · intro id n hn
    refine ⟨set_main_flag (path.elem id) n, ?_, ?_⟩
    · show alookup (tree.nodes.map (fun kv => (kv.1, set_main_flag (path.elem kv.1) kv.2))) id =
        some (set_main_flag (path.elem id) n)
      rw [alookup_map_val (fun i nn => set_main_flag (path.elem i) nn) tree.nodes id, hn]
      rfl
    · obtain ⟨h1, h2, h3, h4, d, hd, hrest⟩ := set_main_flag_fields (path.elem id) n
      exact ⟨h1, h2, h3, h4, d, hd, hrest⟩

/-- Claim C10 witness: the frame property instantiated on `exPTree`. -/
theorem C10_mark_main_path_frame_witness :
    ∃ t', mark_main_path exPTree = some t' ∧
      t'.schema = exPTree.schema ∧
      t'.conversation_id = exPTree.conversation_id ∧
      t'.title = exPTree.title ∧
      t'.create_time = exPTree.create_time ∧
      t'.update_time = exPTree.update_time ∧
      t'.project = exPTree.project ∧
      t'.root_node_id = exPTree.root_node_id ∧
      t'.derived = exPTree.derived ∧
      akeys t'.nodes = akeys exPTree.nodes ∧
      (∀ id n, alookup exPTree.nodes id = some n →
        ∃ n', alookup t'.nodes id = some n' ∧
          n'.source_node_id = n.source_node_id ∧
          n'.parent = n.parent ∧
          n'.children = n.children ∧
          n'.message = n.message ∧
          ∃ d, n'.derived = some d ∧
            d.N = (n.derived.getD emptyDerived).N ∧
            d.T = (n.derived.getD emptyDerived).T ∧
            d.B = (n.derived.getD emptyDerived).B ∧
            d.A = (n.derived.getD emptyDerived).A ∧
            d.timestamp_human = (n.derived.getD emptyDerived).timestamp_human ∧
            d.extra = (n.derived.getD emptyDerived).extra ∧
            d.is_main_path.isSome) :=
  C10_mark_main_path_frame exPTree (by decide) (by decide)
    ⟨exRank,
     alookup_cases exPTree.nodes (fun id n => ∀ c ∈ n.children, exRank c < exRank id)
       (by decide),
     fun id => by
       show exRank id ≤ 3
       unfold exRank
       split <;> omega⟩

/-! ### Dictionary fold lemmas (claim C4) -/

theorem alookup_of_mem_nodup {α : Type} :
    ∀ (l : List (String × α)) (kv : String × α), kv ∈ l → (akeys l).Nodup →
      alookup l kv.1 = some kv.2 := by
  intro l
  induction l with
  | nil => intro kv h; exact absurd h (List.not_mem_nil kv)
  | cons p rest ih =>
    intro kv hm hnd
    rcases List.mem_cons.1 hm with rfl | hm
    · unfold alookup
      rw [if_pos rfl]
    · unfold alookup
      by_cases he : p.1 = kv.1
      · exfalso
        have : kv.1 ∈ akeys rest := List.mem_map_of_mem _ hm
        rw [← he] at this
        exact (List.nodup_cons.1 hnd).1 this
      · rw [if_neg he]
        exact ih kv hm (List.nodup_cons.1 hnd).2

theorem alookup_dinsert {α : Type} :
    ∀ (l : List (String × α)) (k k' : String) (v : α),
      alookup (dinsert l k v) k' = if k = k' then some v else alookup l k' := by
  intro l
  induction l with
  | nil => intro k k' v; rfl
  | cons p rest ih =>
    obtain ⟨pk, pv⟩ := p
    intro k k' v
    by_cases h1 : pk = k
    · rw [show dinsert ((pk, pv) :: rest) k v = (k, v) :: rest from by
        show (if pk = k then (k, v) :: rest else (pk, pv) :: dinsert rest k v) = _
        rw [if_pos h1]]
      show (if k = k' then some v else alookup rest k') =
        if k = k' then some v else alookup ((pk, pv) :: rest) k'
      by_cases h2 : k = k'
      · rw [if_pos h2, if_pos h2]
      · rw [if_neg h2, if_neg h2]
        show alookup rest k' = if pk = k' then some pv else alookup rest k'
        rw [if_neg (by rw [h1]; exact h2)]
    · rw [show dinsert ((pk, pv) :: rest) k v = (pk, pv) :: dinsert rest k v from by
        show (if pk = k then (k, v) :: rest else (pk, pv) :: dinsert rest k v) = _
        rw [if_neg h1]]
      show (if pk = k' then some pv else alookup (dinsert rest k v) k') =
        if k = k' then some v else alookup ((pk, pv) :: rest) k'
      by_cases h2 : pk = k'
      · rw [if_pos h2, if_neg (fun hk => h1 (h2.trans hk.symm))]
        show some pv = if pk = k' then some pv else alookup rest k'
        rw [if_pos h2]
      · rw [if_neg h2, ih]
        by_cases h3 : k = k'
        · rw [if_pos h3, if_pos h3]
        · rw [if_neg h3, if_neg h3]
          show alookup rest k' = if pk = k' then some pv else alookup rest k'
          rw [if_neg h2]

theorem dinsert_fresh {α : Type} :
    ∀ (l : List (String × α)) (k : String) (v : α), k ∉ akeys l →
      dinsert l k v = l ++ [(k, v)] := by
  intro l
  induction l with
  | nil => intro k v _; rfl
  | cons p rest ih =>
    intro k v hk
    unfold dinsert
    rw [if_neg (fun he => hk (by rw [← he]; exact List.mem_cons_self _ _)),
      ih k v (fun hm => hk (List.mem_cons_of_mem _ hm))]
    rfl

theorem foldl_dinsert_fresh {α : Type} :
    ∀ (ps : List (String × α)) (acc : List (String × α)),
      (∀ p ∈ ps, p.1 ∉ akeys acc) → (ps.map (·.1)).Nodup →
      ps.foldl (fun a kv => dinsert a kv.1 kv.2) acc = acc ++ ps := by
  intro ps
  induction ps with
  | nil => intro acc _ _; simp
  | cons p rest ih =>
    intro acc hfresh hnd
    rw [List.foldl_cons, dinsert_fresh acc p.1 p.2 (hfresh p (List.mem_cons_self _ _)),
      ih (acc ++ [p]) ?_ (by simpa using (List.nodup_cons.1 (by simpa using hnd)).2)]
    · simp
    · intro q hq hqk
      rw [akeys, List.map_append] at hqk
      rcases List.mem_append.1 hqk with h | h
      · exact hfresh q (List.mem_cons_of_mem _ hq) h
      · have : q.1 = p.1 := by simpa using h
        have hnd2 := hnd
        rw [List.map_cons, List.nodup_cons] at hnd2
        exact hnd2.1 (this ▸ List.mem_map_of_mem _ hq)

theorem alookup_dremove_self {α : Type} (l : List (String × α)) (k : String) :
    alookup (dremove l k) k = none := by
  induction l with
  | nil => rfl
  | cons p rest ih =>
    unfold dremove
    rw [List.filter_cons]
    by_cases h : p.1 = k
    · rw [if_neg (by simpa using h)]
      exact ih
    · rw [if_pos (by simpa using h)]
      show (if p.1 = k then some p.2 else alookup (dremove rest k) k) = none
      rw [if_neg h]
      exact ih

theorem alookup_dremove_ne {α : Type} (l : List (String × α)) (k k' : String) (h : k ≠ k') :
    alookup (dremove l k) k' = alookup l k' := by
  induction l with
  | nil => rfl
  | cons p rest ih =>
    unfold dremove
    rw [List.filter_cons]
    by_cases h1 : p.1 = k
    · rw [if_neg (by simpa using h1)]
      show alookup (dremove rest k) k' = if p.1 = k' then some p.2 else alookup rest k'
      rw [if_neg (by rw [h1]; exact h)]
      exact ih
    · rw [if_pos (by simpa using h1)]
      show (if p.1 = k' then some p.2 else alookup (dremove rest k) k') =
        if p.1 = k' then some p.2 else alookup rest k'
      by_cases h2 : p.1 = k'
      · rw [if_pos h2, if_pos h2]
      · rw [if_neg h2, if_neg h2]
        exact ih

theorem akeys_dupdate {α : Type} :
    ∀ (l : List (String × α)) (k : String) (f : α → α), akeys (dupdate l k f) = akeys l := by
  intro l
  induction l with
  | nil => intro k f; rfl
  | cons p rest ih =>
    intro k f
    unfold dupdate
    by_cases h : p.1 = k
    · rw [if_pos h]
      show p.1 :: akeys rest = p.1 :: akeys rest
      rfl
    · rw [if_neg h]
      show p.1 :: akeys (dupdate rest k f) = p.1 :: akeys rest
      rw [ih]

theorem alookup_dupdate {α : Type} :
    ∀ (l : List (String × α)) (k k' : String) (f : α → α),
      alookup (dupdate l k f) k' =
        if k = k' then (alookup l k').map f else alookup l k' := by
  intro l
  induction l with
  | nil =>
    intro k k' f
    by_cases h : k = k'
    · rw [if_pos h]; rfl
    · rw [if_neg h]; rfl
  | cons p rest ih =>
    obtain ⟨pk, pv⟩ := p
    intro k k' f
    rw [show dupdate ((pk, pv) :: rest) k f =
          (if pk = k then (pk, f pv) :: rest else (pk, pv) :: dupdate rest k f) from rfl,
      show alookup ((pk, pv) :: rest) k' =
        (if pk = k' then some pv else alookup rest k') from rfl]
    by_cases h1 : pk = k
    · rw [if_pos h1]
      show (if pk = k' then some (f pv) else alookup rest k') = _
      by_cases h2 : pk = k'
      · rw [if_pos h2, if_pos (h1.symm.trans h2), if_pos h2]
        rfl
      · have h3 : ¬ k = k' := fun hk => h2 (h1.trans hk)
        rw [if_neg h2, if_neg h3, if_neg h2]
    · rw [if_neg h1]
      show (if pk = k' then some pv else alookup (dupdate rest k f) k') = _
      by_cases h2 : pk = k'
      · rw [if_neg (show ¬ k = k' from fun hk => h1 (h2.trans hk.symm)), if_pos h2, if_pos h2]
      · rw [if_neg h2, if_neg h2, ih]

theorem foldlM_option_inv {α β : Type} (f : β → α → Option β) (P : β → Prop)
    (hstep : ∀ a st st', f st a = some st' → P st → P st') :
    ∀ (l : List α) (b b' : β), l.foldlM f b = some b' → P b → P b' := by
  intro l
  induction l with
  | nil =>
    intro b b' h hb
    cases h
    exact hb
  | cons a t ih =>
    intro b b' h hb
    have h2 : (f b a).bind (fun b2 => t.foldlM f b2) = some b' := h
    cases hfa : f b a with
    | none => rw [hfa] at h2; exact Option.noConfusion h2
    | some b2 =>
      rw [hfa] at h2
      exact ih b2 b' h2 (hstep a b b2 hfa hb)

theorem foldlM_option_isSome {α β : Type} (f : β → α → Option β) :
    ∀ (l : List α), (∀ a ∈ l, ∀ st, (f st a).isSome) →
      ∀ b, (l.foldlM f b).isSome := by
  intro l
  induction l with
  | nil => intro _ b; rfl
  | cons a t ih =>
    intro h b
    show ((f b a).bind (fun b2 => t.foldlM f b2)).isSome
    obtain ⟨b2, hb2⟩ := Option.isSome_iff_exists.1 (h a (List.mem_cons_self _ _) b)
    rw [hb2]
    exact ih (fun x hx st => h x (List.mem_cons_of_mem _ hx) st) b2

/-! ### Decimal rendering lemmas (claim C4) -/

theorem digit_char_toNat : ∀ m : Nat, m < 10 → (Char.ofNat (48 + m)).toNat = 48 + m := by
  intro m hm
  interval_cases m <;> decide

theorem digit_char_isDigit : ∀ m : Nat, m < 10 → (Char.ofNat (48 + m)).isDigit = true := by
  intro m hm
  interval_cases m <;> decide

theorem digit_char_ne_space : ∀ m : Nat, m < 10 → Char.ofNat (48 + m) ≠ ' ' := by
  intro m hm
  interval_cases m <;> decide

theorem evalDec_append (xs : List Char) (c : Char) :
    evalDec (xs ++ [c]) = 10 * evalDec xs + (c.toNat - 48) := by
  unfold evalDec
  rw [List.foldl_append]
  rfl

theorem repDecAux_ne_nil : ∀ fuel n, n < fuel → repDecAux fuel n ≠ [] := by
  intro fuel
  cases fuel with
  | zero => intro n h; omega
  | succ fuel =>
    intro n _
    unfold repDecAux
    by_cases h10 : n < 10
    · rw [if_pos h10]
      simp
    · rw [if_neg h10]
      simp

theorem evalDec_repDecAux : ∀ fuel n, n < fuel → evalDec (repDecAux fuel n) = n := by
  intro fuel
  induction fuel with
  | zero => intro n h; omega
  | succ fuel ih =>
    intro n hn
    unfold repDecAux
    by_cases h10 : n < 10
    · rw [if_pos h10]
      show evalDec ([] ++ [Char.ofNat (48 + n)]) = n
      rw [evalDec_append, digit_char_toNat n h10]
      show 10 * 0 + (48 + n - 48) = n
      omega
    · rw [if_neg h10]
      have hdiv : n / 10 < fuel := by
        have h1 : n / 10 < n := Nat.div_lt_self (by omega) (by omega)
        omega
      rw [evalDec_append, ih (n / 10) hdiv,
        digit_char_toNat (n % 10) (Nat.mod_lt _ (by omega))]
      omega

theorem repDecAux_all_digits : ∀ fuel n, ∀ c ∈ repDecAux fuel n, c.isDigit = true := by
  intro fuel
  induction fuel with
  | zero => intro n c hc; exact absurd hc (List.not_mem_nil c)
  | succ fuel ih =>
    intro n c hc
    unfold repDecAux at hc
    by_cases h10 : n < 10
    · rw [if_pos h10] at hc
      rcases List.mem_singleton.1 hc with rfl
      exact digit_char_isDigit n h10
    · rw [if_neg h10] at hc
      rcases List.mem_append.1 hc with h | h
      · exact ih (n / 10) c h
      · rcases List.mem_singleton.1 h with rfl
        exact digit_char_isDigit (n % 10) (Nat.mod_lt _ (by omega))

theorem evalDec_zeros : ∀ (k : Nat) (xs : List Char),
    evalDec (List.replicate k '0' ++ xs) = evalDec xs := by
  intro k
  induction k with
  | zero => intro xs; rfl
  | succ k ih =>
    intro xs
    show evalDec ('0' :: (List.replicate k '0' ++ xs)) = evalDec xs
    unfold evalDec at *
    rw [List.foldl_cons]
    show List.foldl _ (10 * 0 + ('0'.toNat - 48)) _ = _
    rw [show 10 * 0 + ('0'.toNat - 48) = 0 from by decide]
    exact ih xs

theorem evalDec_padChars (w n : Nat) : evalDec (padChars w n) = n := by
  unfold padChars decChars
  rw [evalDec_zeros]
  exact evalDec_repDecAux (n + 1) n (Nat.lt_succ_self n)

theorem padChars_injective (w a b : Nat) (h : padChars w a = padChars w b) : a = b := by
  have := congrArg evalDec h
  rw [evalDec_padChars, evalDec_padChars] at this
  exact this

theorem padNum_injective (w a b : Nat) (h : padNum w a = padNum w b) : a = b := by
  unfold padNum at h
  exact padChars_injective w a b (congrArg String.data h)

theorem padChars_all_digits (w n : Nat) : ∀ c ∈ padChars w n, c.isDigit = true := by
  intro c hc
  unfold padChars at hc
  rcases List.mem_append.1 hc with h | h
  · rcases List.eq_of_mem_replicate h with rfl
    decide
  · exact repDecAux_all_digits (n + 1) n c h

theorem padChars_length (w n : Nat) : w ≤ (padChars w n).length := by
  unfold padChars
  rw [List.length_append, List.length_replicate]
  omega

theorem padChars_ne_nil (w n : Nat) : padChars w n ≠ [] := by
  intro h
  unfold padChars decChars at h
  rcases List.append_eq_nil.1 h with ⟨_, h2⟩
  exact repDecAux_ne_nil (n + 1) n (Nat.lt_succ_self n) h2

theorem isDigit_ne_space : ∀ c : Char, c.isDigit = true → c ≠ ' ' := by
  intro c hd he
  rw [he] at hd
  exact Bool.noConfusion hd

/-! ### Space splitting lemmas (claim C4) -/

theorem splitSpaces_nospace : ∀ s : List Char, (∀ c ∈ s, c ≠ ' ') →
    splitSpaces s = [s] := by
  intro s
  induction s with
  | nil => intro _; rfl
  | cons c rest ih =>
    intro h
    rw [splitSpaces, if_neg (h c (List.mem_cons_self _ _)),
      ih (fun x hx => h x (List.mem_cons_of_mem _ hx))]

theorem splitSpaces_append : ∀ (s1 s2 : List Char), (∀ c ∈ s1, c ≠ ' ') →
    splitSpaces (s1 ++ ' ' :: s2) = s1 :: splitSpaces s2 := by
  intro s1
  induction s1 with
  | nil =>
    intro s2 _
    show splitSpaces (' ' :: s2) = [] :: splitSpaces s2
    rw [splitSpaces, if_pos rfl]
  | cons c rest ih =>
    intro s2 h
    show splitSpaces (c :: (rest ++ ' ' :: s2)) = (c :: rest) :: splitSpaces s2
    rw [splitSpaces, if_neg (h c (List.mem_cons_self _ _)),
      ih s2 (fun x hx => h x (List.mem_cons_of_mem _ hx))]

/-! ### Generic association-list and index lemmas (claims C4, C6, C7) -/

theorem alookup_mem {α : Type} :
    ∀ (l : List (String × α)) (k : String) (v : α), alookup l k = some v → (k, v) ∈ l := by
  intro l
  induction l with
  | nil => intro k v h; exact Option.noConfusion h
  | cons p rest ih =>
    obtain ⟨pk, pv⟩ := p
    intro k v h
    rw [show alookup ((pk, pv) :: rest) k =
          (if pk = k then some pv else alookup rest k) from rfl] at h
    by_cases he : pk = k
    · rw [if_pos he] at h
      rcases Option.some.inj h with rfl
      subst he
      exact List.mem_cons_self _ _
    · rw [if_neg he] at h
      exact List.mem_cons_of_mem _ (ih k v h)

theorem foldl_inv {β γ : Type} (f : γ → β → γ) (P : γ → Prop) :
    ∀ (l : List β), (∀ b ∈ l, ∀ acc, P acc → P (f acc b)) → ∀ acc, P acc → P (l.foldl f acc) := by
  intro l
  induction l with
  | nil => intro _ acc h; exact h
  | cons b t ih =>
    intro hstep acc h
    rw [List.foldl_cons]
    exact ih (fun x hx => hstep x (List.mem_cons_of_mem _ hx)) (f acc b)
      (hstep b (List.mem_cons_self _ _) acc h)

theorem alookup_dinsert_shape {α : Type} (P : α → Prop) (l : List (String × α)) (k : String)
    (v : α) (hv : P v) (hl : ∀ k' v', alookup l k' = some v' → P v') :
    ∀ k' v', alookup (dinsert l k v) k' = some v' → P v' := by
  intro k' v' h
  rw [alookup_dinsert] at h
  by_cases he : k = k'
  · rw [if_pos he] at h
    exact (Option.some.inj h) ▸ hv
  · rw [if_neg he] at h
    exact hl k' v' h

theorem findIdx_of_mem : ∀ (l : List String) (k : String), k ∈ l →
    ∀ i0 : Nat, ∃ j : Nat, List.findIdx? (fun x => x = k) l i0 = some (i0 + j) ∧
      ∃ h : j < l.length, l.get ⟨j, h⟩ = k := by
  intro l
  induction l with
  | nil => intro k h; exact absurd h (List.not_mem_nil k)
  | cons a rest ih =>
    intro k hm i0
    by_cases he : a = k
    · refine ⟨0, ?_, Nat.succ_pos _, he⟩
      rw [List.findIdx?_cons, if_pos (decide_eq_true he), Nat.add_zero]
    · have hm2 : k ∈ rest := by
        rcases List.mem_cons.1 hm with h | h
        · exact absurd h.symm he
        · exact h
      obtain ⟨j, hj, hlt, hget⟩ := ih k hm2 (i0 + 1)
      refine ⟨j + 1, ?_, Nat.succ_lt_succ hlt, hget⟩
      rw [List.findIdx?_cons, if_neg (by simp [he]), hj]
      exact congrArg some (by omega)

/-! ### Mark-identifier format lemmas (claim C4) -/

theorem markCanon_data (a b c r s : Nat) :
    (markCanon a b c r s).data =
      ('N' :: padChars 4 a) ++ ' ' :: (('T' :: padChars 4 b) ++ ' ' :: (('B' :: padChars 2 c) ++ ' ' ::
        ('A' :: ' ' :: (decChars r ++ ' ' :: 'o' :: 'f' :: ' ' :: decChars s)))) := by
  show (['N'] ++ padChars 4 a) ++ [' '] ++ (['T'] ++ padChars 4 b) ++ [' '] ++
      (['B'] ++ padChars 2 c) ++ [' '] ++
      (['A', ' '] ++ decChars r ++ [' ', 'o', 'f', ' '] ++ decChars s) = _
  simp [List.append_assoc]

theorem splitSpaces_markCanon (a b c r s : Nat) :
    splitSpaces (markCanon a b c r s).data =
      [('N' :: padChars 4 a), ('T' :: padChars 4 b), ('B' :: padChars 2 c), ['A'],
        decChars r, ['o', 'f'], decChars s] := by
  have hads : ∀ w n : Nat, ∀ x ∈ padChars w n, x ≠ ' ' :=
    fun w n x hx => isDigit_ne_space x (padChars_all_digits w n x hx)
  have hds : ∀ n : Nat, ∀ x ∈ decChars n, x ≠ ' ' :=
    fun n x hx => isDigit_ne_space x (repDecAux_all_digits (n + 1) n x hx)
  have hN : ∀ x ∈ 'N' :: padChars 4 a, x ≠ ' ' := by
    intro x hx
    rcases List.mem_cons.1 hx with rfl | hx
    · decide
    · exact hads 4 a x hx
  have hT : ∀ x ∈ 'T' :: padChars 4 b, x ≠ ' ' := by
    intro x hx
    rcases List.mem_cons.1 hx with rfl | hx
    · decide
    · exact hads 4 b x hx
  have hB : ∀ x ∈ 'B' :: padChars 2 c, x ≠ ' ' := by
    intro x hx
    rcases List.mem_cons.1 hx with rfl | hx
    · decide
    · exact hads 2 c x hx
  rw [markCanon_data,
    splitSpaces_append _ _ hN,
    splitSpaces_append _ _ hT,
    splitSpaces_append _ _ hB,
    show ('A' :: ' ' :: (decChars r ++ ' ' :: 'o' :: 'f' :: ' ' :: decChars s)) =
      ['A'] ++ ' ' :: (decChars r ++ ' ' :: 'o' :: 'f' :: ' ' :: decChars s) from rfl,
    splitSpaces_append _ _ (by decide),
    splitSpaces_append _ _ (hds r),
    show ('o' :: 'f' :: ' ' :: decChars s) = ['o', 'f'] ++ ' ' :: decChars s from rfl,
    splitSpaces_append _ _ (by decide),
    splitSpaces_nospace _ (hds s)]

theorem check_mark_canonical (a b c r s : Nat) :
    check_mark_format (markCanon a b c r s) = true := by
  unfold check_mark_format
  rw [splitSpaces_markCanon]
  show (tagSeg 'N' 4 ('N' :: padChars 4 a) && tagSeg 'T' 4 ('T' :: padChars 4 b) &&
    tagSeg 'B' 2 ('B' :: padChars 2 c) && decide (['A'] = ['A']) && digitsNE (decChars r) &&
    decide ((['o', 'f'] : List Char) = ['o', 'f']) && digitsNE (decChars s)) = true
  have hseg : ∀ (tg : Char) (w n : Nat), tagSeg tg w (tg :: padChars w n) = true := by
    intro tg w n
    unfold tagSeg digitsNE
    simp only [Bool.and_eq_true, decide_eq_true_eq, List.all_eq_true, Bool.not_eq_true',
      List.isEmpty_eq_false]
    exact ⟨⟨trivial, padChars_all_digits w n, padChars_ne_nil w n⟩, padChars_length w n⟩
  have hdg : ∀ n : Nat, digitsNE (decChars n) = true := by
    intro n
    unfold digitsNE
    simp only [Bool.and_eq_true, List.all_eq_true, Bool.not_eq_true', List.isEmpty_eq_false]
    exact ⟨repDecAux_all_digits (n + 1) n, repDecAux_ne_nil (n + 1) n (Nat.lt_succ_self n)⟩
  rw [hseg 'N' 4 a, hseg 'T' 4 b, hseg 'B' 2 c, hdg r, hdg s]
  decide

theorem markCanon_T_inj (a b c r s a' b' c' r' s' : Nat)
    (h : markCanon a b c r s = markCanon a' b' c' r' s') : b = b' := by
  have h2 : splitSpaces (markCanon a b c r s).data =
      splitSpaces (markCanon a' b' c' r' s').data := by rw [h]
  rw [splitSpaces_markCanon, splitSpaces_markCanon] at h2
  simp only [List.cons.injEq] at h2
  exact padChars_injective 4 b b' h2.2.1.2

theorem aPart_ne_empty (r s : Nat) : ("A " ++ repDec r ++ " of " ++ repDec s) ≠ "" := by
  intro h
  have h2 : (("A " ++ repDec r ++ " of " ++ repDec s)).data = ([] : List Char) :=
    congrArg String.data h
  rw [String.data_append, String.data_append, String.data_append] at h2
  rcases List.append_eq_nil.1 h2 with ⟨h3, _⟩
  rcases List.append_eq_nil.1 h3 with ⟨h4, _⟩
  rcases List.append_eq_nil.1 h4 with ⟨h5, _⟩
  have h6 : ('A' :: ' ' :: []) = ([] : List Char) := h5
  exact List.noConfusion h6

theorem build_shaped_canonical (a b c : Nat) (vA : String)
    (hA : vA = "" ∨ ∃ r s, vA = "A " ++ repDec r ++ " of " ++ repDec s) :
    ∃ r s, build_mark_id ("N" ++ padNum 4 a) ("T" ++ padNum 4 b) ("B" ++ padNum 2 c) vA =
      markCanon a b c r s := by
  rcases hA with rfl | ⟨r, s, rfl⟩
  · refine ⟨0, 0, ?_⟩
    unfold build_mark_id markCanon
    rw [if_pos rfl,
      show ("A 0 of 0" : String) = "A " ++ repDec 0 ++ " of " ++ repDec 0 from by decide]
  · refine ⟨r, s, ?_⟩
    unfold build_mark_id markCanon
    rw [if_neg (aPart_ne_empty r s)]

theorem markOf_canonical (A B T N : List (String × String)) (sid : String)
    (hN : ∀ v, alookup N sid = some v → ∃ k, v = "N" ++ padNum 4 k)
    (hB : ∀ v, alookup B sid = some v → ∃ k, v = "B" ++ padNum 2 k)
    (hA : ∀ v, alookup A sid = some v → ∃ r s, v = "A " ++ repDec r ++ " of " ++ repDec s)
    (b : Nat) (hT : alookup T sid = some ("T" ++ padNum 4 b)) :
    ∃ a c r s, mark_of_fn A B T N sid = markCanon a b c r s := by
  have hNv : ∃ a, (alookup N sid).getD "N0000" = "N" ++ padNum 4 a := by
    cases hNl : alookup N sid with
    | none => exact ⟨0, by rw [Option.getD_none]; decide⟩
    | some v =>
      obtain ⟨k, hk⟩ := hN v hNl
      exact ⟨k, by rw [Option.getD_some, hk]⟩
  have hBv : ∃ c, (alookup B sid).getD "B00" = "B" ++ padNum 2 c := by
    cases hBl : alookup B sid with
    | none => exact ⟨0, by rw [Option.getD_none]; decide⟩
    | some v =>
      obtain ⟨k, hk⟩ := hB v hBl
      exact ⟨k, by rw [Option.getD_some, hk]⟩
  have hAv : ((alookup A sid).getD "") = "" ∨
      ∃ r s, ((alookup A sid).getD "") = "A " ++ repDec r ++ " of " ++ repDec s := by
    cases hAl : alookup A sid with
    | none => left; rw [Option.getD_none]
    | some v => right; exact hA v hAl
  obtain ⟨a, ha⟩ := hNv
  obtain ⟨c, hc⟩ := hBv
  unfold mark_of_fn
  rw [hT, Option.getD_some, ha, hc]
  obtain ⟨r, s, hbc⟩ := build_shaped_canonical a b c ((alookup A sid).getD "") hAv
  exact ⟨a, c, r, s, hbc⟩

theorem markOf_root_placeholder (A B T N : List (String × String)) (sid : String)
    (hA : alookup A sid = none) :
    ∃ p, mark_of_fn A B T N sid = p ++ "A 0 of 0" := by
  unfold mark_of_fn build_mark_id
  rw [hA, Option.getD_none, if_pos rfl]
  exact ⟨_, rfl⟩

/-! ### Shapes of the A/B/T/N label maps (claims C4, C6) -/

theorem computeA_A_shape (nodes : List (String × NNode)) (root_id : String) :
    ∀ k v, alookup (compute_A_labels nodes root_id).1 k = some v →
      ∃ r s, v = "A " ++ repDec r ++ " of " ++ repDec s := by
  have hfold : ∀ (gs : List (String × List String))
      (st : List (String × String) × List (String × NNode)),
      (∀ k v, alookup st.1 k = some v → ∃ r s, v = "A " ++ repDec r ++ " of " ++ repDec s) →
      ∀ k v, alookup (gs.foldl
        (fun (acc : List (String × String) × List (String × NNode)) pg =>
          let kids_sorted := sort_children_by_time acc.2 pg.2
          let total := kids_sorted.length
          let A' := kids_sorted.enum.foldl
            (fun a ic => dinsert a ic.2 ("A " ++ repDec (ic.1 + 1) ++ " of " ++ repDec total)) acc.1
          let nodes' :=
            if (alookup acc.2 pg.1).isSome then
              dupdate acc.2 pg.1 (fun n => { n with children := kids_sorted })
            else acc.2
          (A', nodes')) st).1 k = some v →
        ∃ r s, v = "A " ++ repDec r ++ " of " ++ repDec s := by
    intro gs
    induction gs with
    | nil => intro st hst; exact hst
    | cons pg rest ih =>
      intro st hst k v h
      rw [List.foldl_cons] at h
      refine ih _ ?_ k v h
      intro k' v' h'
      have h'' : alookup ((sort_children_by_time st.2 pg.2).enum.foldl
          (fun a ic => dinsert a ic.2 ("A " ++ repDec (ic.1 + 1) ++ " of " ++
            repDec (sort_children_by_time st.2 pg.2).length)) st.1) k' = some v' := h'
      exact foldl_inv _
        (fun a => ∀ k2 v2, alookup a k2 = some v2 →
          ∃ r s, v2 = "A " ++ repDec r ++ " of " ++ repDec s) _
        (fun ic _ acc hacc =>
          alookup_dinsert_shape _ acc ic.2 _ ⟨ic.1 + 1, (sort_children_by_time st.2 pg.2).length, rfl⟩ hacc)
        st.1 hst k' v' h''
  intro k v h
  by_cases hk : k = root_id
  · have h2 : alookup (dremove ((parentToChildren nodes).foldl
        (fun (acc : List (String × String) × List (String × NNode)) pg =>
          let kids_sorted := sort_children_by_time acc.2 pg.2
          let total := kids_sorted.length
          let A' := kids_sorted.enum.foldl
            (fun a ic => dinsert a ic.2 ("A " ++ repDec (ic.1 + 1) ++ " of " ++ repDec total)) acc.1
          let nodes' :=
            if (alookup acc.2 pg.1).isSome then
              dupdate acc.2 pg.1 (fun n => { n with children := kids_sorted })
            else acc.2
          (A', nodes')) ([], nodes)).1 root_id) k = some v := hk ▸ h
    rw [hk, alookup_dremove_self] at h2
    exact Option.noConfusion h2
  · have h2 : alookup (dremove ((parentToChildren nodes).foldl
        (fun (acc : List (String × String) × List (String × NNode)) pg =>
          let kids_sorted := sort_children_by_time acc.2 pg.2
          let total := kids_sorted.length
          let A' := kids_sorted.enum.foldl
            (fun a ic => dinsert a ic.2 ("A " ++ repDec (ic.1 + 1) ++ " of " ++ repDec total)) acc.1
          let nodes' :=
            if (alookup acc.2 pg.1).isSome then
              dupdate acc.2 pg.1 (fun n => { n with children := kids_sorted })
            else acc.2
          (A', nodes')) ([], nodes)).1 root_id) k = some v := h
    rw [alookup_dremove_ne _ root_id k (fun he => hk he.symm)] at h2
    exact hfold (parentToChildren nodes) ([], nodes)
      (fun k2 v2 hx => Option.noConfusion hx) k v h2

theorem computeT_shape (nodes : List (String × NNode)) :
    ∀ k v, alookup (compute_T_labels nodes) k = some v → ∃ m, v = "T" ++ padNum 4 m := by
  intro k v h
  have h2 : alookup ((sortByKey (derive_sort_key nodes) (akeys nodes)).enum.foldl
      (fun a ic => dinsert a ic.2 ("T" ++ padNum 4 (ic.1 + 1))) []) k = some v := h
  exact foldl_inv _ (fun a => ∀ k2 v2, alookup a k2 = some v2 → ∃ m, v2 = "T" ++ padNum 4 m) _
    (fun ic _ acc hacc => alookup_dinsert_shape _ acc ic.2 _ ⟨ic.1 + 1, rfl⟩ hacc)
    [] (fun k2 v2 hx => Option.noConfusion hx) k v h2

theorem dfsN_shape (nodes : List (String × NNode)) :
    ∀ fuel nid st st', dfsN nodes fuel nid st = some st' →
      (∀ k v, alookup st.2 k = some v → ∃ m, v = "N" ++ padNum 4 m) →
      (∀ k v, alookup st'.2 k = some v → ∃ m, v = "N" ++ padNum 4 m) := by
  intro fuel
  induction fuel with
  | zero => intro nid st st' h; exact Option.noConfusion h
  | succ fuel ih =>
    intro nid st st' h hst
    have h2 : (((alookup nodes nid).map (·.children)).getD []).foldlM
        (fun s c => dfsN nodes fuel c s)
        (st.1 + 1, dinsert st.2 nid ("N" ++ padNum 4 (st.1 + 1))) = some st' := h
    refine foldlM_option_inv _
      (fun s => ∀ k v, alookup s.2 k = some v → ∃ m, v = "N" ++ padNum 4 m)
      (fun c s s' hs hP => ih c s s' hs hP) _ _ st' h2 ?_
    exact alookup_dinsert_shape _ st.2 nid _ ⟨st.1 + 1, rfl⟩ hst

theorem computeN_shape (nodes : List (String × NNode)) (root : String)
    (N : List (String × String)) (hN : compute_N_labels nodes root = some N) :
    ∀ k v, alookup N k = some v → ∃ m, v = "N" ++ padNum 4 m := by
  unfold compute_N_labels at hN
  rcases Option.map_eq_some'.1 hN with ⟨st', hdfs, rfl⟩
  exact dfsN_shape nodes (nodes.length + 2) root (0, []) st' hdfs
    (fun k v hx => Option.noConfusion hx)

theorem computeB_shape (nodes : List (String × NNode)) (root : String)
    (B : List (String × String)) (hB : compute_B_labels nodes root = some B) :
    ∀ k v, alookup B k = some v → ∃ m, v = "B" ++ padNum 2 m := by
  unfold compute_B_labels at hB
  rcases Option.map_eq_some'.1 hB with ⟨Bn, _, rfl⟩
  intro k v h
  have h' : alookup (Bn.map (fun kv =>
      (kv.1, (fun (_ : String) (n : Nat) => "B" ++ padNum 2 n) kv.1 kv.2))) k = some v := h
  have h2 := (alookup_map_val (fun (_ : String) (n : Nat) => "B" ++ padNum 2 n) Bn k).symm.trans h'
  rcases Option.map_eq_some'.1 h2 with ⟨n0, _, hv⟩
  exact ⟨n0, hv.symm⟩

/-! ### The `T` map enumerates all node keys injectively (claim C4) -/

theorem computeT_eq (nodes : List (String × NNode)) (hnd : (akeys nodes).Nodup) :
    compute_T_labels nodes =
      (sortByKey (derive_sort_key nodes) (akeys nodes)).enum.map
        (fun ic => (ic.2, "T" ++ padNum 4 (ic.1 + 1))) := by
  have hnd2 : (sortByKey (derive_sort_key nodes) (akeys nodes)).Nodup :=
    ((sortByKey_perm _ _).nodup_iff).2 hnd
  have h2 : ((sortByKey (derive_sort_key nodes) (akeys nodes)).enum.map
      (fun ic => (ic.2, "T" ++ padNum 4 (ic.1 + 1)))).foldl
        (fun a kv => dinsert a kv.1 kv.2) [] =
      (sortByKey (derive_sort_key nodes) (akeys nodes)).enum.foldl
        (fun a ic => dinsert a ic.2 ("T" ++ padNum 4 (ic.1 + 1))) [] := by
    rw [List.foldl_map]
  have hkeys : ((sortByKey (derive_sort_key nodes) (akeys nodes)).enum.map
      (fun ic => (ic.2, "T" ++ padNum 4 (ic.1 + 1)))).map (fun p => p.1) =
      sortByKey (derive_sort_key nodes) (akeys nodes) := by
    rw [List.map_map]
    exact List.enum_map_snd _
  show (sortByKey (derive_sort_key nodes) (akeys nodes)).enum.foldl
      (fun a ic => dinsert a ic.2 ("T" ++ padNum 4 (ic.1 + 1))) [] = _
  rw [← h2, foldl_dinsert_fresh _ []
    (fun p _ hp => absurd hp (List.not_mem_nil p.1))
    (by rw [hkeys]; exact hnd2)]
  exact List.nil_append _

theorem computeT_keys (nodes : List (String × NNode)) (hnd : (akeys nodes).Nodup) :
    akeys (compute_T_labels nodes) = sortByKey (derive_sort_key nodes) (akeys nodes) := by
  rw [computeT_eq nodes hnd]
  show ((sortByKey (derive_sort_key nodes) (akeys nodes)).enum.map
      (fun ic => (ic.2, "T" ++ padNum 4 (ic.1 + 1)))).map (fun p => p.1) = _
  rw [List.map_map]
  exact List.enum_map_snd _

theorem T_lookup_of_key (nodes : List (String × NNode)) (hnd : (akeys nodes).Nodup)
    (sid : String) (hmem : sid ∈ akeys nodes) :
    ∃ i : Nat, ∃ h : i < (sortByKey (derive_sort_key nodes) (akeys nodes)).length,
      (sortByKey (derive_sort_key nodes) (akeys nodes)).get ⟨i, h⟩ = sid ∧
      alookup (compute_T_labels nodes) sid = some ("T" ++ padNum 4 (i + 1)) := by
  have hmem2 : sid ∈ sortByKey (derive_sort_key nodes) (akeys nodes) :=
    (sortByKey_perm _ _).mem_iff.2 hmem
  obtain ⟨⟨i, hi⟩, hget⟩ := List.mem_iff_get.1 hmem2
  refine ⟨i, hi, hget, ?_⟩
  have hnodup : (akeys (compute_T_labels nodes)).Nodup := by
    rw [computeT_keys nodes hnd]
    exact ((sortByKey_perm _ _).nodup_iff).2 hnd
  have hm : (sid, "T" ++ padNum 4 (i + 1)) ∈
      (sortByKey (derive_sort_key nodes) (akeys nodes)).enum.map
        (fun ic => (ic.2, "T" ++ padNum 4 (ic.1 + 1))) := by
    refine List.mem_map.2 ⟨(i, sid), ?_, rfl⟩
    exact List.mem_enum_iff_get?.2 (by rw [List.get?_eq_get hi, hget])
  rw [computeT_eq nodes hnd]
  have hnodup2 : (akeys ((sortByKey (derive_sort_key nodes) (akeys nodes)).enum.map
      (fun ic => (ic.2, "T" ++ padNum 4 (ic.1 + 1))))).Nodup := by
    rw [← computeT_eq nodes hnd]
    exact hnodup
  exact alookup_of_mem_nodup _ (sid, "T" ++ padNum 4 (i + 1)) hm hnodup2

/-! ### `compute_A_labels` rewrites children from parent pointers (claims C4, C6) -/

theorem addGroup_mem : ∀ (acc : List (String × List String)) (p c : String),
    ∀ pg ∈ addGroup acc p c, ∀ x ∈ pg.2,
      (∃ pg0 ∈ acc, pg0.1 = pg.1 ∧ x ∈ pg0.2) ∨ (pg.1 = p ∧ x = c) := by
  intro acc
  induction acc with
  | nil =>
    intro p c pg hpg x hx
    rcases List.mem_singleton.1 hpg with rfl
    rcases List.mem_singleton.1 hx with rfl
    exact Or.inr ⟨rfl, rfl⟩
  | cons kv rest ih =>
    intro p c pg hpg x hx
    obtain ⟨k, g⟩ := kv
    have hpg' : pg ∈ (if k = p then (k, g ++ [c]) :: rest else (k, g) :: addGroup rest p c) := hpg
    by_cases he : k = p
    · rw [if_pos he] at hpg'
      rcases List.mem_cons.1 hpg' with rfl | hm
      · rcases List.mem_append.1 hx with hg | hc2
        · exact Or.inl ⟨(k, g), List.mem_cons_self _ _, rfl, hg⟩
        · rcases List.mem_singleton.1 hc2 with rfl
          exact Or.inr ⟨he, rfl⟩
      · exact Or.inl ⟨pg, List.mem_cons_of_mem _ hm, rfl, hx⟩
    · rw [if_neg he] at hpg'
      rcases List.mem_cons.1 hpg' with rfl | hm
      · exact Or.inl ⟨(k, g), List.mem_cons_self _ _, rfl, hx⟩
      · rcases ih p c pg hm x hx with ⟨pg0, h0, he0, hx0⟩ | h
        · exact Or.inl ⟨pg0, List.mem_cons_of_mem _ h0, he0, hx0⟩
        · exact Or.inr h

theorem parentToChildren_mem (nodes : List (String × NNode)) :
    ∀ pg ∈ parentToChildren nodes, ∀ c ∈ pg.2, ∃ n, (c, n) ∈ nodes ∧ n.parent = some pg.1 := by
  have main : ∀ (l : List (String × NNode)), (∀ kv ∈ l, kv ∈ nodes) →
      ∀ acc : List (String × List String),
        (∀ pg ∈ acc, ∀ c ∈ pg.2, ∃ n, (c, n) ∈ nodes ∧ n.parent = some pg.1) →
        ∀ pg ∈ l.foldl (fun acc kv =>
            match kv.2.parent with
            | none => acc
            | some p => addGroup acc p kv.1) acc,
          ∀ c ∈ pg.2, ∃ n, (c, n) ∈ nodes ∧ n.parent = some pg.1 := by
    intro l
    induction l with
    | nil => intro _ acc hacc; exact hacc
    | cons kv rest ih =>
      intro hsub acc hacc
      rw [List.foldl_cons]
      refine ih (fun q hq => hsub q (List.mem_cons_of_mem _ hq)) _ ?_
      cases hp : kv.2.parent with
      | none =>
        intro pg hpg
        exact hacc pg hpg
      | some p =>
        intro pg hpg c hc
        rcases addGroup_mem acc p kv.1 pg hpg c hc with ⟨pg0, h0, he0, hc0⟩ | ⟨he, rfl⟩
        · obtain ⟨n, hn, hpar⟩ := hacc pg0 h0 c hc0
          exact ⟨n, hn, by rw [hpar, he0]⟩
        · exact ⟨kv.2, by rw [Prod.mk.eta]; exact hsub kv (List.mem_cons_self _ _),
            by rw [hp, he]⟩
  intro pg hpg c hc
  exact main nodes (fun q hq => hq) []
    (fun pg0 h0 => absurd h0 (List.not_mem_nil pg0)) pg hpg c hc

theorem computeA_nodes_spec (nodes : List (String × NNode)) (root_id : String)
    (rank : String → Nat)
    (hch : ∀ id n, alookup nodes id = some n → ∀ c ∈ n.children, rank c < rank id)
    (hpar : ∀ id n, alookup nodes id = some n → ∀ p, n.parent = some p → rank id < rank p)
    (hnd : (akeys nodes).Nodup) :
    akeys (compute_A_labels nodes root_id).2 = akeys nodes ∧
    (∀ id n1, alookup (compute_A_labels nodes root_id).2 id = some n1 →
      ∀ c ∈ n1.children, rank c < rank id) := by
  have hgrps := parentToChildren_mem nodes
  have main : ∀ (gs : List (String × List String)),
      (∀ pg ∈ gs, ∀ c ∈ pg.2, ∃ n, (c, n) ∈ nodes ∧ n.parent = some pg.1) →
      ∀ st : List (String × String) × List (String × NNode),
        akeys st.2 = akeys nodes →
        (∀ id n1, alookup st.2 id = some n1 → ∀ c ∈ n1.children, rank c < rank id) →
        akeys (gs.foldl
          (fun (acc : List (String × String) × List (String × NNode)) pg =>
            let kids_sorted := sort_children_by_time acc.2 pg.2
            let total := kids_sorted.length
            let A' := kids_sorted.enum.foldl
              (fun a ic => dinsert a ic.2 ("A " ++ repDec (ic.1 + 1) ++ " of " ++ repDec total)) acc.1
            let nodes' :=
              if (alookup acc.2 pg.1).isSome then
                dupdate acc.2 pg.1 (fun n => { n with children := kids_sorted })
              else acc.2
            (A', nodes')) st).2 = akeys nodes ∧
        (∀ id n1, alookup (gs.foldl
          (fun (acc : List (String × String) × List (String × NNode)) pg =>
            let kids_sorted := sort_children_by_time acc.2 pg.2
            let total := kids_sorted.length
            let A' := kids_sorted.enum.foldl
              (fun a ic => dinsert a ic.2 ("A " ++ repDec (ic.1 + 1) ++ " of " ++ repDec total)) acc.1
            let nodes' :=
              if (alookup acc.2 pg.1).isSome then
                dupdate acc.2 pg.1 (fun n => { n with children := kids_sorted })
              else acc.2
            (A', nodes')) st).2 id = some n1 → ∀ c ∈ n1.children, rank c < rank id) := by
    intro gs
    induction gs with
    | nil => intro _ st h1 h2; exact ⟨h1, h2⟩
    | cons pg rest ih =>
      intro hsound st hk hrd
      rw [List.foldl_cons]
      refine ih (fun q hq => hsound q (List.mem_cons_of_mem _ hq)) _ ?_ ?_
      · show akeys (if (alookup st.2 pg.1).isSome then
            dupdate st.2 pg.1 (fun n => { n with children := sort_children_by_time st.2 pg.2 })
          else st.2) = akeys nodes
        by_cases hs : (alookup st.2 pg.1).isSome
        · rw [if_pos hs, akeys_dupdate]
          exact hk
        · rw [if_neg hs]
          exact hk
      · intro id n1 h1
        have h1' : alookup (if (alookup st.2 pg.1).isSome then
            dupdate st.2 pg.1 (fun n => { n with children := sort_children_by_time st.2 pg.2 })
          else st.2) id = some n1 := h1
        by_cases hs : (alookup st.2 pg.1).isSome
        · rw [if_pos hs, alookup_dupdate] at h1'
          by_cases he : pg.1 = id
          · rw [if_pos he] at h1'
            rcases Option.map_eq_some'.1 h1' with ⟨n0, hn0, hn1⟩
            intro c hc
            rw [← hn1] at hc
            have hc2 : c ∈ sort_children_by_time st.2 pg.2 := hc
            have hc3 : c ∈ pg.2 := (sortByKey_perm _ _).mem_iff.1 hc2
            obtain ⟨n2, hn2mem, hn2par⟩ := hsound pg (List.mem_cons_self _ _) c hc3
            have hlook : alookup nodes c = some n2 := alookup_of_mem_nodup nodes (c, n2) hn2mem hnd
            have hr := hpar c n2 hlook pg.1 hn2par
            rw [← he]
            exact hr
          · rw [if_neg he] at h1'
            exact hrd id n1 h1'
        · rw [if_neg hs] at h1'
          exact hrd id n1 h1'
  exact main (parentToChildren nodes) hgrps ([], nodes) rfl (fun id n1 h => hch id n1 h)

theorem length_eq_of_akeys_eq {α β : Type} (l1 : List (String × α)) (l2 : List (String × β))
    (h : akeys l1 = akeys l2) : l1.length = l2.length := by
  have h2 := congrArg List.length h
  simpa [akeys] using h2

/-! ### Totality of the fuelled label DFSs on ranked node maps (claims C4, C6) -/

theorem dfsB_isSome (nodes : List (String × NNode)) (rank : String → Nat)
    (hrk : ∀ id n, alookup nodes id = some n → ∀ c ∈ n.children, rank c < rank id) :
    ∀ fuel nid, rank nid < fuel → ∀ bc acc, (dfsB nodes fuel nid bc acc).isSome := by
  intro fuel
  induction fuel with
  | zero => intro nid h; omega
  | succ fuel ih =>
    intro nid h bc acc
    show ((((alookup nodes nid).map (·.children)).getD []).foldlM
      (fun a c => dfsB nodes fuel c
        (bc + (if 1 < (((alookup nodes nid).map (·.children)).getD []).length then 1 else 0)) a)
      (dinsert acc nid bc)).isSome
    apply foldlM_option_isSome
    intro c hc st
    cases hnl : alookup nodes nid with
    | none => simp [hnl] at hc
    | some n =>
      have hcm : c ∈ n.children := by simpa [hnl] using hc
      exact ih c (by have := hrk nid n hnl c hcm; omega) _ st

theorem dfsN_isSome (nodes : List (String × NNode)) (rank : String → Nat)
    (hrk : ∀ id n, alookup nodes id = some n → ∀ c ∈ n.children, rank c < rank id) :
    ∀ fuel nid, rank nid < fuel → ∀ st, (dfsN nodes fuel nid st).isSome := by
  intro fuel
  induction fuel with
  | zero => intro nid h; omega
  | succ fuel ih =>
    intro nid h st
    show ((((alookup nodes nid).map (·.children)).getD []).foldlM
      (fun s c => dfsN nodes fuel c s)
      (st.1 + 1, dinsert st.2 nid ("N" ++ padNum 4 (st.1 + 1)))).isSome
    apply foldlM_option_isSome
    intro c hc s
    cases hnl : alookup nodes nid with
    | none => simp [hnl] at hc
    | some n =>
      have hcm : c ∈ n.children := by simpa [hnl] using hc
      exact ih c (by have := hrk nid n hnl c hcm; omega) s

theorem computeB_isSome (nodes : List (String × NNode)) (root : String) (rank : String → Nat)
    (hrk : ∀ id n, alookup nodes id = some n → ∀ c ∈ n.children, rank c < rank id)
    (hbound : rank root ≤ nodes.length) :
    (compute_B_labels nodes root).isSome := by
  unfold compute_B_labels
  obtain ⟨Bn, hBn⟩ := Option.isSome_iff_exists.1
    (dfsB_isSome nodes rank hrk (nodes.length + 2) root (by omega) 0 [])
  rw [hBn]
  rfl

theorem computeN_isSome (nodes : List (String × NNode)) (root : String) (rank : String → Nat)
    (hrk : ∀ id n, alookup nodes id = some n → ∀ c ∈ n.children, rank c < rank id)
    (hbound : rank root ≤ nodes.length) :
    (compute_N_labels nodes root).isSome := by
  unfold compute_N_labels
  obtain ⟨st', hst'⟩ := Option.isSome_iff_exists.1
    (dfsN_isSome nodes rank hrk (nodes.length + 2) root (by omega) (0, []))
  rw [hst']
  rfl

/-! ### The mark table of `apply_mark_ids` (claim C4) -/

theorem computeA_root_none (nodes : List (String × NNode)) (root_id : String) :
    alookup (compute_A_labels nodes root_id).1 root_id = none := by
  have h : alookup (dremove ((parentToChildren nodes).foldl
      (fun (acc : List (String × String) × List (String × NNode)) pg =>
        let kids_sorted := sort_children_by_time acc.2 pg.2
        let total := kids_sorted.length
        let A' := kids_sorted.enum.foldl
          (fun a ic => dinsert a ic.2 ("A " ++ repDec (ic.1 + 1) ++ " of " ++ repDec total)) acc.1
        let nodes' :=
          if (alookup acc.2 pg.1).isSome then
            dupdate acc.2 pg.1 (fun n => { n with children := kids_sorted })
          else acc.2
        (A', nodes')) ([], nodes)).1 root_id) root_id = none := alookup_dremove_self _ _
  exact h

theorem mark_table_spec (nodes1 : List (String × NNode)) (A B T N : List (String × String))
    (hnd1 : (akeys nodes1).Nodup)
    (hshN : ∀ k v, alookup N k = some v → ∃ m, v = "N" ++ padNum 4 m)
    (hshB : ∀ k v, alookup B k = some v → ∃ m, v = "B" ++ padNum 2 m)
    (hshA : ∀ k v, alookup A k = some v → ∃ r s, v = "A " ++ repDec r ++ " of " ++ repDec s)
    (hT : T = compute_T_labels nodes1) :
    (∀ mark node, alookup (nodes1.foldl (fun acc kv => dinsert acc (mark_of_fn A B T N kv.1)
        (processed_node_of A B T N nodes1 kv.1 kv.2)) []) mark = some node →
      check_mark_format mark = true) ∧
    (akeys (nodes1.foldl (fun acc kv => dinsert acc (mark_of_fn A B T N kv.1)
        (processed_node_of A B T N nodes1 kv.1 kv.2)) [])).Nodup ∧
    (nodes1.foldl (fun acc kv => dinsert acc (mark_of_fn A B T N kv.1)
        (processed_node_of A B T N nodes1 kv.1 kv.2)) []).length = nodes1.length ∧
    (∀ sid ∈ akeys nodes1, ∃ mark node,
      alookup (nodes1.foldl (fun acc kv => dinsert acc (mark_of_fn A B T N kv.1)
        (processed_node_of A B T N nodes1 kv.1 kv.2)) []) mark = some node ∧
      node.source_node_id = sid) := by
  have hcanon : ∀ sid ∈ akeys nodes1, ∃ i a c r s,
      (∃ h : i < (sortByKey (derive_sort_key nodes1) (akeys nodes1)).length,
        (sortByKey (derive_sort_key nodes1) (akeys nodes1)).get ⟨i, h⟩ = sid) ∧
      mark_of_fn A B T N sid = markCanon a (i + 1) c r s := by
    intro sid hsid
    obtain ⟨i, hi, hget, hTl⟩ := T_lookup_of_key nodes1 hnd1 sid hsid
    obtain ⟨a, c, r, s, hm⟩ := markOf_canonical A B T N sid (fun v hv => hshN sid v hv)
      (fun v hv => hshB sid v hv) (fun v hv => hshA sid v hv) (i + 1) (by rw [hT]; exact hTl)
    exact ⟨i, a, c, r, s, ⟨hi, hget⟩, hm⟩
  have hinj : ∀ sid1 ∈ akeys nodes1, ∀ sid2 ∈ akeys nodes1,
      mark_of_fn A B T N sid1 = mark_of_fn A B T N sid2 → sid1 = sid2 := by
    intro sid1 h1 sid2 h2 heq
    obtain ⟨i1, a1, c1, r1, s1, ⟨hi1, hg1⟩, hm1⟩ := hcanon sid1 h1
    obtain ⟨i2, a2, c2, r2, s2, ⟨hi2, hg2⟩, hm2⟩ := hcanon sid2 h2
    rw [hm1, hm2] at heq
    have hTi := markCanon_T_inj a1 (i1 + 1) c1 r1 s1 a2 (i2 + 1) c2 r2 s2 heq
    have hii : i1 = i2 := by omega
    subst hii
    exact hg1.symm.trans hg2
  have hcheck : ∀ sid ∈ akeys nodes1, check_mark_format (mark_of_fn A B T N sid) = true := by
    intro sid hsid
    obtain ⟨i, a, c, r, s, _, hm⟩ := hcanon sid hsid
    rw [hm]
    exact check_mark_canonical a (i + 1) c r s
  have hk1 : (nodes1.map (fun kv => (mark_of_fn A B T N kv.1,
      processed_node_of A B T N nodes1 kv.1 kv.2))).map (fun x => x.1) =
      (akeys nodes1).map (fun sid => mark_of_fn A B T N sid) := by
    rw [List.map_map]
    show nodes1.map (fun kv => mark_of_fn A B T N kv.1) = _
    rw [show (akeys nodes1) = nodes1.map (fun kv => kv.1) from rfl, List.map_map]
    rfl
  have hndP : ((akeys nodes1).map (fun sid => mark_of_fn A B T N sid)).Nodup :=
    List.Nodup.map_on (fun x hx y hy hxy => hinj x hx y hy hxy) hnd1
  have hmapped : (nodes1.foldl (fun acc kv => dinsert acc (mark_of_fn A B T N kv.1)
      (processed_node_of A B T N nodes1 kv.1 kv.2)) []) =
      nodes1.map (fun kv =>
        (mark_of_fn A B T N kv.1, processed_node_of A B T N nodes1 kv.1 kv.2)) := by
    have hf : (nodes1.map (fun kv => (mark_of_fn A B T N kv.1,
        processed_node_of A B T N nodes1 kv.1 kv.2))).foldl
          (fun a kv => dinsert a kv.1 kv.2) [] =
        nodes1.foldl (fun acc kv => dinsert acc (mark_of_fn A B T N kv.1)
          (processed_node_of A B T N nodes1 kv.1 kv.2)) [] := by
      rw [List.foldl_map]
    rw [← hf, foldl_dinsert_fresh _ [] (fun p _ hp => absurd hp (List.not_mem_nil p.1))
      (by rw [hk1]; exact hndP)]
    exact List.nil_append _
  have hndM : (akeys (nodes1.map (fun kv => (mark_of_fn A B T N kv.1,
      processed_node_of A B T N nodes1 kv.1 kv.2)))).Nodup := by
    show ((nodes1.map (fun kv => (mark_of_fn A B T N kv.1,
        processed_node_of A B T N nodes1 kv.1 kv.2))).map (fun x => x.1)).Nodup
    rw [hk1]
    exact hndP
  have hndF : (akeys (nodes1.foldl (fun acc kv => dinsert acc (mark_of_fn A B T N kv.1)
      (processed_node_of A B T N nodes1 kv.1 kv.2)) [])).Nodup := by
    rw [hmapped]
    exact hndM
  refine ⟨?_, hndF, ?_, ?_⟩
  · intro mark node h
    rw [hmapped] at h
    have hm := alookup_mem _ _ _ h
    rcases List.mem_map.1 hm with ⟨kv, hkv, heq⟩
    cases heq
    exact hcheck kv.1 (List.mem_map_of_mem _ hkv)
  · rw [hmapped, List.length_map]
  · intro sid hsid
    obtain ⟨n, hn⟩ := Option.isSome_iff_exists.1 ((alookup_isSome_iff nodes1 sid).2 hsid)
    have hmemn : (sid, n) ∈ nodes1 := alookup_mem _ _ _ hn
    refine ⟨mark_of_fn A B T N sid, processed_node_of A B T N nodes1 sid n, ?_, rfl⟩
    rw [hmapped]
    exact alookup_of_mem_nodup _
      (mark_of_fn A B T N sid, processed_node_of A B T N nodes1 sid n)
      (List.mem_map.2 ⟨(sid, n), hmemn, rfl⟩) hndM

theorem apply_mark_ids_eq (nc : NormConvo) (hroot : nc.root_source_node_id ≠ "")
    (hmem : (alookup nc.nodes nc.root_source_node_id).isSome)
    (B N : List (String × String))
    (hB : compute_B_labels (compute_A_labels nc.nodes nc.root_source_node_id).2
      nc.root_source_node_id = some B)
    (hN : compute_N_labels (compute_A_labels nc.nodes nc.root_source_node_id).2
      nc.root_source_node_id = some N) :
    apply_mark_ids nc = some
      { schema := "processed_tree_v1", conversation_id := nc.conversation_id,
        title := nc.title, create_time := nc.create_time,
        update_time := nc.update_time, project := nc.project,
        root_node_id := mark_of_fn (compute_A_labels nc.nodes nc.root_source_node_id).1 B
          (compute_T_labels (compute_A_labels nc.nodes nc.root_source_node_id).2) N
          nc.root_source_node_id,
        nodes := (compute_A_labels nc.nodes nc.root_source_node_id).2.foldl
          (fun acc kv => dinsert acc
            (mark_of_fn (compute_A_labels nc.nodes nc.root_source_node_id).1 B
              (compute_T_labels (compute_A_labels nc.nodes nc.root_source_node_id).2) N kv.1)
            (processed_node_of (compute_A_labels nc.nodes nc.root_source_node_id).1 B
              (compute_T_labels (compute_A_labels nc.nodes nc.root_source_node_id).2) N
              (compute_A_labels nc.nodes nc.root_source_node_id).2 kv.1 kv.2)) [],
        derived := none } := by
  have hcond : ¬ (nc.root_source_node_id = "" ∨ (alookup nc.nodes nc.root_source_node_id).isNone) := by
    rintro (h | h)
    · exact hroot h
    · rw [Option.isNone_iff_eq_none] at h
      rw [h] at hmem
      exact Bool.noConfusion hmem
  have h1 : apply_mark_ids nc =
      if nc.root_source_node_id = "" ∨ (alookup nc.nodes nc.root_source_node_id).isNone then
        some { schema := "processed_tree_v1", conversation_id := nc.conversation_id,
               title := nc.title, create_time := nc.create_time,
               update_time := nc.update_time, project := nc.project,
               root_node_id := "", nodes := [], derived := none }
      else
        (compute_B_labels (compute_A_labels nc.nodes nc.root_source_node_id).2
            nc.root_source_node_id).bind (fun B2 =>
          (compute_N_labels (compute_A_labels nc.nodes nc.root_source_node_id).2
              nc.root_source_node_id).bind (fun N2 =>
            some { schema := "processed_tree_v1", conversation_id := nc.conversation_id,
                   title := nc.title, create_time := nc.create_time,
                   update_time := nc.update_time, project := nc.project,
                   root_node_id := mark_of_fn (compute_A_labels nc.nodes nc.root_source_node_id).1
                     B2 (compute_T_labels (compute_A_labels nc.nodes nc.root_source_node_id).2) N2
                     nc.root_source_node_id,
                   nodes := (compute_A_labels nc.nodes nc.root_source_node_id).2.foldl
                     (fun acc kv => dinsert acc
                       (mark_of_fn (compute_A_labels nc.nodes nc.root_source_node_id).1 B2
                         (compute_T_labels (compute_A_labels nc.nodes nc.root_source_node_id).2)
                         N2 kv.1)
                       (processed_node_of (compute_A_labels nc.nodes nc.root_source_node_id).1 B2
                         (compute_T_labels (compute_A_labels nc.nodes nc.root_source_node_id).2)
                         N2 (compute_A_labels nc.nodes nc.root_source_node_id).2 kv.1 kv.2)) [],
                   derived := none })) := rfl
  rw [h1, if_neg hcond, hB]
  show (compute_N_labels (compute_A_labels nc.nodes nc.root_source_node_id).2
      nc.root_source_node_id).bind (fun N2 => _) = _
  rw [hN]
  rfl

/-- Claim C4 (corrected): for every normalized conversation whose root source id
is non-empty and present among its duplicate-free node keys and whose
parent/children references are acyclic, identifier derivation succeeds, every key
of the processed node map has the textual form
`"N<4-digit> T<4-digit> B<2-digit> A <rank> of <count>"` (the digit widths are
zero-padded minimums), the root's mark identifier ends in the fixed placeholder
`"A 0 of 0"`, mark identifiers are pairwise distinct (the processed keys are
duplicate-free), and the processed node map contains exactly one entry per source
node.  (The original claim omitted the non-empty and acyclicity provisos: Python
treats an empty-string root id as falsy and returns the empty processed tree even
though the id is present among the nodes, and the DFS stages do not terminate on
cyclic references.) -/
theorem C4_mark_ids (nc : NormConvo)
    (hroot : nc.root_source_node_id ≠ "")
    (hmem : (alookup nc.nodes nc.root_source_node_id).isSome)
    (hnd : (akeys nc.nodes).Nodup)
    (hacyc : TreeRanked nc.nodes) :
    ∃ t : PTree, apply_mark_ids nc = some t ∧
      (∀ mark node, alookup t.nodes mark = some node → check_mark_format mark = true) ∧
      (∃ p, t.root_node_id = p ++ "A 0 of 0") ∧
      (akeys t.nodes).Nodup ∧
      t.nodes.length = nc.nodes.length ∧
      (∀ sid ∈ akeys nc.nodes, ∃ mark node, alookup t.nodes mark = some node ∧
        node.source_node_id = sid) := by
  obtain ⟨rank, hch, hpar, hbound⟩ := hacyc
  have hAspec := computeA_nodes_spec nc.nodes nc.root_source_node_id rank hch hpar hnd
  have hkeys1 := hAspec.1
  have hrd1 := hAspec.2
  have hnd1 : (akeys (compute_A_labels nc.nodes nc.root_source_node_id).2).Nodup := by
    rw [hkeys1]
    exact hnd
  have hlen1 : (compute_A_labels nc.nodes nc.root_source_node_id).2.length = nc.nodes.length :=
    length_eq_of_akeys_eq _ _ hkeys1
  have hbd1 : rank nc.root_source_node_id ≤
      (compute_A_labels nc.nodes nc.root_source_node_id).2.length := by
    rw [hlen1]
    exact hbound _
  obtain ⟨B, hB⟩ := Option.isSome_iff_exists.1
    (computeB_isSome _ nc.root_source_node_id rank hrd1 hbd1)
  obtain ⟨N, hN⟩ := Option.isSome_iff_exists.1
    (computeN_isSome _ nc.root_source_node_id rank hrd1 hbd1)
  have happ := apply_mark_ids_eq nc hroot hmem B N hB hN
  have hspec := mark_table_spec (compute_A_labels nc.nodes nc.root_source_node_id).2
    (compute_A_labels nc.nodes nc.root_source_node_id).1 B
    (compute_T_labels (compute_A_labels nc.nodes nc.root_source_node_id).2) N hnd1
    (computeN_shape _ nc.root_source_node_id N hN)
    (computeB_shape _ nc.root_source_node_id B hB)
    (computeA_A_shape nc.nodes nc.root_source_node_id)
    rfl
  refine ⟨_, happ, hspec.1, ?_, hspec.2.1, hspec.2.2.1.trans hlen1, ?_⟩
  · exact markOf_root_placeholder _ _ _ _ _ (computeA_root_none nc.nodes nc.root_source_node_id)
  · intro sid hsid
    have hsid1 : sid ∈ akeys (compute_A_labels nc.nodes nc.root_source_node_id).2 := by
      rw [hkeys1]
      exact hsid
    exact hspec.2.2.2 sid hsid1

/-- Claim C4 counterexample: in `exEmptyRootNorm` the (empty-string) root source
id is present among the nodes, yet the processed node map comes back empty
instead of containing one entry per source node, because the source treats the
falsy root id as missing. -/
theorem C4_empty_root_counterexample :
    exEmptyRootNorm.root_source_node_id ∈ akeys exEmptyRootNorm.nodes ∧
    (apply_mark_ids exEmptyRootNorm).map (fun t => t.nodes.length) = some 0 ∧
    exEmptyRootNorm.nodes.length = 1 := by
  decide

/-- Claim C4 witness: the corrected statement applied to the concrete
three-node conversation `exNormC4`, with every hypothesis discharged by
evaluation (`exRankC4` witnessing acyclicity). -/
theorem C4_mark_ids_witness :
    ∃ t : PTree, apply_mark_ids exNormC4 = some t ∧
      (∀ mark node, alookup t.nodes mark = some node → check_mark_format mark = true) ∧
      (∃ p, t.root_node_id = p ++ "A 0 of 0") ∧
      (akeys t.nodes).Nodup ∧
      t.nodes.length = exNormC4.nodes.length ∧
      (∀ sid ∈ akeys exNormC4.nodes, ∃ mark node, alookup t.nodes mark = some node ∧
        node.source_node_id = sid) := by
  refine C4_mark_ids exNormC4 (by decide) (by decide) (by decide) ⟨exRankC4, ?_, ?_, ?_⟩
  · exact alookup_cases _ _ (by decide)
  · exact alookup_cases _ _ (by decide)
  · intro id
    unfold exRankC4
    split <;> decide

/-! ### Claim C6: stage totality and its failure modes -/

theorem normalize_isSome_of (rc : RawConvo) (ct ut : Option Rat)
    (hct : float_or_raise rc.create_time = some ct)
    (hut : float_or_raise rc.update_time = some ut) :
    (normalize_conversation rc).isSome := by
  show ((float_or_raise rc.create_time).bind (fun ct0 =>
    (float_or_raise rc.update_time).bind (fun ut0 =>
      if rc.mapping = [] then
        some ({ conversation_id := pyOrStr rc.rid (pyOrStr rc.conversation_id "unknown-id"),
                title := pyOrStr rc.title "Untitled", create_time := ct0, update_time := ut0,
                project := rc.project, root_source_node_id := "", nodes := [] } : NormConvo)
      else
        some ({ conversation_id := pyOrStr rc.rid (pyOrStr rc.conversation_id "unknown-id"),
                title := pyOrStr rc.title "Untitled", create_time := ct0, update_time := ut0,
                project := rc.project,
                root_source_node_id := find_root_id (normalize_mapping_tree rc.mapping),
                nodes := (normalize_mapping_tree rc.mapping).map
                  (fun kv => (kv.1, extract_node_fields kv.1 kv.2)) } : NormConvo)))).isSome
  rw [hct, hut]
  cases hm : rc.mapping with
  | nil => rfl
  | cons kv t => rfl

/-- Fueled witness that the branch-count DFS of the source really diverges
on the cyclic two-node map: no fuel makes it return, on either entry
point. -/
theorem dfsB_cyc_none : ∀ fuel,
    (∀ bc acc, dfsB exCycNodes fuel "a" bc acc = none) ∧
    (∀ bc acc, dfsB exCycNodes fuel "b" bc acc = none) := by
  intro fuel
  induction fuel with
  | zero => exact ⟨fun _ _ => rfl, fun _ _ => rfl⟩
  | succ fuel ih =>
    constructor
    · intro bc acc
      have h1 : dfsB exCycNodes (fuel + 1) "a" bc acc =
          (dfsB exCycNodes fuel "b" bc (dinsert acc "a" bc)).bind (fun b2 => some b2) := rfl
      rw [h1, ih.2 bc (dinsert acc "a" bc)]
      rfl
    · intro bc acc
      have h1 : dfsB exCycNodes (fuel + 1) "b" bc acc =
          (dfsB exCycNodes fuel "a" bc (dinsert acc "b" bc)).bind (fun b2 => some b2) := rfl
      rw [h1, ih.1 bc (dinsert acc "b" bc)]
      rfl

/-- The source's branch-label DFS diverges on the cyclic children
references of `exCycNodes`. -/
theorem BDiverges_exCycNodes : BDiverges exCycNodes "a" :=
  fun fuel bc acc => (dfsB_cyc_none fuel).1 bc acc

/-- Claim C6 (corrected): provided the conversation-level `create_time` and
`update_time` parse as numbers (or are absent), normalization terminates
without raising; provided additionally a conversation's node keys are
duplicate-free and its parent/children references are acyclic, identifier
derivation and main-path marking terminate and produce a tree.  (The
original claim promised no fatal errors on *every* input, however
malformed: it fails because the bare `float(...)` calls of
`normalize_conversation` raise `ValueError` on an unparseable timestamp,
and the recursive DFS walks of the labelling and path stages never return
on cyclic references, as `BDiverges_exCycNodes` certifies.) -/
theorem C6_stage_totality :
    (∀ rc : RawConvo, (float_or_raise rc.create_time).isSome →
      (float_or_raise rc.update_time).isSome → (normalize_conversation rc).isSome) ∧
    (∀ nc : NormConvo, (akeys nc.nodes).Nodup → TreeRanked nc.nodes →
      (apply_mark_ids nc).isSome) ∧
    (∀ t : PTree, ChildrenAcyclic (fun n => n.children) t.nodes →
      (mark_main_path t).isSome) := by
  refine ⟨?_, ?_, ?_⟩
  · intro rc h1 h2
    obtain ⟨ct, hct⟩ := Option.isSome_iff_exists.1 h1
    obtain ⟨ut, hut⟩ := Option.isSome_iff_exists.1 h2
    exact normalize_isSome_of rc ct ut hct hut
  · intro nc hnd hacyc
    by_cases hroot : nc.root_source_node_id = "" ∨ (alookup nc.nodes nc.root_source_node_id).isNone
    · unfold apply_mark_ids
      rw [if_pos hroot]
      rfl
    · obtain ⟨h1, h2⟩ := not_or.1 hroot
      have hmem : (alookup nc.nodes nc.root_source_node_id).isSome := by
        cases hl : alookup nc.nodes nc.root_source_node_id with
        | none => exact absurd (by rw [hl]; rfl) h2
        | some v => rfl
      obtain ⟨rank, hch, hpar, hbound⟩ := hacyc
      have hAspec := computeA_nodes_spec nc.nodes nc.root_source_node_id rank hch hpar hnd
      have hnd1 : (akeys (compute_A_labels nc.nodes nc.root_source_node_id).2).Nodup := by
        rw [hAspec.1]
        exact hnd
      have hlen1 : (compute_A_labels nc.nodes nc.root_source_node_id).2.length =
          nc.nodes.length := length_eq_of_akeys_eq _ _ hAspec.1
      have hbd1 : rank nc.root_source_node_id ≤
          (compute_A_labels nc.nodes nc.root_source_node_id).2.length := by
        rw [hlen1]
        exact hbound _
      obtain ⟨B, hB⟩ := Option.isSome_iff_exists.1
        (computeB_isSome _ nc.root_source_node_id rank hAspec.2 hbd1)
      obtain ⟨N, hN⟩ := Option.isSome_iff_exists.1
        (computeN_isSome _ nc.root_source_node_id rank hAspec.2 hbd1)
      rw [apply_mark_ids_eq nc h1 hmem B N hB hN]
      rfl
  · intro t hacyc
    obtain ⟨rank, hrk, hbound⟩ := hacyc
    unfold mark_main_path
    by_cases hc : t.root_node_id = "" ∨ (alookup t.nodes t.root_node_id).isNone
    · rw [if_pos hc]
      rfl
    · rw [if_neg hc]
      obtain ⟨p, hp⟩ := Option.isSome_iff_exists.1
        (walk_main_isSome t.nodes rank hrk hbound (t.nodes.length + 2) t.root_node_id
          (by have := hbound t.root_node_id; omega))
      rw [hp]
      rfl

/-- Claim C6 counterexample: the pipeline's first stage raises a fatal
`ValueError` on `exBadTimeConvo`, whose conversation-level `create_time`
is an unparseable string. -/
theorem C6_unparseable_time_counterexample :
    normalize_conversation exBadTimeConvo = none := rfl

/-- Claim C6 witness: the three stage-totality clauses applied at concrete
inputs, each hypothesis discharged by evaluation. -/
theorem C6_stage_totality_witness :
    (normalize_conversation (mkConvo "conv-b" (.numV 200) none)).isSome ∧
    (apply_mark_ids exNormC4).isSome ∧ (mark_main_path exPTree).isSome := by
  refine ⟨C6_stage_totality.1 _ (by decide) (by decide),
    C6_stage_totality.2.1 exNormC4 (by decide) ⟨exRankC4, ?_, ?_, ?_⟩,
    C6_stage_totality.2.2 exPTree ⟨exRank, ?_, ?_⟩⟩
  · exact alookup_cases _ _ (by decide)
  · exact alookup_cases _ _ (by decide)
  · intro id
    unfold exRankC4
    split <;> decide
  · exact alookup_cases _ _ (by decide)
  · intro id
    unfold exRank
    split <;> decide

/-! ### Claim C7: project buckets, ordering and labels -/

theorem addBucket_mem : ∀ (acc : List (Option String × List RawConvo)) (p : Option String)
    (c : RawConvo), ∀ pg ∈ addBucket acc p c, ∀ x ∈ pg.2,
      (∃ pg0 ∈ acc, pg0.1 = pg.1 ∧ x ∈ pg0.2) ∨ (pg.1 = p ∧ x = c) := by
  intro acc
  induction acc with
  | nil =>
    intro p c pg hpg x hx
    rcases List.mem_singleton.1 hpg with rfl
    rcases List.mem_singleton.1 hx with rfl
    exact Or.inr ⟨rfl, rfl⟩
  | cons kv rest ih =>
    intro p c pg hpg x hx
    obtain ⟨k, g⟩ := kv
    have hpg' : pg ∈ (if k = p then (k, g ++ [c]) :: rest else (k, g) :: addBucket rest p c) := hpg
    by_cases he : k = p
    · rw [if_pos he] at hpg'
      rcases List.mem_cons.1 hpg' with rfl | hm
      · rcases List.mem_append.1 hx with hg | hc2
        · exact Or.inl ⟨(k, g), List.mem_cons_self _ _, rfl, hg⟩
        · rcases List.mem_singleton.1 hc2 with rfl
          exact Or.inr ⟨he, rfl⟩
      · exact Or.inl ⟨pg, List.mem_cons_of_mem _ hm, rfl, hx⟩
    · rw [if_neg he] at hpg'
      rcases List.mem_cons.1 hpg' with rfl | hm
      · exact Or.inl ⟨(k, g), List.mem_cons_self _ _, rfl, hx⟩
      · rcases ih p c pg hm x hx with ⟨pg0, h0, he0, hx0⟩ | h
        · exact Or.inl ⟨pg0, List.mem_cons_of_mem _ h0, he0, hx0⟩
        · exact Or.inr h

theorem buckets_mem (convos : List RawConvo) :
    ∀ pg ∈ buckets_of convos, ∀ rc ∈ pg.2, project_key_from_raw rc = pg.1 := by
  have main : ∀ (l : List RawConvo) (acc : List (Option String × List RawConvo)),
      (∀ pg ∈ acc, ∀ rc ∈ pg.2, project_key_from_raw rc = pg.1) →
      ∀ pg ∈ l.foldl (fun acc rc => addBucket acc (project_key_from_raw rc) rc) acc,
        ∀ rc ∈ pg.2, project_key_from_raw rc = pg.1 := by
    intro l
    induction l with
    | nil => intro acc hacc; exact hacc
    | cons c rest ih =>
      intro acc hacc
      rw [List.foldl_cons]
      refine ih _ ?_
      intro pg hpg rc hrc
      rcases addBucket_mem acc (project_key_from_raw c) c pg hpg rc hrc with
        ⟨pg0, h0, he0, hm0⟩ | ⟨he, rfl⟩
      · rw [← he0]
        exact hacc pg0 h0 rc hm0
      · rw [he]
  intro pg hpg rc hrc
  exact main convos [] (fun pg0 h0 => absurd h0 (List.not_mem_nil pg0)) pg hpg rc hrc

theorem bucket_get_key (convos : List RawConvo) (pk : Option String) :
    ∀ rc ∈ bucket_get (buckets_of convos) pk, project_key_from_raw rc = pk := by
  intro rc hrc
  unfold bucket_get at hrc
  cases hf : (buckets_of convos).find? (fun kv => kv.1 = pk) with
  | none =>
    rw [hf] at hrc
    simp at hrc
  | some kv =>
    rw [hf] at hrc
    have hrc2 : rc ∈ kv.2 := hrc
    have hkv : kv ∈ buckets_of convos := List.mem_of_find?_eq_some hf
    have hd := List.find?_some hf
    have hkey : kv.1 = pk := of_decide_eq_true hd
    rw [← hkey]
    exact buckets_mem convos kv hkv rc hrc2

theorem lex3Le_convo_imp_claim (a b : RawConvo)
    (h : lex3Le (order_key_time_then_id a) (order_key_time_then_id b)) :
    claim_convo_le a b := by
  unfold order_key_time_then_id at h
  cases hta : convo_time_from_raw a with
  | none =>
    cases htb : convo_time_from_raw b with
    | none =>
      rw [hta, htb] at h
      have h3 : (1 : Nat) < 1 ∨ ((1 : Nat) = 1 ∧ (bigTime < bigTime ∨ (bigTime = bigTime ∧
          a.conversation_id.getD "" ≤ b.conversation_id.getD ""))) := h
      unfold claim_convo_le
      rw [hta, htb]
      show a.conversation_id.getD "" ≤ b.conversation_id.getD ""
      rcases h3 with h3 | ⟨_, h3 | ⟨_, h3⟩⟩
      · omega
      · exact absurd h3 (lt_irrefl _)
      · exact h3
    | some tb =>
      rw [hta, htb] at h
      have h3 : (1 : Nat) < 0 ∨ ((1 : Nat) = 0 ∧ (bigTime < tb ∨ (bigTime = tb ∧
          a.conversation_id.getD "" ≤ b.conversation_id.getD ""))) := h
      rcases h3 with h3 | ⟨h3, _⟩
      · omega
      · omega
  | some ta =>
    cases htb : convo_time_from_raw b with
    | none =>
      unfold claim_convo_le
      rw [hta, htb]
      trivial
    | some tb =>
      rw [hta, htb] at h
      have h3 : (0 : Nat) < 0 ∨ ((0 : Nat) = 0 ∧ (ta < tb ∨ (ta = tb ∧
          a.conversation_id.getD "" ≤ b.conversation_id.getD ""))) := h
      unfold claim_convo_le
      rw [hta, htb]
      show ta < tb ∨ (ta = tb ∧ a.conversation_id.getD "" ≤ b.conversation_id.getD "")
      rcases h3 with h3 | ⟨_, h3⟩
      · omega
      · exact h3

theorem p_label_some (convos : List RawConvo) (k : String)
    (hk : k ∈ project_keys_sorted convos) :
    ∃ i, ∃ h : i < (project_keys_sorted convos).length,
      (project_keys_sorted convos).get ⟨i, h⟩ = k ∧
      p_label_of convos (some k) = "P" ++ padNum 4 (i + 1) := by
  obtain ⟨j, hj, hlt, hget⟩ := findIdx_of_mem (project_keys_sorted convos) k hk 0
  refine ⟨j, hlt, hget, ?_⟩
  unfold p_label_of
  show (match (project_keys_sorted convos).findIdx? (fun x => x = k) with
    | some i => "P" ++ padNum 4 (i + 1)
    | none => "P0000") = "P" ++ padNum 4 (j + 1)
  rw [hj]
  show "P" ++ padNum 4 (0 + j + 1) = "P" ++ padNum 4 (j + 1)
  rw [Nat.zero_add]

theorem owl_mem (convos : List RawConvo) (pk : Option String)
    (hpk : pk ∈ none :: (project_keys_sorted convos).map some) (j : Nat)
    (hj : j < (sortByKey order_key_time_then_id (bucket_get (buckets_of convos) pk)).length) :
    ((sortByKey order_key_time_then_id (bucket_get (buckets_of convos) pk)).get ⟨j, hj⟩,
      p_label_of convos pk, "C" ++ padNum 4 (j + 1)) ∈ ordered_with_labels convos := by
  refine List.mem_flatten.2
    ⟨(sortByKey order_key_time_then_id (bucket_get (buckets_of convos) pk)).enum.map
      (fun ic => (ic.2, p_label_of convos pk, "C" ++ padNum 4 (ic.1 + 1))), ?_, ?_⟩
  · exact List.mem_map.2 ⟨pk, hpk, rfl⟩
  · refine List.mem_map.2
      ⟨(j, (sortByKey order_key_time_then_id (bucket_get (buckets_of convos) pk)).get ⟨j, hj⟩),
        ?_, rfl⟩
    exact List.mem_enum_iff_get?.2 (by rw [List.get?_eq_get hj])

theorem convert_one_labels (rc : RawConvo) (pl cl : String) (t : PTree)
    (h : convert_one rc pl cl = some t) :
    t.derived = some { labelP := pl, labelC := cl, labelPC := pl ++ "-" ++ cl } := by
  have h2 : (normalize_conversation rc).bind (fun normalized =>
      (apply_mark_ids normalized).bind (fun t1 =>
        (mark_main_path t1).bind (fun t2 =>
          some { t2 with derived := some (⟨pl, cl, pl ++ "-" ++ cl⟩ : PCL) }))) = some t := h
  cases hn : normalize_conversation rc with
  | none =>
    rw [hn] at h2
    exact Option.noConfusion h2
  | some nc =>
    rw [hn] at h2
    have h3 : (apply_mark_ids nc).bind (fun t1 => (mark_main_path t1).bind (fun t2 =>
        some { t2 with derived := some (⟨pl, cl, pl ++ "-" ++ cl⟩ : PCL) })) = some t := h2
    cases ha : apply_mark_ids nc with
    | none =>
      rw [ha] at h3
      exact Option.noConfusion h3
    | some t1 =>
      rw [ha] at h3
      have h4 : (mark_main_path t1).bind (fun t2 =>
          some { t2 with derived := some (⟨pl, cl, pl ++ "-" ++ cl⟩ : PCL) }) = some t := h3
      cases hm : mark_main_path t1 with
      | none =>
        rw [hm] at h4
        exact Option.noConfusion h4
      | some t2 =>
        rw [hm] at h4
        have h5 : some { t2 with derived := some (⟨pl, cl, pl ++ "-" ++ cl⟩ : PCL) } = some t := h4
        rcases Option.some.inj h5 with rfl
        rfl

/-- Claim C7 (confirmed): every entry of the labelled batch whose conversation
has no project key carries P-label `"P0000"`, and one with project key `k`
carries `"P" ++ padNum 4 (i+1)` where `i` is the position of `k` in the sorted
project-key order; each bucket (the no-project bucket and each project bucket in
sorted order) contributes its conversations sorted by the claimed
`(has-time, time, conversation-id)` order with C-labels `"C" ++ padNum 4 (j+1)`
by position; and whenever the pipeline succeeds on an entry, the attached
combined label is `"<P-label>-<C-label>"`. -/
theorem C7_bucket_labels (convos : List RawConvo) :
    (∀ e ∈ ordered_with_labels convos,
      (project_key_from_raw e.1 = none → e.2.1 = "P0000") ∧
      (∀ k, project_key_from_raw e.1 = some k →
        ∃ i, ∃ h : i < (project_keys_sorted convos).length,
          (project_keys_sorted convos).get ⟨i, h⟩ = k ∧ e.2.1 = "P" ++ padNum 4 (i + 1))) ∧
    (∀ pk ∈ none :: (project_keys_sorted convos).map some,
      ∃ sorted : List RawConvo,
        sorted.Perm (bucket_get (buckets_of convos) pk) ∧
        List.Pairwise claim_convo_le sorted ∧
        ∀ j, ∀ hj : j < sorted.length,
          (sorted.get ⟨j, hj⟩, p_label_of convos pk, "C" ++ padNum 4 (j + 1))
            ∈ ordered_with_labels convos) ∧
    (∀ rc pl cl, (rc, pl, cl) ∈ ordered_with_labels convos →
      ∀ t, convert_one rc pl cl = some t →
        t.derived = some { labelP := pl, labelC := cl, labelPC := pl ++ "-" ++ cl }) := by
  refine ⟨?_, ?_, ?_⟩
  · intro e he
    rcases List.mem_flatten.1 he with ⟨l, hl, hel⟩
    rcases List.mem_map.1 hl with ⟨pk, hpk, rfl⟩
    rcases List.mem_map.1 hel with ⟨ic, hic, rfl⟩
    have hmem : ic.2 ∈ sortByKey order_key_time_then_id (bucket_get (buckets_of convos) pk) :=
      List.get?_mem (List.mem_enum_iff_get?.1 hic)
    have hmem2 : ic.2 ∈ bucket_get (buckets_of convos) pk :=
      (sortByKey_perm _ _).mem_iff.1 hmem
    have hkey : project_key_from_raw ic.2 = pk := bucket_get_key convos pk ic.2 hmem2
    constructor
    · intro hnone
      show p_label_of convos pk = "P0000"
      rw [← hkey, hnone]
      rfl
    · intro k hk
      have hpk2 : pk = some k := by rw [← hkey, hk]
      subst hpk2
      have hkmem : k ∈ project_keys_sorted convos := by
        rcases List.mem_cons.1 hpk with hcl | hcl
        · exact Option.noConfusion hcl
        · rcases List.mem_map.1 hcl with ⟨k', hk', heq⟩
          rcases Option.some.inj heq with rfl
          exact hk'
      obtain ⟨i, hlt, hget, hpl⟩ := p_label_some convos k hkmem
      exact ⟨i, hlt, hget, hpl⟩
  · intro pk hpk
    refine ⟨sortByKey order_key_time_then_id (bucket_get (buckets_of convos) pk),
      sortByKey_perm _ _, ?_, ?_⟩
    · exact (sortByKey_sorted order_key_time_then_id _).imp
        (fun h => lex3Le_convo_imp_claim _ _ h)
    · intro j hj
      exact owl_mem convos pk hpk j hj
  · intro rc pl cl _ t h
    exact convert_one_labels rc pl cl t h

/-- Claim C7 witness: on the two-conversation batch `exConvos`, the
project-less conversation is labelled `P0000-C0001` and the project
conversation's P-label comes from position 0 of the sorted project keys,
i.e. `P0001`. -/
theorem C7_bucket_labels_witness :
    ((mkConvo "conv-b" (.numV 200) none, "P0000", "C0001") ∈ ordered_with_labels exConvos ∧
      (mkConvo "conv-a" (.numV 100) (some { pid := some "p1", pname := none }),
        "P0001", "C0001") ∈ ordered_with_labels exConvos) ∧
    ∃ i, ∃ h : i < (project_keys_sorted exConvos).length,
      (project_keys_sorted exConvos).get ⟨i, h⟩ = "id:p1" ∧
      ("P0001" : String) = "P" ++ padNum 4 (i + 1) := by
  have hma : (mkConvo "conv-a" (.numV 100) (some { pid := some "p1", pname := none }),
      "P0001", "C0001") ∈ ordered_with_labels exConvos := by decide
  have hmb : (mkConvo "conv-b" (.numV 200) none, "P0000", "C0001") ∈
      ordered_with_labels exConvos := by decide
  exact ⟨⟨hmb, hma⟩,
    ((C7_bucket_labels exConvos).1 _ hma).2 "id:p1" (by decide)⟩
